import Mathlib

/-!
# Verification of the runtime hash map (`src/runtime/map.go`)

This file is a shallow embedding of the Go runtime map implementation in
`src/runtime/map.go` together with proofs about it.

Modelling conventions:
* Machine integers (`uintptr`, `int`, `uint8`, …) become `Nat`/`Int` with
  explicit `% 2^w` at the places where the code converts or masks.
* Bucket memory is modelled structurally: a bucket chain (a bucket plus its
  linked overflow buckets, in walk order) is a flat `List (Cell K V)` whose
  length is a multiple of `bucketCnt = 8`; cell `8*q + r` of the list is cell
  `r` of the `q`-th bucket of the chain.  Address arithmetic
  (`dataOffset + i*keysize` …) is replaced by structural field access; the
  tophash discipline, walk order, overflow linking and evacuation logic are
  modelled instruction by instruction.
* The per-type plug-ins (hash function, key equality, the `indirect*`
  predicates' memory effects) are abstracted into a `maptype` record.  A hash
  function that may trap ("panic" in Go) returns `none`.
* Fatal errors (`throw`) and panics are modelled with `Except mapFault`.
  Mutating operations return their final state alongside the status, so that
  statements about the state at a trap can be made.
* `fastrand` based behaviour: the probabilistic `noverflow` increment for
  `B ≥ 16` is modelled as the branch where the sampled bits are non-zero (no
  increment); the random iterator start is a parameter of the iterator state.
* GC-assist memory clearing (`memclrHasPointers` on evacuated old buckets)
  only erases data that no modelled operation reads again; it is not modelled.
-/

namespace GoMap

/-- `sys.PtrSize * 8` for the 64-bit platforms the runtime targets here. -/
def ptrBits : Nat := 64

/-! ## Constants from map.go -/

def bucketCntBits : Nat := 3
/-- Maximum number of key/elem pairs a bucket can hold. -/
def bucketCnt : Nat := 1 <<< bucketCntBits
def loadFactorNum : Nat := 13
def loadFactorDen : Nat := 2

/-- tophash sentinel: cell empty, no more non-empty cells at higher indexes
or overflows in this chain. -/
def emptyRest : Nat := 0
/-- tophash sentinel: this cell is empty. -/
def emptyOne : Nat := 1
/-- tophash sentinel: entry evacuated to first half of larger table. -/
def evacuatedX : Nat := 2
/-- tophash sentinel: entry evacuated to second half of larger table. -/
def evacuatedY : Nat := 3
/-- tophash sentinel: cell empty, bucket evacuated. -/
def evacuatedEmpty : Nat := 4
/-- minimum tophash for a normal filled cell. -/
def minTopHash : Nat := 5

/-- sentinel bucket ID for iterator checks (`1<<(8*sys.PtrSize) - 1`). -/
def noCheck : Nat := 1 <<< (8 * 8) - 1

/-- `isEmpty` reports whether the given tophash array entry represents an
empty bucket entry. -/
def isEmptyTop (x : Nat) : Bool := x ≤ emptyOne

/-- `bucketShift` returns `1<<b`; the Go code masks the shift amount by the
word size to elide overflow checks. -/
def bucketShift (b : Nat) : Nat := 1 <<< (b % ptrBits)

/-- `bucketMask` returns `1<<b - 1`. -/
def bucketMask (b : Nat) : Nat := bucketShift b - 1

/-- `tophash` calculates the tophash value for a hash:
`uint8(hash >> (sys.PtrSize*8 - 8))`, bumped above the sentinel range. -/
def tophash (hash : Nat) : Nat :=
  let top := (hash >>> (ptrBits - 8)) % 256
  if top < minTopHash then top + minTopHash else top

/-! ## The data model -/

/-- The per-type descriptor (`*maptype` plus the parts of its `key` type the
core uses).  The hash function returns `none` when it traps. -/
structure maptype (K V : Type) where
  hasher : K → Nat → Option Nat
  keyEqual : K → K → Bool
  reflexivekey : Bool
  hashMightPanic : Bool
  needkeyupdate : Bool
  /-- whether `t.bucket.ptrdata == 0` holds, i.e. the bucket type contains
  no pointers (drives the overflow registry bookkeeping). -/
  bucketPtrdataZero : Bool

/-- One cell of a bucket: its tophash byte and the key/elem slots.  The slots
always hold a value (possibly a stale or zero one); only cells whose tophash
is `≥ minTopHash` are live. -/
structure Cell (K V : Type) where
  top : Nat
  key : K
  val : V
deriving DecidableEq, Repr

/-- A bucket chain: the cells of a bucket followed by the cells of its
overflow buckets, in walk order. -/
abbrev Chain (K V : Type) := List (Cell K V)

/-- A freshly allocated cell: zeroed memory, tophash `emptyRest = 0`. -/
def emptyCell (K V : Type) [Inhabited K] [Inhabited V] : Cell K V :=
  ⟨emptyRest, default, default⟩

/-- A freshly allocated bucket (8 zeroed cells, no overflow). -/
def freshBucket (K V : Type) [Inhabited K] [Inhabited V] : Chain K V :=
  List.replicate bucketCnt (emptyCell K V)

/-- The `hmap.flags` bits. -/
structure Flags where
  iterator : Bool
  oldIterator : Bool
  hashWriting : Bool
  sameSizeGrow : Bool
deriving DecidableEq, Repr

def Flags.clearWriting (f : Flags) : Flags := { f with hashWriting := false }

/-- The map header `hmap`.  `buckets = []` models a nil `buckets` pointer
(legal only for `B = 0`, `count = 0`).  The `extra` registries are modelled
by booleans recording whether `extra.overflow` / `extra.oldoverflow` are
non-nil. -/
structure hmap (K V : Type) where
  count : Nat
  flags : Flags
  B : Nat
  noverflow : Nat
  hash0 : Nat
  buckets : List (Chain K V)
  oldbuckets : Option (List (Chain K V))
  nevacuate : Nat
  overflowReg : Bool
  oldoverflowReg : Bool
deriving DecidableEq, Repr

/-- Faults: Go `throw` (unrecoverable fatal error), Go `panic`, and a trap
raised by the key type's hash function. -/
inductive mapFault where
  | goThrow (msg : String)
  | goPanic (msg : String)
  | hashTrap
deriving DecidableEq, Repr

/-- The possible results of `mapaccess1`: a nil pointer, the shared
`&zeroVal[0]` sentinel, or a pointer to a stored element. -/
inductive MPtr (V : Type) where
  | null
  | zeroVal
  | elem (v : V)
deriving DecidableEq, Repr

/-! ## Header helper methods -/

/-- `evacuated` reports whether a bucket has been evacuated, by inspecting
`b.tophash[0]`. -/
def chainEvacuated {K V : Type} (c : Chain K V) : Bool :=
  match c with
  | [] => false
  | cell :: _ => emptyOne < cell.top && cell.top < minTopHash

/-- `h.growing()`: a grow is in progress iff `oldbuckets ≠ nil`. -/
def hmap.growing {K V : Type} (h : hmap K V) : Bool := h.oldbuckets.isSome

/-- `h.sameSizeGrow()`. -/
def hmap.isSameSizeGrow {K V : Type} (h : hmap K V) : Bool := h.flags.sameSizeGrow

/-- `h.noldbuckets()`: the number of buckets prior to the current grow. -/
def hmap.noldbuckets {K V : Type} (h : hmap K V) : Nat :=
  bucketShift (if h.isSameSizeGrow then h.B else h.B - 1)

/-- `h.oldbucketmask()`. -/
def hmap.oldbucketmask {K V : Type} (h : hmap K V) : Nat := h.noldbuckets - 1

/-- `h.incrnoverflow()`: exact while `B < 16`; for larger `B` the increment
happens with probability `2^(15-B)` — modelled as the non-incrementing
outcome of the coin flip. -/
def hmap.incrnoverflow {K V : Type} (h : hmap K V) : hmap K V :=
  if h.B < 16 then { h with noverflow := h.noverflow + 1 } else h

/-- `overLoadFactor` reports whether `count` items placed in `1<<B` buckets
is over the load factor: `count > bucketCnt && uintptr(count) >
loadFactorNum*(bucketShift(B)/loadFactorDen)`.  `count` is a signed `int`;
the `uintptr` conversion wraps negatives to huge values. -/
def overLoadFactor (count : Int) (B : Nat) : Bool :=
  decide (count > (bucketCnt : Int)) &&
    decide ((count % (2 ^ ptrBits : Nat)).toNat >
      loadFactorNum * (bucketShift B / loadFactorDen))

/-- `tooManyOverflowBuckets` reports whether `noverflow` buckets is too many
for a map with `1<<B` buckets. -/
def tooManyOverflowBuckets (noverflow : Nat) (B : Nat) : Bool :=
  let B' := if B > 15 then 15 else B
  decide (noverflow ≥ 1 <<< (B' % 16))

/-! ## Chain walking: lookup -/

/-- The shared cell walk of `mapaccess1`/`mapaccess2`/`mapaccessK` over a
bucket chain: compare tophash, short-circuit the whole walk at `emptyRest`,
compare full keys via the type's equality on a tophash match. -/
def chainLookup {K V : Type} (t : maptype K V) (key : K) (top : Nat) :
    Chain K V → Option (K × V)
  | [] => none
  | c :: rest =>
    if c.top ≠ top then
      if c.top = emptyRest then none else chainLookup t key top rest
    else if t.keyEqual key c.key then some (c.key, c.val)
    else chainLookup t key top rest

/-- Bucket selection shared by the access functions: locate the chain to
walk, redirecting to the old bucket during a grow when that bucket is not
yet evacuated.  Go's `hash & m` for a mask `m = 2^k - 1` is written
`hash % (m + 1)` here. -/
def lookupChain {K V : Type} [Inhabited K] [Inhabited V]
    (h : hmap K V) (hash : Nat) : Chain K V :=
  let m := bucketMask h.B
  let b := h.buckets.getD (hash % (m + 1)) []
  match h.oldbuckets with
  | none => b
  | some old =>
    let m' := if !h.isSameSizeGrow then m >>> 1 else m
    let oldb := old.getD (hash % (m' + 1)) []
    if !chainEvacuated oldb then oldb else b

/-- `mapaccess1` returns a pointer to `h[key]`; never nil, instead the
`&zeroVal[0]` sentinel when the key is not present. -/
def mapaccess1 {K V : Type} [Inhabited K] [Inhabited V]
    (t : maptype K V) (h? : Option (hmap K V)) (key : K) :
    Except mapFault (MPtr V) :=
  match h? with
  | none =>
    if t.hashMightPanic && (t.hasher key 0).isNone then .error .hashTrap
    else .ok .zeroVal
  | some h =>
    if h.count = 0 then
      if t.hashMightPanic && (t.hasher key 0).isNone then .error .hashTrap
      else .ok .zeroVal
    else if h.flags.hashWriting then
      .error (.goThrow "concurrent map read and map write")
    else
      match t.hasher key h.hash0 with
      | none => .error .hashTrap
      | some hash =>
        match chainLookup t key (tophash hash) (lookupChain h hash) with
        | some (_, v) => .ok (.elem v)
        | none => .ok .zeroVal

/-- `mapaccess2`: like `mapaccess1` but also returns a presence flag. -/
def mapaccess2 {K V : Type} [Inhabited K] [Inhabited V]
    (t : maptype K V) (h? : Option (hmap K V)) (key : K) :
    Except mapFault (MPtr V × Bool) :=
  match h? with
  | none =>
    if t.hashMightPanic && (t.hasher key 0).isNone then .error .hashTrap
    else .ok (.zeroVal, false)
  | some h =>
    if h.count = 0 then
      if t.hashMightPanic && (t.hasher key 0).isNone then .error .hashTrap
      else .ok (.zeroVal, false)
    else if h.flags.hashWriting then
      .error (.goThrow "concurrent map read and map write")
    else
      match t.hasher key h.hash0 with
      | none => .error .hashTrap
      | some hash =>
        match chainLookup t key (tophash hash) (lookupChain h hash) with
        | some (_, v) => .ok (.elem v, true)
        | none => .ok (.zeroVal, false)

/-- `mapaccessK` returns both key and elem, for the map iterator.  Note: it
performs no `hashWriting` race check. -/
def mapaccessK {K V : Type} [Inhabited K] [Inhabited V]
    (t : maptype K V) (h? : Option (hmap K V)) (key : K) :
    Except mapFault (Option (K × V)) :=
  match h? with
  | none => .ok none
  | some h =>
    if h.count = 0 then .ok none
    else
      match t.hasher key h.hash0 with
      | none => .error .hashTrap
      | some hash =>
        .ok (chainLookup t key (tophash hash) (lookupChain h hash))

/-! ## Bucket array allocation and map creation (structural part)

`makeBucketArray` returns `2^b` zeroed buckets.  The extra pre-allocated
overflow-bucket pool (for `b ≥ 4`) lives past the main array and is only
observable through which memory later overflow buckets occupy; the pool is
modelled address-level separately (see the `Pool` namespace below). -/

def makeBucketArray (K V : Type) [Inhabited K] [Inhabited V] (b : Nat) :
    List (Chain K V) :=
  List.replicate (bucketShift b) (freshBucket K V)

/-- The `B`-search loop of `makemap`:
`B := 0; for overLoadFactor(hint, B) { B++ }`.  The loop always terminates
before `B = 64` — `overLoadFactor hint 63` is false for every hint because
`13·2^62` exceeds every wrapped `uintptr` — so running it with fuel 64 is
exact (`makemapFindB_spec` below). -/
def makemapFindBAux (hint : Int) : Nat → Nat → Nat
  | b, 0 => b
  | b, fuel + 1 =>
    if overLoadFactor hint b then makemapFindBAux hint (b + 1) fuel else b

def makemapFindB (hint : Int) : Nat := makemapFindBAux hint 0 64

/-- `makemap` given the already-validated hint (the core that cannot fail).
The caller supplies the `fastrand()` hash seed. -/
def makemapCore (K V : Type) [Inhabited K] [Inhabited V]
    (hint : Int) (seed : Nat) : hmap K V :=
  let B := makemapFindB hint
  { count := 0
    flags := ⟨false, false, false, false⟩
    B := B
    noverflow := 0
    hash0 := seed
    buckets := if B ≠ 0 then makeBucketArray K V B else []
    oldbuckets := none
    nevacuate := 0
    overflowReg := false
    oldoverflowReg := false }

/-- `makemap_small`: header only, buckets allocated lazily. -/
def makemap_small (K V : Type) (seed : Nat) : hmap K V :=
  { count := 0, flags := ⟨false, false, false, false⟩, B := 0, noverflow := 0
    hash0 := seed, buckets := [], oldbuckets := none, nevacuate := 0
    overflowReg := false, oldoverflowReg := false }

/-! ## Grow initiation -/

/-- `hashGrow`: allocate the new bucket array, move the current one into
`oldbuckets`, reset the evacuation cursor and the overflow bookkeeping.
Throws `oldoverflow is not nil` if the old registry was not cleaned up. -/
def hashGrow {K V : Type} [Inhabited K] [Inhabited V]
    (h : hmap K V) : Except mapFault (hmap K V) :=
  let bigger := if !overLoadFactor (h.count + 1) h.B then 0 else 1
  let flags0 := if !overLoadFactor (h.count + 1) h.B then
    { h.flags with sameSizeGrow := true } else h.flags
  let oldbuckets := h.buckets
  let newbuckets := makeBucketArray K V (h.B + bigger)
  -- `flags := h.flags &^ (iterator|oldIterator); if h.flags&iterator != 0 { flags |= oldIterator }`
  let flags : Flags :=
    { iterator := false, oldIterator := flags0.iterator,
      hashWriting := flags0.hashWriting, sameSizeGrow := flags0.sameSizeGrow }
  let h := { h with
    B := h.B + bigger
    flags := flags
    oldbuckets := some oldbuckets
    buckets := newbuckets
    nevacuate := 0
    noverflow := 0 }
  if h.overflowReg then
    if h.oldoverflowReg then
      .error (.goThrow "oldoverflow is not nil")
    else .ok { h with oldoverflowReg := true, overflowReg := false }
  else .ok h

/-! ## Evacuation -/

/-- The destination decision for one occupied cell during a doubling
evacuation (`map.go` lines 1293–1316): for keys that are not reflexive
under equality — and only while an iterator may be using the buckets — the
low bit of the current tophash picks X or Y and the destination tophash is
recomputed from the fresh hash; otherwise bit `newbit` of the hash decides.
Returns `(useY, destination tophash)`.  `hash & newbit ≠ 0` is written
`(hash / newbit) % 2 ≠ 0` (`newbit` is a power of two). -/
def evacDecision {K V : Type} (t : maptype K V) (iterFlag : Bool)
    (newbit : Nat) (top : Nat) (k : K) (hash : Nat) : Nat × Nat :=
  if iterFlag && !t.reflexivekey && !t.keyEqual k k then
    (top % 2, tophash hash)
  else
    ((if (hash / newbit) % 2 ≠ 0 then 1 else 0), top)

/-- Walk the old bucket chain during `evacuate`: stamp each cell's tophash
with its evacuation state and collect the X- and Y-destined entries in walk
order.  Propagates a hash-function trap. -/
def evacCells {K V : Type} (t : maptype K V) (iterFlag sameSize : Bool)
    (hash0 newbit : Nat) :
    Chain K V → Except mapFault (Chain K V × List (Cell K V) × List (Cell K V))
  | [] => .ok ([], [], [])
  | c :: rest =>
    if isEmptyTop c.top then
      match evacCells t iterFlag sameSize hash0 newbit rest with
      | .error f => .error f
      | .ok (s, xs, ys) => .ok ({ c with top := evacuatedEmpty } :: s, xs, ys)
    else if c.top < minTopHash then
      .error (.goThrow "bad map state")
    else
      let dec : Except mapFault (Nat × Nat) :=
        if sameSize then .ok ((0 : Nat), c.top)
        else
          match t.hasher c.key hash0 with
          | none => .error .hashTrap
          | some hash => .ok (evacDecision t iterFlag newbit c.top c.key hash)
      match dec with
      | .error f => .error f
      | .ok (useY, top') =>
        if evacuatedX + 1 ≠ evacuatedY ∨ evacuatedX ^^^ 1 ≠ evacuatedY then
          .error (.goThrow "bad evacuatedN")
        else
          match evacCells t iterFlag sameSize hash0 newbit rest with
          | .error f => .error f
          | .ok (s, xs, ys) =>
            let entry : Cell K V := { top := top', key := c.key, val := c.val }
            if useY = 1 then
              .ok ({ c with top := evacuatedX + useY } :: s, xs, entry :: ys)
            else
              .ok ({ c with top := evacuatedX + useY } :: s, entry :: xs, ys)

/-- Write the collected entries into a destination chain through the
evacuation cursor (`cur` = cells of the current destination bucket not yet
overwritten, `rest` = the chain after the current bucket): entries
overwrite the destination bucket from cell 0; when a bucket fills and
another entry arrives, `newoverflow` relinks the bucket to a fresh overflow
bucket (dropping whatever the overflow pointer previously referenced). -/
def evacFillGo {K V : Type} [Inhabited K] [Inhabited V] :
    List (Cell K V) → List (Cell K V) → Chain K V → Chain K V
  | [], cur, rest => cur ++ rest
  | e :: es, [], _rest =>
    -- dst.i == bucketCnt: a fresh overflow bucket replaces the tail
    e :: evacFillGo es (List.replicate (bucketCnt - 1) (emptyCell K V)) []
  | e :: es, _ :: cur, rest => e :: evacFillGo es cur rest

def evacFill {K V : Type} [Inhabited K] [Inhabited V]
    (dst : Chain K V) (es : List (Cell K V)) : Chain K V :=
  evacFillGo es (dst.take bucketCnt) (dst.drop bucketCnt)

/-- Number of `newoverflow` calls made while writing `m` entries through an
evacuation cursor. -/
def evacOverflowCalls (m : Nat) : Nat :=
  if m = 0 then 0 else (m - 1) / bucketCnt

/-- Iterate `incrnoverflow` for the overflow buckets allocated while filling
a destination, and record them in the overflow registry when the bucket
type has no pointers. -/
def applyNewoverflows {K V : Type} (t : maptype K V) (h : hmap K V)
    (calls : Nat) : hmap K V :=
  let h := (hmap.incrnoverflow)^[calls] h
  if calls ≠ 0 && t.bucketPtrdataZero then { h with overflowReg := true } else h

/-- `bucketEvacuated`. -/
def bucketEvacuated {K V : Type} (h : hmap K V) (bucket : Nat) : Bool :=
  chainEvacuated ((h.oldbuckets.getD []).getD bucket [])

/-- The cursor-advance loop of `advanceEvacuationMark`:
`for nevacuate != stop && bucketEvacuated(nevacuate) { nevacuate++ }`.
The counter only moves up, so the loop runs at most `stop - nevacuate ≤
1024` times; it is written with that much fuel (exact on every state where
`nevacuate ≤ stop`, which the caller establishes). -/
def advanceLoop {K V : Type} (h : hmap K V) (stop : Nat) :
    Nat → Nat → Nat
  | 0, nevacuate => nevacuate
  | fuel + 1, nevacuate =>
    if nevacuate ≠ stop ∧ bucketEvacuated h nevacuate then
      advanceLoop h stop fuel (nevacuate + 1)
    else nevacuate

/-- `advanceEvacuationMark`: bump the cursor, skip over consecutive already
evacuated buckets (capped at 1024 beyond the bump), and when the cursor
reaches the old-array size release `oldbuckets`, the old overflow registry
and the `sameSizeGrow` flag. -/
def advanceEvacuationMark {K V : Type} (h : hmap K V) (newbit : Nat) :
    hmap K V :=
  let h := { h with nevacuate := h.nevacuate + 1 }
  let stop := min (h.nevacuate + 1024) newbit
  let h := { h with nevacuate := advanceLoop h stop 1024 h.nevacuate }
  if h.nevacuate = newbit then
    { h with oldbuckets := none, oldoverflowReg := false,
             flags := { h.flags with sameSizeGrow := false } }
  else h

/-- `evacuate` one old bucket: split its live entries between the X and Y
destinations (doubling) or copy them to the same index (same-size), stamp
the old cells with their evacuation state, then advance the evacuation
cursor if this was the bucket it pointed at. -/
def evacuate {K V : Type} [Inhabited K] [Inhabited V] (t : maptype K V)
    (h : hmap K V) (oldbucket : Nat) : Except mapFault (hmap K V) :=
  let old := h.oldbuckets.getD []
  let b := old.getD oldbucket []
  let newbit := h.noldbuckets
  let step : Except mapFault (hmap K V) :=
    if !chainEvacuated b then
      match evacCells t h.flags.iterator h.isSameSizeGrow h.hash0 newbit b with
      | .error f => .error f
      | .ok (stamped, xs, ys) =>
        let destX := evacFill (h.buckets.getD oldbucket []) xs
        let h := applyNewoverflows t h (evacOverflowCalls xs.length)
        let buckets := h.buckets.set oldbucket destX
        let (h, buckets) :=
          if !h.isSameSizeGrow then
            let destY := evacFill (buckets.getD (oldbucket + newbit) []) ys
            let h := applyNewoverflows t h (evacOverflowCalls ys.length)
            (h, buckets.set (oldbucket + newbit) destY)
          else (h, buckets)
        .ok { h with buckets := buckets,
                     oldbuckets := some (old.set oldbucket stamped) }
    else
      .ok h
  match step with
  | .error f => .error f
  | .ok h =>
    if oldbucket = h.nevacuate then
      .ok (advanceEvacuationMark h newbit)
    else .ok h

/-- `growWork`: evacuate the old bucket about to be used, plus one more to
make progress. -/
def growWork {K V : Type} [Inhabited K] [Inhabited V] (t : maptype K V)
    (h : hmap K V) (bucket : Nat) : Except mapFault (hmap K V) :=
  match evacuate t h (bucket % (h.oldbucketmask + 1)) with
  | .error f => .error f
  | .ok h =>
    if h.growing then
      evacuate t h h.nevacuate
    else
      .ok h

/-! ## Insert / update -/

/-- Result of the bucket-chain scan of `mapassign`. -/
inductive ScanRes where
  | found (i : Nat)
  | notFound (inserti : Option Nat)
deriving DecidableEq, Repr

/-- The chain scan of `mapassign` (flattened over the chain): track the
first empty cell, stop the scan at `emptyRest`, detect an existing mapping
by tophash plus key equality. -/
def assignScanAux {K V : Type} (t : maptype K V) (key : K) (top : Nat) :
    Chain K V → Nat → Option Nat → ScanRes
  | [], _, ins => .notFound ins
  | c :: rest, i, ins =>
    if c.top ≠ top then
      let ins' := if isEmptyTop c.top && ins.isNone then some i else ins
      if c.top = emptyRest then .notFound ins'
      else assignScanAux t key top rest (i + 1) ins'
    else if t.keyEqual key c.key then .found i
    else assignScanAux t key top rest (i + 1) ins

def assignScan {K V : Type} (t : maptype K V) (key : K) (top : Nat)
    (chain : Chain K V) : ScanRes :=
  assignScanAux t key top chain 0 none

/-- The grow trigger of `mapassign` (after finding no mapping for the key):
`!h.growing() && (overLoadFactor(h.count+1, h.B) ||
tooManyOverflowBuckets(h.noverflow, h.B))`. -/
def assignGrowCond {K V : Type} (h : hmap K V) : Bool :=
  !h.growing &&
    (overLoadFactor (h.count + 1) h.B ||
     tooManyOverflowBuckets h.noverflow h.B)

/-- The `done:` label of `mapassign`: re-check and clear the write flag. -/
def mapassignDone {K V : Type} (h : hmap K V) :
    Except mapFault Unit × hmap K V :=
  if !h.flags.hashWriting then
    (.error (.goThrow "concurrent map writes"), h)
  else (.ok (), { h with flags := h.flags.clearWriting })

/-- The `again:` loop body of `mapassign` (the `goto again` after a
`hashGrow` is the recursive call; `fuel` bounds the number of retries and
is irrelevant on every reachable state, where at most a handful of passes
happen).  The caller's store of `v` through the returned elem pointer is
fused into the operation. -/
def mapassignLoop {K V : Type} [Inhabited K] [Inhabited V] (t : maptype K V)
    (key : K) (v : V) (hash : Nat) :
    Nat → hmap K V → Option (Except mapFault Unit × hmap K V)
  | 0, _ => none
  | fuel + 1, h0 =>
    let bucket := hash % bucketShift h0.B
    let step :=
      if h0.growing then growWork t h0 bucket else .ok h0
    match step with
    | .error f => some (.error f, h0)
    | .ok h =>
      -- recompute the bucket address after evacuation
      let b := h.buckets.getD bucket []
      let top := tophash hash
      match assignScan t key top b with
      | .found i =>
        let b' := b.modify
          (fun c => { c with key := if t.needkeyupdate then key else c.key,
                             val := v }) i
        let h' := { h with buckets := h.buckets.set bucket b' }
        some (mapassignDone h')
      | .notFound inserti =>
        if assignGrowCond h then
          match hashGrow h with
          | .error f => some (.error f, h)
          | .ok h' => mapassignLoop t key v hash fuel h'
        else
          match inserti with
          | none =>
            -- all current buckets are full: allocate a new overflow bucket
            let h := h.incrnoverflow
            let h := if t.bucketPtrdataZero then
              { h with overflowReg := true } else h
            let b' := b ++ (⟨top, key, v⟩ :: List.replicate (bucketCnt - 1)
                              (emptyCell K V))
            let h' := { h with buckets := h.buckets.set bucket b',
                               count := h.count + 1 }
            some (mapassignDone h')
          | some i =>
            let b' := b.set i ⟨top, key, v⟩
            let h' := { h with buckets := h.buckets.set bucket b',
                               count := h.count + 1 }
            some (mapassignDone h')

/-- `mapassign` (with the caller's element store fused): nil-header panic,
race check, hash, set the write flag only after hashing, lazily allocate
the first bucket, then run the find-or-insert loop. -/
def mapassign {K V : Type} [Inhabited K] [Inhabited V] (t : maptype K V)
    (h? : Option (hmap K V)) (key : K) (v : V) (fuel : Nat) :
    Option (Except mapFault Unit × Option (hmap K V)) :=
  match h? with
  | none => some (.error (.goPanic "assignment to entry in nil map"), none)
  | some h =>
    if h.flags.hashWriting then
      some (.error (.goThrow "concurrent map writes"), some h)
    else
      match t.hasher key h.hash0 with
      | none => some (.error .hashTrap, some h)
      | some hash =>
        let h := { h with flags := { h.flags with hashWriting := true } }
        let h := if h.buckets.isEmpty then
          { h with buckets := [freshBucket K V] } else h
        match mapassignLoop t key v hash fuel h with
        | none => none
        | some (r, h') => some (r, some h')

/-! ## Delete -/

/-- The search part of `mapdelete`'s chain walk: position of the cell
holding the key, walking cell by cell, giving up at `emptyRest`. -/
def deleteSearch {K V : Type} (t : maptype K V) (key : K) (top : Nat) :
    Chain K V → Nat → Option Nat
  | [], _ => none
  | c :: rest, j =>
    if c.top ≠ top then
      if c.top = emptyRest then none else deleteSearch t key top rest (j + 1)
    else if t.keyEqual key c.key then some j
    else deleteSearch t key top rest (j + 1)

/-- The backward `emptyRest` promotion loop of `mapdelete`: starting at the
cleared cell, set tophash to `emptyRest` and keep walking backwards while
the preceding cell is `emptyOne` (crossing bucket boundaries back towards
the head of the chain). -/
def promoteBack {K V : Type} [Inhabited K] [Inhabited V]
    (chain : Chain K V) : Nat → Chain K V
  | 0 => chain.modify (fun c => { c with top := emptyRest }) 0
  | j + 1 =>
    let chain' := chain.modify (fun c => { c with top := emptyRest }) (j + 1)
    if (chain'.getD j ⟨emptyOne, default, default⟩).top = emptyOne then
      promoteBack chain' j
    else chain'

/-- The clear-and-promote step of `mapdelete` once the key's cell `j` has
been found: zero the key/elem slots, mark the cell `emptyOne`, and if the
cell is the last one before `emptyRest` territory (next cell absent or
`emptyRest`), promote it and its preceding run of `emptyOne` cells to
`emptyRest`. -/
def deleteClear {K V : Type} [Inhabited K] [Inhabited V]
    (chain : Chain K V) (j : Nat) : Chain K V :=
  let chain₁ := chain.set j ⟨emptyOne, default, default⟩
  if j + 1 < chain₁.length ∧
      (chain₁.getD (j + 1) ⟨emptyOne, default, default⟩).top ≠ emptyRest then
    chain₁   -- notLast
  else
    promoteBack chain₁ j

/-- `mapdelete`. -/
def mapdelete {K V : Type} [Inhabited K] [Inhabited V] (t : maptype K V)
    (h : hmap K V) (key : K) : Except mapFault Unit × hmap K V :=
  if h.count = 0 then
    if t.hashMightPanic then
      match t.hasher key 0 with
      | none => (.error .hashTrap, h)
      | some _ => (.ok (), h)
    else (.ok (), h)
  else if h.flags.hashWriting then
    (.error (.goThrow "concurrent map writes"), h)
  else
    match t.hasher key h.hash0 with
    | none => (.error .hashTrap, h)
    | some hash =>
      let h := { h with flags := { h.flags with hashWriting := true } }
      let bucket := hash % bucketShift h.B
      let step := if h.growing then growWork t h bucket else .ok h
      match step with
      | .error f => (.error f, h)
      | .ok h =>
        let b := h.buckets.getD bucket []
        let top := tophash hash
        let h' :=
          match deleteSearch t key top b 0 with
          | none => h
          | some j =>
            { h with buckets := h.buckets.set bucket (deleteClear b j),
                     count := h.count - 1 }
        if !h'.flags.hashWriting then
          (.error (.goThrow "concurrent map writes"), h')
        else (.ok (), { h' with flags := h'.flags.clearWriting })

/-! ## Clear -/

/-- `mapclear` deletes all keys from a map. -/
def mapclear {K V : Type} [Inhabited K] [Inhabited V] (t : maptype K V)
    (h : hmap K V) : Except mapFault Unit × hmap K V :=
  if h.count = 0 then (.ok (), h)
  else if h.flags.hashWriting then
    (.error (.goThrow "concurrent map writes"), h)
  else
    let h := { h with flags := { h.flags with hashWriting := true,
                                              sameSizeGrow := false } }
    let h := { h with oldbuckets := none, nevacuate := 0, noverflow := 0,
                      count := 0, overflowReg := false,
                      oldoverflowReg := false }
    let h := { h with buckets := makeBucketArray K V h.B }
    if !h.flags.hashWriting then
      (.error (.goThrow "concurrent map writes"), h)
    else (.ok (), { h with flags := h.flags.clearWriting })

/-! ## Operation sequences

A client-level sequence of map operations: each `put` is a `mapassign`
followed by the caller's store through the returned slot (fused in the
model).  `applyOp` yields `none` when an operation faults (or, for `put`,
when the retry fuel — irrelevant on reachable states — runs out). -/

inductive MapOp (K V : Type) where
  | put (k : K) (v : V)
  | del (k : K)
  | clr
  | get (k : K)

/-- Retry fuel handed to `mapassign` by the runner; any value ≥ the number
of `goto again` passes (a handful) gives the exact semantics. -/
def assignFuel : Nat := 64

def applyOp {K V : Type} [Inhabited K] [Inhabited V] (t : maptype K V)
    (h : hmap K V) : MapOp K V → Option (hmap K V)
  | .put k v =>
    match mapassign t (some h) k v assignFuel with
    | some (.ok (), some h') => some h'
    | _ => none
  | .del k =>
    match mapdelete t h k with
    | (.ok (), h') => some h'
    | _ => none
  | .clr =>
    match mapclear t h with
    | (.ok (), h') => some h'
    | _ => none
  | .get k =>
    match mapaccess1 t (some h) k with
    | .ok _ => some h
    | .error _ => none

def runOps {K V : Type} [Inhabited K] [Inhabited V] (t : maptype K V)
    (h : hmap K V) : List (MapOp K V) → Option (hmap K V)
  | [] => some h
  | op :: ops =>
    match applyOp t h op with
    | none => none
    | some h' => runOps t h' ops

/-! ## Iteration -/

/-- The hash iteration structure `hiter`.  `bptr` is the suffix of the
current bucket's chain starting at the current bucket (`[]` models a nil
`bptr`). -/
structure hiter (K V : Type) where
  key : Option K
  elem : Option V
  h : hmap K V
  buckets : List (Chain K V)
  bptr : Chain K V
  startBucket : Nat
  offset : Nat
  wrapped : Bool
  B : Nat
  i : Nat
  bucket : Nat
  checkBucket : Nat

/-- The iterator's tophash-low-bit filter for entries of an unevacuated old
bucket whose keys are not reflexive under equality (`map.go` line 1022):
skip the cell iff `checkBucket>>(it.B-1) != uintptr(b.tophash[offi]&1)`. -/
def iterSkipTophashNaN (checkBucket B top : Nat) : Bool :=
  checkBucket >>> (B - 1) ≠ top % 2

/-- The within-bucket cell loop of `mapiternext`: scan cells in rotated
order `(i + offset) % 8`, skipping empty and `evacuatedEmpty` cells, apply
the mid-grow old-bucket filter, and resolve evacuated entries through the
live table.  Returns the yielded key/elem and the next `i`, or `none` when
the bucket's cells are exhausted. -/
def iterCellsGo {K V : Type} [Inhabited K] [Inhabited V] (t : maptype K V)
    (h : hmap K V) (offset B checkBucket : Nat) (b : Chain K V) :
    Nat → Nat → Except mapFault (Option (K × V × Nat))
  | 0, _ => .ok none
  | steps + 1, i =>
    let offi := (i + offset) % bucketCnt
    let cell := b.getD offi ⟨emptyRest, default, default⟩
    if isEmptyTop cell.top || cell.top = evacuatedEmpty then
      iterCellsGo t h offset B checkBucket b steps (i + 1)
    else
      let k := cell.key
      let keep : Except mapFault Bool :=
        if checkBucket ≠ noCheck && !h.isSameSizeGrow then
          if t.reflexivekey || t.keyEqual k k then
            match t.hasher k h.hash0 with
            | none => .error .hashTrap
            | some hash => .ok (decide (hash % bucketShift B = checkBucket))
          else
            .ok (!iterSkipTophashNaN checkBucket B cell.top)
        else .ok true
      match keep with
      | .error f => .error f
      | .ok keep =>
        if !keep then
          iterCellsGo t h offset B checkBucket b steps (i + 1)
        else if (cell.top ≠ evacuatedX && cell.top ≠ evacuatedY) ||
            !(t.reflexivekey || t.keyEqual k k) then
          -- golden data, or a NaN-like key that cannot have been updated
          .ok (some (k, cell.val, i + 1))
        else
          match mapaccessK t (some h) k with
          | .error f => .error f
          | .ok none => iterCellsGo t h offset B checkBucket b steps (i + 1)
          | .ok (some (rk, re)) => .ok (some (rk, re, i + 1))

def iterCells {K V : Type} [Inhabited K] [Inhabited V] (t : maptype K V)
    (h : hmap K V) (offset B checkBucket : Nat) (b : Chain K V) (i : Nat) :
    Except mapFault (Option (K × V × Nat)) :=
  iterCellsGo t h offset B checkBucket b (bucketCnt - i) i

/-- The `next:` loop of `mapiternext`: move to the next bucket when the
current one is exhausted (redirecting through an unevacuated old bucket
mid-grow), wrapping modulo `2^it.B`, ending when the start bucket comes
around again.  `fuel` bounds the number of bucket moves (the walk visits
each bucket at most once, so any fuel above `2^B` times the longest chain
is exact). -/
def mapiternextAux {K V : Type} [Inhabited K] [Inhabited V]
    (t : maptype K V) (it : hiter K V) :
    Nat → Nat → Chain K V → Nat → Nat →
    Option (Except mapFault (hiter K V))
  | 0, _, _, _, _ => none
  | fuel + 1, bucket, b, i, checkBucket =>
    let h := it.h
    if b.isEmpty then
      if bucket = it.startBucket ∧ it.wrapped then
        some (.ok { it with key := none, elem := none })
      else
        let (b', checkBucket') :=
          if h.growing && it.B = h.B then
            let oldbucket := bucket % (h.oldbucketmask + 1)
            let ob := (h.oldbuckets.getD []).getD oldbucket []
            if !chainEvacuated ob then (ob, bucket)
            else (it.buckets.getD bucket [], noCheck)
          else (it.buckets.getD bucket [], noCheck)
        let bucket' := bucket + 1
        let (bucket', it') :=
          if bucket' = bucketShift it.B then (0, { it with wrapped := true })
          else (bucket', it)
        mapiternextAux t it' fuel bucket' b' 0 checkBucket'
    else
      match iterCells t h it.offset it.B checkBucket b i with
      | .error f => some (.error f)
      | .ok none =>
        mapiternextAux t it fuel bucket (b.drop bucketCnt) 0 checkBucket
      | .ok (some (k, v, i')) =>
        some (.ok { it with key := some k, elem := some v, bucket := bucket,
                            bptr := b, i := i', checkBucket := checkBucket })

/-- `mapiternext`: race check, then advance the iterator. -/
def mapiternext {K V : Type} [Inhabited K] [Inhabited V] (t : maptype K V)
    (it : hiter K V) (fuel : Nat) : Option (Except mapFault (hiter K V)) :=
  if it.h.flags.hashWriting then
    some (.error (.goThrow "concurrent map iteration and map write"))
  else
    mapiternextAux t it fuel it.bucket it.bptr it.i it.checkBucket

/-! ## The pre-allocated overflow pool (address level)

The structural model above treats every overflow bucket as a fresh block of
cells; *which memory* an overflow bucket occupies — the pre-allocated pool
past the main array and its sentinel convention — is modelled here.
Addresses are bucket indices into one contiguous allocation; `ovf` is the
bucket's trailing overflow pointer (`none` = nil). -/

namespace Pool

structure PoolBucket where
  ovf : Option Nat
deriving DecidableEq, Repr

/-- The pool-relevant state: the contiguous bucket allocation (main array
first, pool past it; later individual allocations appended), and
`h.extra.nextOverflow` as an address. -/
structure PoolState where
  arr : List PoolBucket
  nextOverflow : Option Nat
deriving DecidableEq, Repr

/-- `makeBucketArray`, address level: for `b ≥ 4` allocate
`2^(b-4)` estimated overflow buckets past the `2^b` main buckets (adjusted
to the allocator's size class by `roundupsize`), point `nextOverflow` at
the first of them, and mark the last pooled bucket by setting its overflow
pointer to the main-array base address (a safe non-nil sentinel). -/
def makeBucketArray (b : Nat) (bucketsize : Nat) (roundupsize : Nat → Nat) :
    PoolState :=
  let base := bucketShift b
  let nbuckets :=
    if b ≥ 4 then
      let n := base + bucketShift (b - 4)
      let sz := bucketsize * n
      let up := roundupsize sz
      if up ≠ sz then up / bucketsize else n
    else base
  let arr := List.replicate nbuckets (⟨none⟩ : PoolBucket)
  if base ≠ nbuckets then
    { arr := arr.set (nbuckets - 1) ⟨some 0⟩, nextOverflow := some base }
  else
    { arr := arr, nextOverflow := none }

/-- `newoverflow`, address level: take the bucket `nextOverflow` points at;
if its overflow pointer is nil, bump the cursor to the next pooled bucket,
otherwise this was the last pooled bucket (the sentinel) — reset its
pointer and exhaust the pool.  With no pool, allocate a fresh bucket.
Returns the address of the overflow bucket used. -/
def newoverflow (s : PoolState) : Nat × PoolState :=
  match s.nextOverflow with
  | some i =>
    if (s.arr.getD i ⟨none⟩).ovf = none then
      (i, { s with nextOverflow := some (i + 1) })
    else
      (i, { arr := s.arr.set i ⟨none⟩, nextOverflow := none })
  | none => (s.arr.length, { s with arr := s.arr ++ [⟨none⟩] })

/-- `j` successive `newoverflow` calls, collecting the addresses used. -/
def newoverflowN (s : PoolState) : Nat → List Nat × PoolState
  | 0 => ([], s)
  | j + 1 =>
    let (a, s') := newoverflow s
    let (as, s'') := newoverflowN s' j
    (a :: as, s'')

end Pool

/-! ## makemap / makemap64 hint validation -/

/-- Two's-complement wrap of an integer to a signed `w`-bit value
(the Go conversion `int(hint)` for a platform int of width `w`). -/
def intCast (w : Nat) (x : Int) : Int :=
  let m : Int := 2 ^ w
  let r := x % m
  if r ≥ m / 2 then r - m else r

/-- The hint validation of `makemap64`: a hint that does not fit in the
platform int becomes 0 (`w` is the platform int width: 64 here, 32 on
32-bit ports). -/
def makemap64Hint (w : Nat) (hint : Int) : Int :=
  if intCast w hint ≠ hint then 0 else hint

/-- The hint validation of `makemap`: if `uintptr(hint) * t.bucket.size`
overflows a uintptr or exceeds the maximum allocation, the hint becomes 0.
(`math.MulUintptr` reports overflow when the product needs more than 64
bits.) -/
def makemapHint (bucketsize maxAlloc : Nat) (hint : Int) : Int :=
  let uh := (hint % ((2 : Int) ^ ptrBits)).toNat
  let mem := uh * bucketsize
  let overflow := decide (mem ≥ 2 ^ ptrBits)
  if overflow || decide (mem > maxAlloc) then 0 else hint

/-- `makemap`: validate the hint, then build the header with the smallest
`B` that carries the hint under the load factor. -/
def makemap (K V : Type) [Inhabited K] [Inhabited V]
    (bucketsize maxAlloc : Nat) (hint : Int) (seed : Nat) : hmap K V :=
  makemapCore K V (makemapHint bucketsize maxAlloc hint) seed

/-- `makemap64`. -/
def makemap64 (K V : Type) [Inhabited K] [Inhabited V]
    (w : Nat) (bucketsize maxAlloc : Nat) (hint : Int) (seed : Nat) :
    hmap K V :=
  makemap K V bucketsize maxAlloc (makemap64Hint w hint) seed

/-! ## Specification predicates -/

/-- The chain-walk short-circuit invariant: within a chain, an `emptyRest`
cell is never followed by an occupied cell (`top ≥ minTopHash`). -/
def shortCircuitOK {K V : Type} : Chain K V → Bool
  | [] => true
  | c :: rest =>
    (c.top ≠ emptyRest || rest.all (fun c' => c'.top < minTopHash)) &&
      shortCircuitOK rest

/-- Pointwise form of `shortCircuitOK` (over `getD` indices). -/
def shortCircuitPt {K V : Type} [Inhabited K] [Inhabited V]
    (chain : Chain K V) : Prop :=
  ∀ i j, i < j → j < chain.length →
    (chain.getD i ⟨emptyOne, default, default⟩).top = emptyRest →
    (chain.getD j ⟨emptyOne, default, default⟩).top < minTopHash

/-- A key is absent from the table: no occupied cell of any current or old
bucket chain stores it. -/
def keyAbsent {K V : Type} (h : hmap K V) (key : K) : Prop :=
  (∀ chain ∈ h.buckets, ∀ c ∈ chain, minTopHash ≤ c.top → c.key ≠ key) ∧
  (∀ old, h.oldbuckets = some old →
    ∀ chain ∈ old, ∀ c ∈ chain, minTopHash ≤ c.top → c.key ≠ key)

/-! ## Abstraction and inductive invariant for the sequence-level theorem

`absLookup` is the value the shared chain walk of the access functions
yields for a key, with the `count = 0` and race fast paths stripped; the
invariant `MapInv` below is what the client-visible operations preserve and
what makes `absLookup` agree with `mapaccess1`/`mapaccess2`. -/

/-- The abstract lookup induced by the access functions' chain walk. -/
def absLookup {K V : Type} [Inhabited K] [Inhabited V]
    (t : maptype K V) (h : hmap K V) (k : K) : Option V :=
  match t.hasher k h.hash0 with
  | none => none
  | some hash =>
    (chainLookup t k (tophash hash) (lookupChain h hash)).map Prod.snd

/-- Number of occupied cells of a chain. -/
def liveCount {K V : Type} (c : Chain K V) : Nat :=
  c.countP (fun cell => decide (minTopHash ≤ cell.top))

/-- Total number of occupied cells over an array of bucket chains. -/
def sumLive {K V : Type} (l : List (Chain K V)) : Nat :=
  (l.map liveCount).sum

/-- Validity of one cell of a live (new, or old-and-unevacuated) chain that
sits at bucket index `idx` of an array of `n` buckets: the cell is empty, or
it is occupied by a key whose hash routes to this bucket and whose stored
tophash is the one computed from that hash. -/
def cellOK {K V : Type} (t : maptype K V) (seed n idx : Nat)
    (c : Cell K V) : Prop :=
  c.top = emptyRest ∨ c.top = emptyOne ∨
    ∃ hv, t.hasher c.key seed = some hv ∧ c.top = tophash hv ∧ hv % n = idx

/-- The per-chain invariant: every cell is valid for this bucket index and
the `emptyRest` short-circuit invariant holds. -/
def chainState {K V : Type} [Inhabited K] [Inhabited V] (t : maptype K V)
    (seed n idx : Nat) (c : Chain K V) : Prop :=
  (∀ cell ∈ c, cellOK t seed n idx cell) ∧ shortCircuitPt c

/-- The inductive invariant of a map state between client operations,
minus the quiescence of the write flag (which is re-established at the end
of every successful write). -/
structure MapInv0 {K V : Type} [Inhabited K] [Inhabited V]
    (t : maptype K V) (h : hmap K V) : Prop where
  hB : h.B ≤ 63
  hlazy : h.buckets = [] → h.count = 0 ∧ h.oldbuckets = none ∧ h.B = 0
  hlen : h.buckets = [] ∨ h.buckets.length = bucketShift h.B
  hne : ∀ c ∈ h.buckets, c ≠ []
  hnew : ∀ i < h.buckets.length,
    chainState t h.hash0 h.buckets.length i (h.buckets.getD i [])
  hsame : h.flags.sameSizeGrow = true → h.oldbuckets.isSome = true
  hcount : sumLive (h.oldbuckets.getD []) + sumLive h.buckets ≤ h.count
  hold : ∀ old, h.oldbuckets = some old →
    (h.flags.sameSizeGrow = false → 1 ≤ h.B) ∧
    old.length = h.noldbuckets ∧
    (∀ c ∈ old, c ≠ []) ∧
    h.nevacuate < old.length ∧
    (∀ j < h.nevacuate, chainEvacuated (old.getD j []) = true) ∧
    (∀ j < old.length, chainEvacuated (old.getD j []) = true →
      liveCount (old.getD j []) = 0) ∧
    (∀ j < old.length, chainEvacuated (old.getD j []) = false →
      chainState t h.hash0 old.length j (old.getD j []) ∧
      h.buckets.getD j [] = freshBucket K V ∧
      (h.flags.sameSizeGrow = false →
        h.buckets.getD (j + old.length) [] = freshBucket K V))

/-- The full invariant of a quiescent map state. -/
def MapInv {K V : Type} [Inhabited K] [Inhabited V]
    (t : maptype K V) (h : hmap K V) : Prop :=
  MapInv0 t h ∧ h.flags.hashWriting = false

/-! ## Concrete instances used by witnesses and counterexamples -/

/-- A well-behaved integer key type: the identity hash (never traps) and
precise equality. -/
def tNat : maptype Nat Nat :=
  ⟨fun k _ => some k, fun a b => a == b, true, false, false, true⟩

/-- A one-entry `B = 0` table holding `1 ↦ 10`, with the `hashWriting` flag
set (as seen by a reader racing a writer). -/
def hRace : hmap Nat Nat :=
  { count := 1
    flags := ⟨false, false, true, false⟩
    B := 0
    noverflow := 0
    hash0 := 0
    buckets := [⟨5, 1, 10⟩ :: List.replicate 7 (emptyCell Nat Nat)]
    oldbuckets := none
    nevacuate := 0
    overflowReg := false
    oldoverflowReg := false }

/-- A full single-bucket table (`B = 0`, count 8): the next insert of a new
key exceeds the load factor. -/
def hNine : hmap Nat Nat :=
  { count := 8
    flags := ⟨false, false, false, false⟩
    B := 0
    noverflow := 0
    hash0 := 0
    buckets := [(List.range 8).map (fun k => ⟨5, k, k⟩)]
    oldbuckets := none
    nevacuate := 0
    overflowReg := false
    oldoverflowReg := false }

/-- The same one-entry table in its quiescent state (no writer). -/
def hRaceCleared : hmap Nat Nat :=
  { hRace with flags := ⟨false, false, false, false⟩ }

/-- A key type that is not reflexive under equality (NaN-like): every
equality test fails, the hash is constant 0. -/
def tNaN : maptype Unit Unit :=
  ⟨fun _ _ => some 0, fun _ _ => false, false, false, false, true⟩

/-- A doubling grow in progress (`B = 1`, one old bucket) whose old bucket
holds a single NaN-like entry with tophash 7 (odd low bit), with no
iterator active. -/
def hNaNGrow : hmap Unit Unit :=
  { count := 1
    flags := ⟨false, false, false, false⟩
    B := 1
    noverflow := 0
    hash0 := 0
    buckets := [freshBucket Unit Unit, freshBucket Unit Unit]
    oldbuckets := some [⟨7, (), ()⟩ :: List.replicate 7 (emptyCell Unit Unit)]
    nevacuate := 0
    overflowReg := false
    oldoverflowReg := false }

/-- A bucket chain with three occupied cells then `emptyRest` cells, as
used by the delete witness. -/
def chainC5 : Chain Nat Nat :=
  [⟨5, 1, 10⟩, ⟨5, 2, 20⟩, ⟨5, 3, 30⟩] ++
    List.replicate 5 (emptyCell Nat Nat)

/-- The state after evacuating `hNaNGrow`'s single old bucket. -/
def hNaNGrowEvacuated : hmap Unit Unit :=
  match evacuate tNaN hNaNGrow 0 with
  | .ok h' => h'
  | .error _ => hNaNGrow

/-! # Theorems -/

/-! ## Shared basic lemmas -/

theorem bucketShift_eq {b : Nat} (hb : b < 64) : bucketShift b = 2 ^ b := by
  unfold bucketShift ptrBits
  rw [Nat.mod_eq_of_lt hb, Nat.shiftLeft_eq, one_mul]

theorem bucketCnt_eq : bucketCnt = 8 := rfl

/-- The integer-arithmetic load-factor test coincides with the rational
"count exceeds `(13/2)·2^B`" reading (for counts below signed-word range
and `B` within shift range). -/
theorem overLoadFactor_eq_spec (c : Nat) (B : Nat)
    (hc : c < 2 ^ 63) (hB : B ≤ 63) :
    overLoadFactor (c : Int) B =
      (decide (bucketCnt < c) && decide ((13 : ℚ) / 2 * 2 ^ B < (c : ℚ))) := by
  have hmod : ((c : Int) % ((2 ^ ptrBits : Nat) : Int)) = (c : Int) := by
    apply Int.emod_eq_of_lt (by positivity)
    have : (c : Int) < 2 ^ 63 := by exact_mod_cast hc
    calc (c : Int) < 2 ^ 63 := this
      _ ≤ ((2 ^ ptrBits : Nat) : Int) := by norm_num [ptrBits]
  unfold overLoadFactor
  rw [hmod, Int.toNat_natCast, Bool.eq_iff_iff]
  simp only [Bool.and_eq_true, decide_eq_true_eq, gt_iff_lt, bucketCnt_eq]
  rw [bucketShift_eq (by omega)]
  rcases Nat.eq_zero_or_pos B with hB0 | hBpos
  · subst hB0
    constructor
    · rintro ⟨h8i, -⟩
      have h8 : 8 < c := by exact_mod_cast h8i
      refine ⟨h8, ?_⟩
      have h9 : (9 : ℚ) ≤ (c : ℚ) := by exact_mod_cast h8
      norm_num
      linarith
    · rintro ⟨h8, -⟩
      refine ⟨by exact_mod_cast h8, ?_⟩
      norm_num [loadFactorNum, loadFactorDen]
      omega
  · obtain ⟨b, rfl⟩ : ∃ b, B = b + 1 := ⟨B - 1, by omega⟩
    have hdiv : loadFactorNum * (2 ^ (b + 1) / loadFactorDen) =
        13 * 2 ^ b := by
      unfold loadFactorNum loadFactorDen
      rw [pow_succ, Nat.mul_div_cancel _ (by norm_num)]
    rw [hdiv]
    have hQeq : ((13 : ℚ) / 2) * 2 ^ (b + 1) = ((13 * 2 ^ b : Nat) : ℚ) := by
      push_cast
      ring
    constructor
    · rintro ⟨h8i, hgt⟩
      refine ⟨by exact_mod_cast h8i, ?_⟩
      rw [hQeq]
      exact_mod_cast hgt
    · rintro ⟨h8, hq⟩
      refine ⟨by exact_mod_cast h8, ?_⟩
      rw [hQeq] at hq
      exact_mod_cast hq

/-! ## C2: the concurrent-access checks -/

/-- C2 (counterexample): the claim says that *every* read operation —
including get-key-and-value (`mapaccessK`) — raises a fatal error when the
writer-in-progress flag is set on a non-empty table.  But `mapaccessK`
performs no `hashWriting` check at all: on a one-entry table with the flag
set it completes normally and returns the entry. -/
theorem mapaccessK_no_race_check :
    hRace.flags.hashWriting = true ∧ hRace.count ≠ 0 ∧
    mapaccessK tNat (some hRace) 1 = .ok (some (1, 10)) := by
  refine ⟨rfl, by decide, ?_⟩
  rfl

/-- C2 (amended): every read via `mapaccess1`/`mapaccess2`, every write
(`mapassign`, `mapdelete`, `mapclear`) and every iterator advance
(`mapiternext`) entered with the writer-in-progress flag set on a non-empty
table raises the fatal error with the matching diagnostic;
get-key-and-value (`mapaccessK`), which is reached only from the iterator
after its own check, performs no check. -/
theorem hashWriting_checks {K V : Type} [Inhabited K] [Inhabited V]
    (t : maptype K V) (h : hmap K V) (key : K) (v : V) (fuel : Nat)
    (hw : h.flags.hashWriting = true) (hc : h.count ≠ 0) :
    mapaccess1 t (some h) key =
      .error (.goThrow "concurrent map read and map write") ∧
    mapaccess2 t (some h) key =
      .error (.goThrow "concurrent map read and map write") ∧
    mapassign t (some h) key v fuel =
      some (.error (.goThrow "concurrent map writes"), some h) ∧
    mapdelete t h key = (.error (.goThrow "concurrent map writes"), h) ∧
    mapclear t h = (.error (.goThrow "concurrent map writes"), h) ∧
    (∀ it : hiter K V, it.h = h →
      mapiternext t it fuel =
        some (.error (.goThrow "concurrent map iteration and map write"))) := by
  refine ⟨?_, ?_, ?_, ?_, ?_, ?_⟩
  · simp [mapaccess1, hc, hw]
  · simp [mapaccess2, hc, hw]
  · simp [mapassign, hw]
  · simp [mapdelete, hc, hw]
  · simp [mapclear, hc, hw]
  · intro it hit
    simp [mapiternext, hit, hw]

/-- C2 (witness): the amended checks at a concrete racing read. -/
theorem hashWriting_checks_witness :
    hRace.flags.hashWriting = true ∧ hRace.count ≠ 0 ∧
    mapaccess1 tNat (some hRace) 1 =
      .error (.goThrow "concurrent map read and map write") :=
  ⟨rfl, by decide,
    (hashWriting_checks tNat hRace 1 0 5 rfl (by decide)).1⟩

/-! ## C7: traps happen before the write flag is set -/

/-- C7: in `mapassign` and `mapdelete` the `hashWriting` flag is set only
after the key's hash function has returned, so a hash-function trap leaves
the header exactly as it was (flag still clear, no count/flag/bucket/grow
mutation): the operation reports the trap and returns the unchanged
state. -/
theorem assign_delete_trap_leaves_state {K V : Type}
    [Inhabited K] [Inhabited V]
    (t : maptype K V) (h : hmap K V) (key : K) (v : V) (fuel : Nat)
    (htrap : ∀ seed, t.hasher key seed = none)
    (hflag : h.flags.hashWriting = false) :
    mapassign t (some h) key v fuel = some (.error .hashTrap, some h) ∧
    (mapdelete t h key).2 = h ∧
    (h.count ≠ 0 → (mapdelete t h key).1 = .error .hashTrap) := by
  refine ⟨?_, ?_, ?_⟩
  · simp [mapassign, hflag, htrap]
  · by_cases hc : h.count = 0
    · simp only [mapdelete, hc, if_pos rfl]
      cases hmp : t.hashMightPanic <;> simp [htrap]
    · simp [mapdelete, hc, hflag, htrap]
  · intro hc
    simp [mapdelete, hc, hflag, htrap]

/-- C7 (witness): a concrete always-trapping hash function. -/
theorem assign_delete_trap_leaves_state_witness :
    mapassign ⟨fun _ _ => none, fun a b => a == b, true, true, false, true⟩
        (some hRaceCleared) 1 0 5 =
      some (.error .hashTrap, some hRaceCleared) :=
  (assign_delete_trap_leaves_state
    ⟨fun _ _ => none, fun a b => a == b, true, true, false, true⟩
    hRaceCleared 1 0 5 (fun _ => rfl) rfl).1

/-- Explicit form of `hashGrow` when the old overflow registry is clean (no
`oldoverflow is not nil` throw). -/
theorem hashGrow_eq {K V : Type} [Inhabited K] [Inhabited V] (h : hmap K V)
    (hreg : h.oldoverflowReg = false) :
    hashGrow h = .ok
      { count := h.count
        flags := ⟨false, h.flags.iterator, h.flags.hashWriting,
          if overLoadFactor ((h.count : Int) + 1) h.B then h.flags.sameSizeGrow
          else true⟩
        B := h.B + (if overLoadFactor ((h.count : Int) + 1) h.B then 1 else 0)
        noverflow := 0
        hash0 := h.hash0
        buckets := makeBucketArray K V
          (h.B + (if overLoadFactor ((h.count : Int) + 1) h.B then 1 else 0))
        oldbuckets := some h.buckets
        nevacuate := 0
        overflowReg := false
        oldoverflowReg := h.overflowReg } := by
  unfold hashGrow
  by_cases hl : overLoadFactor ((h.count : Int) + 1) h.B = true <;>
    by_cases ho : h.overflowReg = true <;>
      simp_all

/-! ## C3: grow trigger and grow kind -/

/-- C3: when `mapassign` found no existing mapping, a grow is started iff
no grow is in progress and either `count+1` exceeds the load factor
(`count+1 > 8` and `count+1 > (13/2)·2^B`) or there are too many overflow
buckets (`assignGrowCond` is exactly the trigger used at that point); and
`hashGrow` performs a doubling grow (`B+1`, `sameSizeGrow` clear) exactly
when the load-factor condition holds, otherwise a same-size grow (`B`
unchanged, `sameSizeGrow` set), in both cases parking the current array in
`oldbuckets` with the evacuation cursor reset. -/
theorem grow_trigger_spec {K V : Type} [Inhabited K] [Inhabited V]
    (h : hmap K V) (hB : h.B ≤ 63) (hcount : h.count + 1 < 2 ^ 63)
    (hss : h.flags.sameSizeGrow = false) (hreg : h.oldoverflowReg = false) :
    (assignGrowCond h = true ↔
      (h.growing = false ∧
        ((bucketCnt < h.count + 1 ∧
            (13 : ℚ) / 2 * 2 ^ h.B < ((h.count + 1 : Nat) : ℚ)) ∨
          tooManyOverflowBuckets h.noverflow h.B = true))) ∧
    (∃ h', hashGrow h = .ok h') ∧
    (∀ h', hashGrow h = .ok h' →
      h'.oldbuckets = some h.buckets ∧ h'.nevacuate = 0 ∧
      h'.noverflow = 0 ∧
      ((h'.B = h.B + 1 ∧ h'.flags.sameSizeGrow = false) ↔
        (bucketCnt < h.count + 1 ∧
          (13 : ℚ) / 2 * 2 ^ h.B < ((h.count + 1 : Nat) : ℚ))) ∧
      ((h'.B = h.B ∧ h'.flags.sameSizeGrow = true) ↔
        ¬(bucketCnt < h.count + 1 ∧
          (13 : ℚ) / 2 * 2 ^ h.B < ((h.count + 1 : Nat) : ℚ)))) := by
  have hover := overLoadFactor_eq_spec (h.count + 1) h.B hcount hB
  have hcast : ((h.count : Int) + 1) = (((h.count + 1 : Nat) : Int)) := by
    push_cast
    ring
  have hloadIff : overLoadFactor ((h.count : Int) + 1) h.B = true ↔
      (bucketCnt < h.count + 1 ∧
        (13 : ℚ) / 2 * 2 ^ h.B < ((h.count + 1 : Nat) : ℚ)) := by
    rw [hcast, hover]
    simp
  have hgrow := hashGrow_eq h hreg
  refine ⟨?_, ⟨_, hgrow⟩, ?_⟩
  · unfold assignGrowCond
    rw [Bool.and_eq_true, Bool.or_eq_true, Bool.not_eq_true']
    rw [hloadIff]
  · intro h' hok
    rw [hgrow] at hok
    cases hok
    dsimp only
    by_cases hl : overLoadFactor ((h.count : Int) + 1) h.B = true
    · have hload := hloadIff.mp hl
      refine ⟨rfl, rfl, rfl, ?_, ?_⟩
      · have hl2 : (13 : ℚ) / 2 * 2 ^ h.B < (h.count : ℚ) + 1 := by
          have := hload.2
          push_cast at this
          exact this
        simp [hl, hss, hload.1, hl2]
      · simp only [hl, if_true, hss]
        constructor
        · rintro ⟨hcon, -⟩
          omega
        · intro hcon
          exact absurd hload hcon
    · rw [Bool.not_eq_true] at hl
      have hnoload : ¬ (bucketCnt < h.count + 1 ∧
          (13 : ℚ) / 2 * 2 ^ h.B < ((h.count + 1 : Nat) : ℚ)) := by
        intro hcon
        rw [← hloadIff] at hcon
        simp [hl] at hcon
      refine ⟨rfl, rfl, rfl, ?_, ?_⟩
      · simp only [hl, if_false, Bool.false_eq_true]
        constructor
        · rintro ⟨hcon, -⟩
          omega
        · intro hcon
          exact absurd hcon hnoload
      · simp only [hl, if_false, Bool.false_eq_true]
        constructor
        · intro hdummy
          exact hnoload
        · intro hdummy
          exact ⟨by omega, trivial⟩

/-- C3 (witness): the ninth insert into a one-bucket table triggers a
doubling grow. -/
theorem grow_trigger_spec_witness :
    assignGrowCond hNine = true ∧
    (∃ h', hashGrow hNine = .ok h') := by
  have hspec := grow_trigger_spec hNine (by decide) (by decide) rfl rfl
  refine ⟨?_, hspec.2.1⟩
  rw [hspec.1]
  refine ⟨rfl, .inl ⟨by decide, ?_⟩⟩
  show (13 : ℚ) / 2 * 2 ^ (0 : Nat) < ((9 : Nat) : ℚ)
  norm_num

/-! ## C6: evacuation-cursor progress -/

theorem advanceLoop_ge {K V : Type} (h : hmap K V) (stop : Nat) :
    ∀ fuel n, n ≤ advanceLoop h stop fuel n := by
  intro fuel
  induction fuel with
  | zero => intro n; rw [advanceLoop]
  | succ fuel ih =>
    intro n
    rw [advanceLoop]
    split
    · exact Nat.le_trans (Nat.le_succ n) (ih (n + 1))
    · exact Nat.le_refl n

theorem advanceLoop_le {K V : Type} (h : hmap K V) (stop : Nat) :
    ∀ fuel n, n ≤ stop → advanceLoop h stop fuel n ≤ stop := by
  intro fuel
  induction fuel with
  | zero => intro n hn; rw [advanceLoop]; exact hn
  | succ fuel ih =>
    intro n hn
    rw [advanceLoop]
    split
    · rename_i hcond
      exact ih (n + 1) (by omega)
    · exact hn

/-- `applyNewoverflows` only touches `noverflow` and `overflowReg`. -/
theorem applyNewoverflows_fields {K V : Type} (t : maptype K V)
    (h : hmap K V) (calls : Nat) :
    (applyNewoverflows t h calls).nevacuate = h.nevacuate ∧
    (applyNewoverflows t h calls).oldbuckets = h.oldbuckets ∧
    (applyNewoverflows t h calls).buckets = h.buckets ∧
    (applyNewoverflows t h calls).B = h.B ∧
    (applyNewoverflows t h calls).flags = h.flags ∧
    (applyNewoverflows t h calls).count = h.count ∧
    (applyNewoverflows t h calls).hash0 = h.hash0 := by
  have hiter : ∀ n (g : hmap K V),
      ((hmap.incrnoverflow)^[n] g).nevacuate = g.nevacuate ∧
      ((hmap.incrnoverflow)^[n] g).oldbuckets = g.oldbuckets ∧
      ((hmap.incrnoverflow)^[n] g).buckets = g.buckets ∧
      ((hmap.incrnoverflow)^[n] g).B = g.B ∧
      ((hmap.incrnoverflow)^[n] g).flags = g.flags ∧
      ((hmap.incrnoverflow)^[n] g).count = g.count ∧
      ((hmap.incrnoverflow)^[n] g).hash0 = g.hash0 := by
    intro n
    induction n with
    | zero => intro g; simp
    | succ n ih =>
      intro g
      rw [Function.iterate_succ_apply]
      have hone : (g.incrnoverflow).nevacuate = g.nevacuate ∧
          (g.incrnoverflow).oldbuckets = g.oldbuckets ∧
          (g.incrnoverflow).buckets = g.buckets ∧
          (g.incrnoverflow).B = g.B ∧
          (g.incrnoverflow).flags = g.flags ∧
          (g.incrnoverflow).count = g.count ∧
          (g.incrnoverflow).hash0 = g.hash0 := by
        unfold hmap.incrnoverflow
        split <;> simp
      obtain ⟨a1, a2, a3, a4, a5, a6, a7⟩ := ih (g.incrnoverflow)
      obtain ⟨b1, b2, b3, b4, b5, b6, b7⟩ := hone
      exact ⟨a1.trans b1, a2.trans b2, a3.trans b3, a4.trans b4,
        a5.trans b5, a6.trans b6, a7.trans b7⟩
  unfold applyNewoverflows
  obtain ⟨a1, a2, a3, a4, a5, a6, a7⟩ := hiter calls h
  split <;> simp_all

/-- Case analysis of one `evacuate` call: there is an intermediate state
`h2` (the state after the bucket-move phase) that keeps the cursor and
either keeps the old array or stamps exactly the evacuated bucket in it,
and `h'` is `h2` with or without the cursor advance. -/
theorem evacuate_cases {K V : Type} [Inhabited K] [Inhabited V]
    (t : maptype K V) (h : hmap K V) (ob : Nat) (h' : hmap K V)
    (hok : evacuate t h ob = .ok h') :
    ∃ h2 : hmap K V,
      h2.nevacuate = h.nevacuate ∧
      (h2.oldbuckets = h.oldbuckets ∨
        (∃ stamped,
          h2.oldbuckets = some ((h.oldbuckets.getD []).set ob stamped) ∧
          chainEvacuated ((h.oldbuckets.getD []).getD ob []) = false)) ∧
      (h' = h2 ∨ h' = advanceEvacuationMark h2 h.noldbuckets) := by
  simp only [evacuate] at hok
  split at hok
  · exact absurd hok (by simp)
  · rename_i h2 hstep
    have hmain : h2.nevacuate = h.nevacuate ∧
        (h2.oldbuckets = h.oldbuckets ∨
          (∃ stamped,
            h2.oldbuckets = some ((h.oldbuckets.getD []).set ob stamped) ∧
            chainEvacuated ((h.oldbuckets.getD []).getD ob []) = false)) := by
      split at hstep
      · rename_i hnotevac
        split at hstep
        · exact absurd hstep (by simp)
        · rename_i stamped xs ys hcells
          cases hstep
          constructor
          · dsimp only
            split
            · exact ((applyNewoverflows_fields t _ _).1).trans
                ((applyNewoverflows_fields t _ _).1)
            · exact (applyNewoverflows_fields t _ _).1
          · right
            exact ⟨stamped, rfl, by simpa using hnotevac⟩
      · cases hstep
        exact ⟨rfl, .inl rfl⟩
    refine ⟨h2, hmain.1, hmain.2, ?_⟩
    split at hok
    · cases hok
      right
      rfl
    · cases hok
      left
      rfl

/-- C6: the evacuation cursor never decreases across `evacuate` (hence
across the writes that drive it), an old bucket whose head tophash is in an
evacuated state stays evacuated for as long as the old array exists, and
each `advanceEvacuationMark` call advances the cursor by at least the
initial increment and at most 1024 beyond it (never past the old-array
size), releasing `oldbuckets`, the old overflow registry and the
`sameSizeGrow` flag exactly when the cursor reaches the old-array size. -/
theorem evacuation_cursor_spec {K V : Type} [Inhabited K] [Inhabited V]
    (t : maptype K V) (h : hmap K V) (ob : Nat) (h' : hmap K V)
    (newbit : Nat) (hnb : h.nevacuate < newbit)
    (hgrowing : h.oldbuckets.isSome = true)
    (hok : evacuate t h ob = .ok h') :
    (h.nevacuate ≤ h'.nevacuate) ∧
    (∀ old old' i, h.oldbuckets = some old → h'.oldbuckets = some old' →
      chainEvacuated (old.getD i []) = true →
      chainEvacuated (old'.getD i []) = true) ∧
    (h.nevacuate + 1 ≤ (advanceEvacuationMark h newbit).nevacuate ∧
     (advanceEvacuationMark h newbit).nevacuate ≤ h.nevacuate + 1 + 1024 ∧
     (advanceEvacuationMark h newbit).nevacuate ≤ newbit ∧
     ((advanceEvacuationMark h newbit).oldbuckets = none ↔
       (advanceEvacuationMark h newbit).nevacuate = newbit) ∧
     ((advanceEvacuationMark h newbit).nevacuate = newbit →
       (advanceEvacuationMark h newbit).oldoverflowReg = false ∧
       (advanceEvacuationMark h newbit).flags.sameSizeGrow = false)) := by
  have advance_facts : ∀ (g : hmap K V) (nb : Nat),
      g.nevacuate + 1 ≤ (advanceEvacuationMark g nb).nevacuate ∧
      ((advanceEvacuationMark g nb).oldbuckets = none ∧
          (advanceEvacuationMark g nb).nevacuate = nb ∧
          (advanceEvacuationMark g nb).oldoverflowReg = false ∧
          (advanceEvacuationMark g nb).flags.sameSizeGrow = false ∨
        (advanceEvacuationMark g nb).oldbuckets = g.oldbuckets ∧
          (advanceEvacuationMark g nb).nevacuate ≠ nb) ∧
      (g.nevacuate + 1 ≤ nb →
        (advanceEvacuationMark g nb).nevacuate ≤
          min (g.nevacuate + 1 + 1024) nb) := by
    intro g nb
    have hge : g.nevacuate + 1 ≤
        advanceLoop { g with nevacuate := g.nevacuate + 1 }
          (min (g.nevacuate + 1 + 1024) nb) 1024 (g.nevacuate + 1) :=
      advanceLoop_ge _ _ _ _
    have hle : g.nevacuate + 1 ≤ nb →
        advanceLoop { g with nevacuate := g.nevacuate + 1 }
            (min (g.nevacuate + 1 + 1024) nb) 1024 (g.nevacuate + 1) ≤
          min (g.nevacuate + 1 + 1024) nb := by
      intro hnb'
      exact advanceLoop_le _ _ _ _ (by omega)
    unfold advanceEvacuationMark
    dsimp only
    split
    · rename_i hdone
      exact ⟨hge, .inl ⟨rfl, hdone, rfl, rfl⟩, fun hh => hle hh⟩
    · rename_i hdone
      exact ⟨hge, .inr ⟨rfl, hdone⟩, fun hh => hle hh⟩
  obtain ⟨h2, hnev2, hold2, hfin⟩ := evacuate_cases t h ob h' hok
  refine ⟨?_, ?_, ?_⟩
  · rcases hfin with rfl | rfl
    · omega
    · have := (advance_facts h2 h.noldbuckets).1
      omega
  · intro old old' i hh hh' hev
    have hold' : h'.oldbuckets = h2.oldbuckets ∨ h'.oldbuckets = none := by
      rcases hfin with rfl | rfl
      · exact .inl rfl
      · rcases (advance_facts h2 h.noldbuckets).2.1 with ⟨hnone, -⟩ | ⟨heq, -⟩
        · exact .inr hnone
        · exact .inl heq
    rcases hold' with heq | hnone
    · rcases hold2 with heq2 | ⟨stamped, heq2, hnotevac⟩
      · have : old' = old := by
          have h1 : some old' = some old := by
            rw [← hh', heq, heq2, hh]
          exact Option.some_injective _ h1
        rw [this]
        exact hev
      · rw [hh] at heq2 hnotevac
        simp only [Option.getD_some] at heq2 hnotevac
        have hsetform : old' = old.set ob stamped := by
          have h1 : some old' = some (old.set ob stamped) := by
            rw [← hh', heq, heq2]
          exact Option.some_injective _ h1
        subst hsetform
        by_cases hib : i = ob
        · subst hib
          rw [hev] at hnotevac
          cases hnotevac
        · rw [List.getD_eq_getElem?_getD, List.getElem?_set_ne
            (fun hcon => hib hcon.symm), ← List.getD_eq_getElem?_getD]
          exact hev
    · rw [hh'] at hnone
      cases hnone
  · obtain ⟨hge, hcases, hle⟩ := advance_facts h newbit
    refine ⟨hge, ?_, ?_, ?_, ?_⟩
    · rcases hcases with ⟨-, hnb', -, -⟩ | ⟨-, -⟩
      · omega
      · have := hle (by omega)
        omega
    · have := hle (by omega)
      omega
    · constructor
      · intro hnone
        rcases hcases with ⟨-, hnb', -, -⟩ | ⟨heq, -⟩
        · exact hnb'
        · rw [heq] at hnone
          rw [hnone] at hgrowing
          cases hgrowing
      · intro hnb'
        rcases hcases with ⟨hnone, -, -, -⟩ | ⟨-, hne⟩
        · exact hnone
        · exact absurd hnb' hne
    · intro hnb'
      rcases hcases with ⟨-, -, hreg, hss⟩ | ⟨-, hne⟩
      · exact ⟨hreg, hss⟩
      · exact absurd hnb' hne

/-- C6 (witness): the cursor facts at a concrete one-old-bucket grow. -/
theorem evacuation_cursor_spec_witness :
    hNaNGrow.nevacuate ≤ hNaNGrowEvacuated.nevacuate ∧
    hNaNGrow.nevacuate + 1 ≤ (advanceEvacuationMark hNaNGrow 1).nevacuate :=
  have hok : evacuate tNaN hNaNGrow 0 = .ok hNaNGrowEvacuated := rfl
  have hspec := evacuation_cursor_spec tNaN hNaNGrow 0 hNaNGrowEvacuated 1
    (by decide) (by decide) hok
  ⟨hspec.1, hspec.2.2.1⟩

/-! ## C9: the pre-allocated overflow pool -/

namespace Pool

/-- A mid-pool state: the untouched allocation with the cursor at pooled
bucket `p`. -/
def midState (s : PoolState) (p : Nat) : PoolState :=
  { arr := s.arr, nextOverflow := some p }

/-- The pool after the sentinel bucket has been consumed. -/
def exhaustedState (s : PoolState) (last : Nat) : PoolState :=
  { arr := s.arr.set last ⟨none⟩, nextOverflow := none }

theorem newoverflowN_add (s : PoolState) (j k : Nat) :
    newoverflowN s (j + k) =
      ((newoverflowN s j).1 ++ (newoverflowN (newoverflowN s j).2 k).1,
        (newoverflowN (newoverflowN s j).2 k).2) := by
  induction j generalizing s with
  | zero => simp [newoverflowN]
  | succ j ih =>
    have hshift : j + 1 + k = (j + k) + 1 := by omega
    rw [hshift]
    simp only [newoverflowN]
    rw [ih (newoverflow s).2]
    simp

end Pool

/-- C9: for `B ≥ 4` (with the allocator size-class rounding abstracted as
exact), `makeBucketArray` allocates `2^(B-4)` overflow buckets contiguously
past the `2^B` main buckets, points the pool cursor at the first of them,
leaves the overflow pointer of every pooled bucket but the last nil and
sets the last one's to the main-array base (a non-nil sentinel);
`newoverflow` then consumes the pool in order — the `j`-th call returns
pooled bucket `2^B + j - 1` and bumps the cursor — until the sentinel is
met at call `2^(B-4)`, which empties the cursor, after which overflow
buckets are allocated individually (outside the original allocation). -/
theorem overflow_pool_spec (B bucketsize : Nat) (roundupsize : Nat → Nat)
    (hB4 : 4 ≤ B) (hB : B ≤ 63)
    (hru : roundupsize (bucketsize * (bucketShift B + bucketShift (B - 4))) =
      bucketsize * (bucketShift B + bucketShift (B - 4))) :
    (Pool.makeBucketArray B bucketsize roundupsize).arr.length =
      2 ^ B + 2 ^ (B - 4) ∧
    (Pool.makeBucketArray B bucketsize roundupsize).nextOverflow =
      some (2 ^ B) ∧
    (Pool.makeBucketArray B bucketsize roundupsize).arr.getD
        (2 ^ B + 2 ^ (B - 4) - 1) ⟨none⟩ = ⟨some 0⟩ ∧
    (∀ j, j + 1 < 2 ^ (B - 4) →
      (Pool.makeBucketArray B bucketsize roundupsize).arr.getD (2 ^ B + j)
        ⟨none⟩ = ⟨none⟩) ∧
    (∀ j, j ≤ 2 ^ (B - 4) →
      (Pool.newoverflowN (Pool.makeBucketArray B bucketsize roundupsize)
          j).1 = List.range' (2 ^ B) j ∧
      (Pool.newoverflowN (Pool.makeBucketArray B bucketsize roundupsize)
          j).2.nextOverflow =
        (if j < 2 ^ (B - 4) then some (2 ^ B + j) else none)) ∧
    ((Pool.newoverflowN (Pool.makeBucketArray B bucketsize roundupsize)
        (2 ^ (B - 4) + 1)).1 =
      List.range' (2 ^ B) (2 ^ (B - 4)) ++ [2 ^ B + 2 ^ (B - 4)]) := by
  have hBS : bucketShift B = 2 ^ B := bucketShift_eq (by omega)
  have hBS4 : bucketShift (B - 4) = 2 ^ (B - 4) := bucketShift_eq (by omega)
  set base := 2 ^ B with hbase
  set extra := 2 ^ (B - 4) with hextra
  have hextra1 : 1 ≤ extra := Nat.one_le_two_pow
  have hbase1 : 1 ≤ base := Nat.one_le_two_pow
  have hmk : Pool.makeBucketArray B bucketsize roundupsize =
      { arr := (List.replicate (base + extra)
          (⟨none⟩ : Pool.PoolBucket)).set (base + extra - 1) ⟨some 0⟩,
        nextOverflow := some base } := by
    unfold Pool.makeBucketArray
    dsimp only
    rw [hBS, hBS4] at hru ⊢
    have hcond : ¬ (roundupsize (bucketsize * (base + extra)) ≠
        bucketsize * (base + extra)) := by
      rw [hru]
      simp
    rw [if_pos (show B ≥ 4 from hB4)]
    simp only [if_neg hcond]
    rw [if_pos (by omega : base ≠ base + extra)]
  set arr0 : List Pool.PoolBucket := (List.replicate (base + extra)
      (⟨none⟩ : Pool.PoolBucket)).set (base + extra - 1) ⟨some 0⟩ with harr0
  have hlen : arr0.length = base + extra := by
    rw [harr0, List.length_set, List.length_replicate]
  have hgetlast : arr0.getD (base + extra - 1) ⟨none⟩ = ⟨some 0⟩ := by
    rw [harr0, List.getD_eq_getElem?_getD,
      List.getElem?_set_eq_of_lt _ (by rw [List.length_replicate]; omega)]
    rfl
  have hgetmid : ∀ p, base ≤ p → p < base + extra - 1 →
      arr0.getD p ⟨none⟩ = ⟨none⟩ := by
    intro p hp1 hp2
    rw [harr0, List.getD_eq_getElem?_getD,
      List.getElem?_set_ne (by omega)]
    rw [List.getElem?_replicate, if_pos (by omega)]
    rfl
  have hstep_mid : ∀ p, base ≤ p → p < base + extra - 1 →
      Pool.newoverflow ⟨arr0, some p⟩ = (p, ⟨arr0, some (p + 1)⟩) := by
    intro p hp1 hp2
    unfold Pool.newoverflow
    simp only [hgetmid p hp1 hp2]
    rfl
  have hstep_last :
      Pool.newoverflow ⟨arr0, some (base + extra - 1)⟩ =
        (base + extra - 1,
          ⟨arr0.set (base + extra - 1) ⟨none⟩, none⟩) := by
    unfold Pool.newoverflow
    simp only [hgetlast]
    rfl
  have hconsume : ∀ j p, base ≤ p → p < base + extra →
      p + j ≤ base + extra →
      Pool.newoverflowN ⟨arr0, some p⟩ j =
        (List.range' p j,
          if p + j < base + extra then (⟨arr0, some (p + j)⟩ : Pool.PoolState)
          else ⟨arr0.set (base + extra - 1) ⟨none⟩, none⟩) := by
    intro j
    induction j with
    | zero =>
      intro p hp1 hp3 hp2
      simp only [Pool.newoverflowN, List.range']
      rw [if_pos (by omega)]
      rfl
    | succ j ih =>
      intro p hp1 hp3 hp2
      by_cases hplast : p = base + extra - 1
      · -- the sentinel is hit immediately; afterwards j must be 0
        have hj0 : j = 0 := by omega
        subst hj0
        subst hplast
        simp only [Pool.newoverflowN, hstep_last]
        rw [if_neg (by omega)]
        rfl
      · simp only [Pool.newoverflowN,
          hstep_mid p hp1 (by omega)]
        rw [ih (p + 1) (by omega) (by omega) (by omega)]
        have hr : List.range' p (j + 1) = p :: List.range' (p + 1) j := by
          rw [List.range'_succ]
        rw [hr]
        have harith : p + 1 + j = p + (j + 1) := by omega
        rw [harith]
  rw [hmk]
  refine ⟨hlen, rfl, hgetlast, ?_, ?_, ?_⟩
  · intro j hj
    exact hgetmid (base + j) (by omega) (by omega)
  · intro j hj
    have hc := hconsume j base (le_refl _) (by omega) (by omega)
    rw [hc]
    constructor
    · rfl
    · by_cases hjlt : j < extra
      · rw [if_pos (by omega), if_pos hjlt]
      · rw [if_neg (by omega), if_neg hjlt]
  · have hc := hconsume extra base (le_refl _) (by omega) (by omega)
    rw [Pool.newoverflowN_add _ extra 1, hc]
    rw [if_neg (by omega)]
    simp only [Pool.newoverflowN, Pool.newoverflow]
    simp [hlen]

/-- C9 (witness): the pool at `B = 5` (two pooled buckets). -/
theorem overflow_pool_spec_witness :
    (Pool.makeBucketArray 5 16 id).arr.length = 2 ^ 5 + 2 ^ 1 ∧
    (Pool.newoverflowN (Pool.makeBucketArray 5 16 id) 2).1 =
      List.range' (2 ^ 5) 2 :=
  have hspec := overflow_pool_spec 5 16 id (by decide) (by decide) rfl
  ⟨hspec.1, (hspec.2.2.2.2.1 2 (by decide)).1⟩

/-! ## C5: delete preserves the chain short-circuit invariant -/

theorem shortCircuitOK_iff {K V : Type} [Inhabited K] [Inhabited V] :
    ∀ chain : Chain K V, shortCircuitOK chain = true ↔ shortCircuitPt chain := by
  intro chain
  induction chain with
  | nil =>
    constructor
    · intro _ i j hij hj htop
      simp at hj
    · intro _
      rfl
  | cons c rest ih =>
    simp only [shortCircuitOK, Bool.and_eq_true, Bool.or_eq_true, ih]
    constructor
    · rintro ⟨h1, h2⟩ i j hij hj htop
      match i, j with
      | 0, j' + 1 =>
        rw [List.getD_cons_zero] at htop
        rcases h1 with hne | hall
        · rw [decide_eq_true_eq] at hne
          exact absurd htop hne
        · rw [List.getD_cons_succ]
          rw [List.length_cons] at hj
          rw [List.getD_eq_getElem _ _ (by omega)]
          have hmem : rest[j'] ∈ rest := List.getElem_mem (by omega)
          exact of_decide_eq_true (List.all_eq_true.mp hall _ hmem)
      | i' + 1, j' + 1 =>
        rw [List.getD_cons_succ] at htop ⊢
        rw [List.length_cons] at hj
        exact h2 i' j' (by omega) (by omega) htop
    · intro hpt
      constructor
      · by_cases hc : c.top = emptyRest
        · right
          rw [List.all_eq_true]
          intro x hx
          obtain ⟨j', hj', hxj⟩ := List.getElem_of_mem hx
          rw [decide_eq_true_eq]
          have := hpt 0 (j' + 1) (by omega)
            (by rw [List.length_cons]; omega)
            (by rw [List.getD_cons_zero]; exact hc)
          rw [List.getD_cons_succ, List.getD_eq_getElem _ _ hj', hxj] at this
          exact this
        · left
          rw [decide_eq_true_eq]
          exact hc
      · intro i j hij hj htop
        have := hpt (i + 1) (j + 1) (by omega)
          (by rw [List.length_cons]; omega)
          (by rw [List.getD_cons_succ]; exact htop)
        rw [List.getD_cons_succ] at this
        exact this

/-- `promoteBack` keeps the pointwise invariant, given that every cell past
the promotion start is already non-occupied; it only changes cells at or
below the start. -/
theorem promoteBack_pt {K V : Type} [Inhabited K] [Inhabited V] :
    ∀ (i : Nat) (chain : Chain K V),
      (∀ p, i < p → p < chain.length →
        (chain.getD p ⟨emptyOne, default, default⟩).top < minTopHash) →
      shortCircuitPt chain →
      shortCircuitPt (promoteBack chain i) ∧
      (promoteBack chain i).length = chain.length ∧
      (∀ p, i < p → (promoteBack chain i).getD p ⟨emptyOne, default, default⟩
        = chain.getD p ⟨emptyOne, default, default⟩) := by
  have hmod : ∀ (chain : Chain K V) (i : Nat),
      (∀ p, i < p → p < chain.length →
        (chain.getD p ⟨emptyOne, default, default⟩).top < minTopHash) →
      shortCircuitPt chain →
      shortCircuitPt (chain.modify (fun c => { c with top := emptyRest }) i) ∧
      (chain.modify (fun c => { c with top := emptyRest }) i).length =
        chain.length ∧
      (∀ p, p ≠ i →
        (chain.modify (fun c => { c with top := emptyRest }) i).getD p
          ⟨emptyOne, default, default⟩ =
        chain.getD p ⟨emptyOne, default, default⟩) ∧
      (∀ p, i ≤ p → p < chain.length →
        ((chain.modify (fun c => { c with top := emptyRest }) i).getD p
          ⟨emptyOne, default, default⟩).top < minTopHash) := by
    intro chain i hafter hpt
    have hlen : (chain.modify (fun c => { c with top := emptyRest }) i).length
        = chain.length := List.length_modify _ _ _
    have hne : ∀ p, p ≠ i →
        (chain.modify (fun c => { c with top := emptyRest }) i).getD p
          ⟨emptyOne, default, default⟩ =
        chain.getD p ⟨emptyOne, default, default⟩ := by
      intro p hp
      rw [List.getD_eq_getElem?_getD, List.getElem?_modify_ne _ _
        (fun hcon => hp hcon.symm), ← List.getD_eq_getElem?_getD]
    have hself : ∀ hi : i < chain.length,
        (chain.modify (fun c => { c with top := emptyRest }) i).getD i
          ⟨emptyOne, default, default⟩ =
        { chain.getD i ⟨emptyOne, default, default⟩ with top := emptyRest }
        := by
      intro hi
      rw [List.getD_eq_getElem?_getD, List.getElem?_modify_eq,
        List.getElem?_eq_getElem hi]
      rw [List.getD_eq_getElem _ _ hi]
      rfl
    refine ⟨?_, hlen, hne, ?_⟩
    · intro a b hab hb htop
      rw [hlen] at hb
      by_cases hbi : b = i
      · subst hbi
        rw [hself (by omega)]
        norm_num [emptyRest, minTopHash]
      · rw [hne b hbi]
        by_cases hai : a = i
        · subst hai
          exact hafter b (by omega) (by omega)
        · rw [hne a hai] at htop
          exact hpt a b hab hb htop
    · intro p hp1 hp2
      rcases Nat.eq_or_lt_of_le hp1 with rfl | hlt
      · rw [hself hp2]
        norm_num [emptyRest, minTopHash]
      · rw [hne p (by omega)]
        exact hafter p hlt hp2
  intro i
  induction i with
  | zero =>
    intro chain hafter hpt
    rw [promoteBack]
    obtain ⟨hsc, hlen, hne, -⟩ := hmod chain 0 hafter hpt
    exact ⟨hsc, hlen, fun p hp => hne p (by omega)⟩
  | succ j ih =>
    intro chain hafter hpt
    rw [promoteBack]
    obtain ⟨hsc, hlen, hne, haft⟩ := hmod chain (j + 1) hafter hpt
    set chain' := chain.modify (fun c => { c with top := emptyRest }) (j + 1)
      with hchain'
    have hafter' : ∀ p, j < p → p < chain'.length →
        (chain'.getD p ⟨emptyOne, default, default⟩).top < minTopHash := by
      intro p hp1 hp2
      rw [hlen] at hp2
      exact haft p (by omega) (by omega)
    split
    · obtain ⟨hsc', hlen', heq'⟩ := ih chain' hafter' hsc
      refine ⟨hsc', hlen'.trans hlen, ?_⟩
      intro p hp
      rw [heq' p (by omega), hne p (by omega)]
    · exact ⟨hsc, hlen, fun p hp => hne p (by omega)⟩

/-- C5: the clear-and-promote step of `mapdelete` preserves the chain
short-circuit invariant for every cell position: clearing the found cell to
`emptyOne`, then — when no occupied cell can follow it (the next cell is
absent or `emptyRest`) — promoting it and the preceding run of `emptyOne`
cells to `emptyRest`, never leaves an `emptyRest` cell followed by an
occupied one. -/
theorem deleteClear_shortCircuit {K V : Type} [Inhabited K] [Inhabited V]
    (chain : Chain K V) (j : Nat)
    (hsc : shortCircuitOK chain = true) :
    shortCircuitOK (deleteClear chain j) = true := by
  rw [shortCircuitOK_iff] at hsc ⊢
  unfold deleteClear
  dsimp only
  set chain₁ := chain.set j (⟨emptyOne, default, default⟩ : Cell K V)
    with hchain₁
  have hlen₁ : chain₁.length = chain.length := List.length_set _ _ _
  have hne₁ : ∀ p, p ≠ j →
      chain₁.getD p ⟨emptyOne, default, default⟩ =
      chain.getD p ⟨emptyOne, default, default⟩ := by
    intro p hp
    rw [hchain₁, List.getD_eq_getElem?_getD,
      List.getElem?_set_ne (fun hcon => hp hcon.symm),
      ← List.getD_eq_getElem?_getD]
  have hself₁ : (chain₁.getD j ⟨emptyOne, default, default⟩).top =
      emptyOne := by
    by_cases hj : j < chain.length
    · rw [hchain₁, List.getD_eq_getElem?_getD,
        List.getElem?_set_eq_of_lt _ hj]
      rfl
    · rw [hchain₁, List.set_eq_of_length_le (by omega),
        List.getD_eq_default _ _ (by omega)]
  have hpt₁ : shortCircuitPt chain₁ := by
    intro a b hab hb htop
    rw [hlen₁] at hb
    by_cases hbj : b = j
    · subst hbj
      rw [hself₁]
      norm_num [emptyOne, minTopHash]
    · rw [hne₁ b hbj]
      by_cases haj : a = j
      · subst haj
        rw [hself₁] at htop
        cases htop
      · rw [hne₁ a haj] at htop
        exact hsc a b hab hb htop
  split
  · exact hpt₁
  · rename_i hcond
    push_neg at hcond
    have hafter : ∀ p, j < p → p < chain₁.length →
        (chain₁.getD p ⟨emptyOne, default, default⟩).top < minTopHash := by
      intro p hp1 hp2
      rcases Nat.eq_or_lt_of_le (Nat.succ_le_of_lt hp1) with hpj | hpj
      · rw [← hpj] at hp2 ⊢
        rw [hcond hp2]
        norm_num [emptyRest, minTopHash]
      · have h0 : (chain₁.getD (j + 1) ⟨emptyOne, default, default⟩).top =
            emptyRest := hcond (by omega)
        exact hpt₁ (j + 1) p (by omega) hp2 h0
    exact (promoteBack_pt j chain₁ hafter hpt₁).1

/-- C5 (witness): deleting the last occupied cell of a concrete chain keeps
the invariant (and promotes the freed cell). -/
theorem deleteClear_shortCircuit_witness :
    shortCircuitOK chainC5 = true ∧
    shortCircuitOK (deleteClear chainC5 2) = true :=
  ⟨by decide, deleteClear_shortCircuit chainC5 2 (by decide)⟩

/-! ## C4: the zero-value sentinel -/

/-- A tophash computed from a hash is always in the occupied range. -/
theorem tophash_ge_min (hash : Nat) : minTopHash ≤ tophash hash := by
  unfold tophash minTopHash
  dsimp only
  split <;> omega

/-- A successful chain walk exhibits a cell with matching tophash whose key
the type's equality accepts. -/
theorem chainLookup_some {K V : Type} (t : maptype K V) (key : K)
    (top : Nat) :
    ∀ chain : Chain K V, ∀ p, chainLookup t key top chain = some p →
      ∃ c ∈ chain, c.top = top ∧ t.keyEqual key c.key = true ∧
        p = (c.key, c.val) := by
  intro chain
  induction chain with
  | nil =>
    intro p hp
    cases hp
  | cons c rest ih =>
    intro p hp
    rw [chainLookup] at hp
    split at hp
    · split at hp
      · cases hp
      · obtain ⟨c', hmem, hprop⟩ := ih p hp
        exact ⟨c', List.mem_cons_of_mem _ hmem, hprop⟩
    · rename_i htop
      rw [Decidable.not_not] at htop
      split at hp
      · rename_i hkeq
        cases hp
        exact ⟨c, List.mem_cons_self _ _, htop, hkeq, rfl⟩
      · obtain ⟨c', hmem, hprop⟩ := ih p hp
        exact ⟨c', List.mem_cons_of_mem _ hmem, hprop⟩

/-- The chain selected by `lookupChain` is one of the current or old bucket
chains (or the empty out-of-range default). -/
theorem lookupChain_cases {K V : Type} [Inhabited K] [Inhabited V]
    (h : hmap K V) (hash : Nat) :
    lookupChain h hash = [] ∨ lookupChain h hash ∈ h.buckets ∨
      (∃ old, h.oldbuckets = some old ∧ lookupChain h hash ∈ old) := by
  have hgetD : ∀ (l : List (Chain K V)) (i : Nat),
      l.getD i [] ∈ l ∨ l.getD i [] = [] := by
    intro l i
    by_cases hi : i < l.length
    · rw [List.getD_eq_getElem _ _ hi]
      exact .inl (List.getElem_mem hi)
    · rw [List.getD_eq_default _ _ (by omega)]
      exact .inr rfl
  unfold lookupChain
  dsimp only
  rcases hold : h.oldbuckets with - | old
  · rcases hgetD h.buckets (hash % (bucketMask h.B + 1)) with hmem | hnil
    · exact .inr (.inl hmem)
    · exact .inl hnil
  · dsimp only
    split
    · split
      · rcases hgetD old (hash % (bucketMask h.B >>> 1 + 1)) with hmem | hnil
        · exact .inr (.inr ⟨old, rfl, hmem⟩)
        · exact .inl hnil
      · rcases hgetD h.buckets (hash % (bucketMask h.B + 1)) with hmem | hnil
        · exact .inr (.inl hmem)
        · exact .inl hnil
    · split
      · rcases hgetD old (hash % (bucketMask h.B + 1)) with hmem | hnil
        · exact .inr (.inr ⟨old, rfl, hmem⟩)
        · exact .inl hnil
      · rcases hgetD h.buckets (hash % (bucketMask h.B + 1)) with hmem | hnil
        · exact .inr (.inl hmem)
        · exact .inl hnil

/-- C4: `mapaccess1` never returns a nil pointer; on a nil or empty table
it returns the `&zeroVal[0]` sentinel — after still invoking the hash
function (which may trap) when the key type requires it — and on a live
table it returns the sentinel for every absent key. -/
theorem mapaccess1_zero_sentinel {K V : Type} [Inhabited K] [Inhabited V]
    (t : maptype K V) (h : hmap K V) (key : K)
    (hkeq : ∀ a b, t.keyEqual a b = true → a = b)
    (hnotrap : ∀ seed, (t.hasher key seed).isSome = true) :
    (∀ h? : Option (hmap K V), mapaccess1 t h? key ≠ .ok .null) ∧
    (∀ t' : maptype K V, t'.hashMightPanic = true → t'.hasher key 0 = none →
      mapaccess1 t' none key = (.error .hashTrap : Except mapFault (MPtr V)) ∧
      (h.count = 0 → mapaccess1 t' (some h) key = .error .hashTrap)) ∧
    (mapaccess1 t none key = .ok .zeroVal) ∧
    (h.count = 0 → mapaccess1 t (some h) key = .ok .zeroVal) ∧
    (h.flags.hashWriting = false → keyAbsent h key →
      mapaccess1 t (some h) key = .ok .zeroVal) := by
  refine ⟨?_, ?_, ?_, ?_, ?_⟩
  · intro h?
    unfold mapaccess1
    rcases h? with - | g <;>
      (repeat' split) <;> simp
  · intro t' hmp htrap
    constructor
    · unfold mapaccess1
      rw [if_pos (by rw [hmp, htrap]; rfl)]
    · intro hc0
      unfold mapaccess1
      dsimp only
      rw [if_pos hc0, if_pos (by rw [hmp, htrap]; rfl)]
  · unfold mapaccess1
    rw [if_neg ?_]
    rw [Bool.and_eq_true]
    rintro ⟨-, hbad⟩
    have := hnotrap 0
    rw [Option.isNone_iff_eq_none] at hbad
    rw [hbad] at this
    cases this
  · intro hc0
    unfold mapaccess1
    dsimp only
    rw [if_pos hc0, if_neg ?_]
    rw [Bool.and_eq_true]
    rintro ⟨-, hbad⟩
    have := hnotrap 0
    rw [Option.isNone_iff_eq_none] at hbad
    rw [hbad] at this
    cases this
  · intro hw habs
    by_cases hc0 : h.count = 0
    · unfold mapaccess1
      dsimp only
      rw [if_pos hc0, if_neg ?_]
      rw [Bool.and_eq_true]
      rintro ⟨-, hbad⟩
      have := hnotrap 0
      rw [Option.isNone_iff_eq_none] at hbad
      rw [hbad] at this
      cases this
    · obtain ⟨hash, hhash⟩ := Option.isSome_iff_exists.mp (hnotrap h.hash0)
      unfold mapaccess1
      dsimp only
      rw [if_neg hc0, if_neg (by rw [hw]; exact Bool.false_ne_true), hhash]
      dsimp only
      rcases hlk : chainLookup t key (tophash hash) (lookupChain h hash)
        with - | p
      · rfl
      · exfalso
        obtain ⟨c, hmem, htop, hkeqc, -⟩ :=
          chainLookup_some t key (tophash hash) _ p hlk
        have hocc : minTopHash ≤ c.top := htop ▸ tophash_ge_min hash
        have hkey : key = c.key := hkeq _ _ hkeqc
        rcases lookupChain_cases h hash with hnil | hmem' | ⟨old, hold, hmem'⟩
        · rw [hnil] at hmem
          cases hmem
        · exact habs.1 _ hmem' c hmem hocc hkey.symm
        · exact habs.2 old hold _ hmem' c hmem hocc hkey.symm

/-- C4 (witness): the sentinel on an absent key and on the nil table. -/
theorem mapaccess1_zero_sentinel_witness :
    mapaccess1 tNat (some hRaceCleared) 2 = .ok .zeroVal ∧
    mapaccess1 tNat none 2 = .ok .zeroVal :=
  have hspec := mapaccess1_zero_sentinel tNat hRaceCleared 2
    (fun a b hab => by
      have h2 : (a == b) = true := hab
      simpa using h2)
    (fun _ => rfl)
  ⟨hspec.2.2.2.2 rfl ⟨by decide, by intro old hold; cases hold⟩,
    hspec.2.2.1⟩

/-! ## C10: map creation never fails -/

/-- `overLoadFactor` is false at `B = 63` for every hint: `13·2^62` exceeds
any wrapped `uintptr`. -/
theorem overLoadFactor_63_false (hint : Int) :
    overLoadFactor hint 63 = false := by
  unfold overLoadFactor
  rw [Bool.and_eq_false_iff]
  right
  rw [decide_eq_false_iff_not]
  intro hcon
  have h1 : hint % ((2 ^ ptrBits : Nat) : Int) < ((2 ^ ptrBits : Nat) : Int) :=
    Int.emod_lt_of_pos _ (by norm_num [ptrBits])
  have h2 : (hint % ((2 ^ ptrBits : Nat) : Int)).toNat < 2 ^ ptrBits := by
    omega
  have h3 : loadFactorNum * (bucketShift 63 / loadFactorDen) = 13 * 2 ^ 62 := by
    rw [bucketShift_eq (by omega)]
    norm_num [loadFactorNum, loadFactorDen]
  rw [h3] at hcon
  have : (2 : Nat) ^ ptrBits < 13 * 2 ^ 62 := by
    norm_num [ptrBits]
  omega

/-- The fuelled `B`-search loop finds the least `B` without excess load,
provided some `B` below the fuel qualifies. -/
theorem makemapFindBAux_spec (hint : Int) :
    ∀ fuel b, (∃ j, j < fuel ∧ overLoadFactor hint (b + j) = false) →
      overLoadFactor hint (makemapFindBAux hint b fuel) = false ∧
      b ≤ makemapFindBAux hint b fuel ∧
      (∀ x, b ≤ x → x < makemapFindBAux hint b fuel →
        overLoadFactor hint x = true) := by
  intro fuel
  induction fuel with
  | zero =>
    rintro b ⟨j, hj, -⟩
    omega
  | succ fuel ih =>
    rintro b ⟨j, hj, hjfalse⟩
    rw [makemapFindBAux]
    by_cases hb : overLoadFactor hint b = true
    · rw [if_pos hb]
      have hex : ∃ j, j < fuel ∧ overLoadFactor hint (b + 1 + j) = false := by
        rcases Nat.eq_zero_or_pos j with hj0 | hjpos
        · subst hj0
          simp only [Nat.add_zero] at hjfalse
          rw [hjfalse] at hb
          cases hb
        · exact ⟨j - 1, by omega, by
            have : b + 1 + (j - 1) = b + j := by omega
            rw [this]
            exact hjfalse⟩
      obtain ⟨hf, hge, hmin⟩ := ih (b + 1) hex
      refine ⟨hf, by omega, ?_⟩
      intro x hx1 hx2
      rcases Nat.eq_or_lt_of_le hx1 with rfl | hlt
      · exact hb
      · exact hmin x (by omega) hx2
    · rw [if_neg hb]
      rw [Bool.not_eq_true] at hb
      exact ⟨hb, le_refl _, fun x hx1 hx2 => by omega⟩

/-- C10: map creation never fails.  `makemap64` turns a hint that does not
fit the platform int into 0; `makemap` turns a hint whose bucket memory
would overflow a `uintptr` or exceed the maximum allocation into 0; the
result is always a valid empty header (`count = 0`, no grow in progress,
`2^B` buckets when any are allocated) whose `B` is the smallest value at
which the validated hint does not exceed the load factor. -/
theorem makemap_never_fails (K V : Type) [Inhabited K] [Inhabited V]
    (w bucketsize maxAlloc : Nat) (hint : Int) (seed : Nat)
    (hw : intCast w hint ≠ hint) :
    makemap64 K V w bucketsize maxAlloc hint seed =
      makemap K V bucketsize maxAlloc 0 seed ∧
    (makemap K V bucketsize maxAlloc hint seed).count = 0 ∧
    (makemap K V bucketsize maxAlloc hint seed).oldbuckets = none ∧
    (makemap K V bucketsize maxAlloc hint seed).flags =
      ⟨false, false, false, false⟩ ∧
    ((makemap K V bucketsize maxAlloc hint seed).buckets.length =
      if (makemap K V bucketsize maxAlloc hint seed).B = 0 then 0
      else bucketShift (makemap K V bucketsize maxAlloc hint seed).B) ∧
    overLoadFactor (makemapHint bucketsize maxAlloc hint)
      (makemap K V bucketsize maxAlloc hint seed).B = false ∧
    (∀ b, b < (makemap K V bucketsize maxAlloc hint seed).B →
      overLoadFactor (makemapHint bucketsize maxAlloc hint) b = true) ∧
    (((hint % ((2 : Int) ^ ptrBits)).toNat * bucketsize ≥ 2 ^ ptrBits ∨
        (hint % ((2 : Int) ^ ptrBits)).toNat * bucketsize > maxAlloc) →
      makemapHint bucketsize maxAlloc hint = 0) := by
  have hfind := makemapFindBAux_spec (makemapHint bucketsize maxAlloc hint)
    64 0 ⟨63, by omega, overLoadFactor_63_false _⟩
  have hB : (makemap K V bucketsize maxAlloc hint seed).B =
      makemapFindBAux (makemapHint bucketsize maxAlloc hint) 0 64 := rfl
  refine ⟨?_, rfl, rfl, rfl, ?_, ?_, ?_, ?_⟩
  · unfold makemap64 makemap64Hint
    rw [if_pos hw]
  · unfold makemap makemapCore
    dsimp only
    split
    · rename_i h1
      unfold makeBucketArray
      rw [List.length_replicate]
    · rename_i h1
      rw [if_pos (show makemapFindB (makemapHint bucketsize maxAlloc hint) = 0
        by omega)]
      rfl
  · rw [hB]
    exact hfind.1
  · intro b hb
    rw [hB] at hb
    exact hfind.2.2 b (by omega) hb
  · intro hbad
    unfold makemapHint
    rw [if_pos]
    rw [Bool.or_eq_true]
    rcases hbad with hbad | hbad
    · left
      rw [decide_eq_true_eq]
      exact hbad
    · right
      rw [decide_eq_true_eq]
      exact hbad

/-- C10 (witness): a hint that does not fit a 32-bit int, whose memory also
overflows, still yields a valid empty header. -/
theorem makemap_never_fails_witness :
    makemap64 Nat Nat 32 8 (2 ^ 48) (2 ^ 40) 7 =
      makemap Nat Nat 8 (2 ^ 48) 0 7 ∧
    (makemap Nat Nat 8 (2 ^ 48) (2 ^ 40) 7).count = 0 :=
  have hspec := makemap_never_fails Nat Nat 32 8 (2 ^ 48) (2 ^ 40) 7
    (by decide)
  ⟨hspec.1, hspec.2.1⟩

/-! ## C8: evacuation of non-reflexive (NaN-like) keys -/

/-- C8 (counterexample): the claim says that for *every* occupied cell with
a non-reflexive key the destination half is decided by the low bit of its
tophash.  But the code consults the tophash bit only while the map's
`iterator` flag is set (`h.flags&iterator != 0 && ...`, map.go line 1298).
With no iterator active, `hNaNGrow`'s single NaN entry has tophash 7 (low
bit 1, so the claim demands the Y half, bucket `0 + 2^(B-1) = 1`), yet its
hash (0) routes it to the X half: after evacuating old bucket 0, new bucket
1 holds no occupied cell and new bucket 0 holds the entry. -/
theorem evac_nan_lowbit_counterexample :
    tNaN.reflexivekey = false ∧ tNaN.keyEqual () () = false ∧
    hNaNGrow.flags.iterator = false ∧ hNaNGrow.isSameSizeGrow = false ∧
    (((hNaNGrow.oldbuckets.getD []).getD 0 []).getD 0 ⟨0, (), ()⟩).top % 2
      = 1 ∧
    (match evacuate tNaN hNaNGrow 0 with
      | .ok h' => ((h'.buckets.getD 1 []).all (fun c => c.top < minTopHash))
            && (((h'.buckets.getD 0 []).getD 0 ⟨0, (), ()⟩).top == 7)
      | .error _ => false) = true := by
  decide

/-- C8 (amended): for an occupied cell with a non-reflexive key, *when the
map's iterator flag is set*, the destination half is decided by the low bit
of the cell's current tophash and the destination tophash is recomputed
from the fresh hash (`evacDecision` is this decision, used by `evacuate`
through `evacCells`); the iterator's old-bucket filter mirrors exactly that
bit decision: scanning new bucket `oj + 2^(B-1)·u` it keeps the cell iff
`u` equals the tophash's low bit. -/
theorem evac_nan_lowbit {K V : Type} (t : maptype K V) (k : K)
    (top hash newbit : Nat)
    (hrefl : t.reflexivekey = false) (hk : t.keyEqual k k = false) :
    evacDecision t true newbit top k hash = (top % 2, tophash hash) ∧
    (∀ B oj u, 1 ≤ B → oj < 2 ^ (B - 1) →
      (iterSkipTophashNaN (oj + 2 ^ (B - 1) * u) B top = false ↔
        u = top % 2)) := by
  constructor
  · simp [evacDecision, hrefl, hk]
  · intro B oj u hB hoj
    have hshift : (oj + 2 ^ (B - 1) * u) >>> (B - 1) = u := by
      rw [Nat.shiftRight_eq_div_pow]
      rw [Nat.add_mul_div_left _ _ (Nat.pos_pow_of_pos _ (by norm_num))]
      rw [Nat.div_eq_of_lt hoj]
      omega
    simp only [iterSkipTophashNaN, hshift]
    constructor
    · intro hfalse
      simpa using hfalse
    · intro hu
      simp [hu]

/-- C8 (witness): the amended decision at a concrete NaN-like entry. -/
theorem evac_nan_lowbit_witness :
    evacDecision tNaN true 1 7 () 12345 = (1, tophash 12345) ∧
    iterSkipTophashNaN (2 + 4 * 1) 3 7 = false :=
  ⟨(evac_nan_lowbit tNaN () 7 12345 1 rfl rfl).1,
    ((evac_nan_lowbit tNaN () 7 12345 1 rfl rfl).2 3 2 1 (by decide)
      (by decide)).2 (by decide)⟩

/-! ## C1 groundwork: index-level characterization of the chain walk -/

/-- `emptyRest` is never a computed tophash. -/
theorem emptyRest_ne_top {top : Nat} (htop5 : minTopHash ≤ top) :
    emptyRest ≠ top := by
  unfold emptyRest minTopHash at *
  omega

/-- One walk step over a cell that neither matches nor cuts. -/
theorem chainLookup_cons_skip {K V : Type} (t : maptype K V) (key : K)
    (top : Nat) (c : Cell K V) (rest : Chain K V)
    (hc0 : c.top ≠ emptyRest)
    (hm : ¬(c.top = top ∧ t.keyEqual key c.key = true)) :
    chainLookup t key top (c :: rest) = chainLookup t key top rest := by
  rw [chainLookup]
  by_cases hct : c.top = top
  · have hkf : ¬ t.keyEqual key c.key = true := fun hkk => hm ⟨hct, hkk⟩
    rw [if_neg (by simp [hct]), if_neg hkf]
  · rw [if_pos hct, if_neg hc0]

/-- One walk step over an `emptyRest` cell: the walk gives up. -/
theorem chainLookup_cons_cut {K V : Type} (t : maptype K V) (key : K)
    (top : Nat) (c : Cell K V) (rest : Chain K V)
    (htop5 : minTopHash ≤ top) (hc0 : c.top = emptyRest) :
    chainLookup t key top (c :: rest) = none := by
  rw [chainLookup,
    if_pos (show c.top ≠ top by rw [hc0]; exact emptyRest_ne_top htop5),
    if_pos hc0]

/-- One walk step over a matching cell: the walk succeeds. -/
theorem chainLookup_cons_match {K V : Type} (t : maptype K V) (key : K)
    (top : Nat) (c : Cell K V) (rest : Chain K V)
    (hct : c.top = top) (hkk : t.keyEqual key c.key = true) :
    chainLookup t key top (c :: rest) = some (c.key, c.val) := by
  rw [chainLookup, if_neg (by simp [hct]), if_pos hkk]

/-- Constructor form of a successful chain walk: a matching cell at index
`p` with no match and no `emptyRest` cut before it. -/
theorem chainLookup_eq_some {K V : Type} [Inhabited K] [Inhabited V]
    (t : maptype K V) (key : K) (top : Nat) :
    ∀ (b : Chain K V) (p : Nat), p < b.length →
      (b.getD p ⟨emptyOne, default, default⟩).top = top →
      t.keyEqual key (b.getD p ⟨emptyOne, default, default⟩).key = true →
      (∀ l, l < p →
        (b.getD l ⟨emptyOne, default, default⟩).top ≠ emptyRest ∧
        ¬((b.getD l ⟨emptyOne, default, default⟩).top = top ∧
          t.keyEqual key (b.getD l ⟨emptyOne, default, default⟩).key
            = true)) →
      chainLookup t key top b =
        some ((b.getD p ⟨emptyOne, default, default⟩).key,
          (b.getD p ⟨emptyOne, default, default⟩).val) := by
  intro b
  induction b with
  | nil => intro p hp _ _ _; simp at hp
  | cons c rest ih =>
    intro p hp htop hkey hbefore
    match p with
    | 0 =>
      rw [List.getD_cons_zero] at htop hkey ⊢
      rw [chainLookup, if_neg (by simp [htop]), if_pos hkey]
    | p' + 1 =>
      rw [List.getD_cons_succ] at htop hkey ⊢
      rw [List.length_cons] at hp
      have h0 := hbefore 0 (by omega)
      rw [List.getD_cons_zero] at h0
      have hrest : ∀ l, l < p' →
          (rest.getD l ⟨emptyOne, default, default⟩).top ≠ emptyRest ∧
          ¬((rest.getD l ⟨emptyOne, default, default⟩).top = top ∧
            t.keyEqual key (rest.getD l ⟨emptyOne, default, default⟩).key
              = true) := by
        intro l hl
        have := hbefore (l + 1) (by omega)
        rwa [List.getD_cons_succ] at this
      rw [chainLookup]
      by_cases hct : c.top = top
      · rw [if_neg (by simp [hct])]
        have hkf : t.keyEqual key c.key = false := by
          rcases hkk : t.keyEqual key c.key with - | -
          · rfl
          · exact absurd ⟨hct, hkk⟩ h0.2
        rw [hkf]
        simp only [Bool.false_eq_true, if_false]
        exact ih p' (by omega) htop hkey hrest
      · rw [if_pos hct, if_neg h0.1]
        exact ih p' (by omega) htop hkey hrest

/-- Constructor form of a failed chain walk: a clean prefix up to `q`,
which is the end of the chain or an `emptyRest` cut. -/
theorem chainLookup_eq_none {K V : Type} [Inhabited K] [Inhabited V]
    (t : maptype K V) (key : K) (top : Nat) (htop5 : minTopHash ≤ top) :
    ∀ (b : Chain K V) (q : Nat), q ≤ b.length →
      (∀ l, l < q →
        (b.getD l ⟨emptyOne, default, default⟩).top ≠ emptyRest ∧
        ¬((b.getD l ⟨emptyOne, default, default⟩).top = top ∧
          t.keyEqual key (b.getD l ⟨emptyOne, default, default⟩).key
            = true)) →
      (q = b.length ∨
        (b.getD q ⟨emptyOne, default, default⟩).top = emptyRest) →
      chainLookup t key top b = none := by
  intro b
  induction b with
  | nil => intro q _ _ _; rfl
  | cons c rest ih =>
    intro q hq hclean hcut
    match q with
    | 0 =>
      rcases hcut with hcut | hcut
      · rw [List.length_cons] at hcut; omega
      · rw [List.getD_cons_zero] at hcut
        exact chainLookup_cons_cut t key top c rest htop5 hcut
    | q' + 1 =>
      rw [List.length_cons] at hq
      have h0 := hclean 0 (by omega)
      rw [List.getD_cons_zero] at h0
      have hrest : ∀ l, l < q' →
          (rest.getD l ⟨emptyOne, default, default⟩).top ≠ emptyRest ∧
          ¬((rest.getD l ⟨emptyOne, default, default⟩).top = top ∧
            t.keyEqual key (rest.getD l ⟨emptyOne, default, default⟩).key
              = true) := by
        intro l hl
        have := hclean (l + 1) (by omega)
        rwa [List.getD_cons_succ] at this
      have hcut' : q' = rest.length ∨
          (rest.getD q' ⟨emptyOne, default, default⟩).top = emptyRest := by
        rcases hcut with hcut | hcut
        · left; rw [List.length_cons] at hcut; omega
        · right; rwa [List.getD_cons_succ] at hcut
      rw [chainLookup]
      by_cases hct : c.top = top
      · rw [if_neg (by simp [hct])]
        have hkf : t.keyEqual key c.key = false := by
          rcases hkk : t.keyEqual key c.key with - | -
          · rfl
          · exact absurd ⟨hct, hkk⟩ h0.2
        rw [hkf]
        simp only [Bool.false_eq_true, if_false]
        exact ih q' (by omega) hrest hcut'
      · rw [if_pos hct, if_neg h0.1]
        exact ih q' (by omega) hrest hcut'

/-- Destructor form of the chain walk: it either finds a first matching
cell behind a clean prefix, or fails with a clean prefix ending at the end
of the chain or at an `emptyRest` cut. -/
theorem chainLookup_destruct {K V : Type} [Inhabited K] [Inhabited V]
    (t : maptype K V) (key : K) (top : Nat) (htop5 : minTopHash ≤ top) :
    ∀ b : Chain K V,
      (∃ p, p < b.length ∧
        (b.getD p ⟨emptyOne, default, default⟩).top = top ∧
        t.keyEqual key (b.getD p ⟨emptyOne, default, default⟩).key
          = true ∧
        (∀ l, l < p →
          (b.getD l ⟨emptyOne, default, default⟩).top ≠ emptyRest ∧
          ¬((b.getD l ⟨emptyOne, default, default⟩).top = top ∧
            t.keyEqual key (b.getD l ⟨emptyOne, default, default⟩).key
              = true)) ∧
        chainLookup t key top b =
          some ((b.getD p ⟨emptyOne, default, default⟩).key,
            (b.getD p ⟨emptyOne, default, default⟩).val)) ∨
      (chainLookup t key top b = none ∧
        ∃ q, q ≤ b.length ∧
          (∀ l, l < q →
            (b.getD l ⟨emptyOne, default, default⟩).top ≠ emptyRest ∧
            ¬((b.getD l ⟨emptyOne, default, default⟩).top = top ∧
              t.keyEqual key (b.getD l ⟨emptyOne, default, default⟩).key
                = true)) ∧
          (q = b.length ∨
            (b.getD q ⟨emptyOne, default, default⟩).top = emptyRest)) := by
  intro b
  induction b with
  | nil =>
    right
    exact ⟨rfl, 0, by omega, fun l hl => by omega, .inl rfl⟩
  | cons c rest ih =>
    by_cases hmatch : c.top = top ∧ t.keyEqual key c.key = true
    · left
      refine ⟨0, by simp, ?_, ?_, fun l hl => by omega, ?_⟩
      · rw [List.getD_cons_zero]; exact hmatch.1
      · rw [List.getD_cons_zero]; exact hmatch.2
      · rw [List.getD_cons_zero,
          chainLookup, if_neg (by simp [hmatch.1]), if_pos hmatch.2]
    · by_cases hc0 : c.top = emptyRest
      · right
        constructor
        · exact chainLookup_cons_cut t key top c rest htop5 hc0
        · exact ⟨0, by omega, fun l hl => by omega,
            .inr (by rw [List.getD_cons_zero]; exact hc0)⟩
      · have hstep : chainLookup t key top (c :: rest) =
            chainLookup t key top rest := by
          rw [chainLookup]
          by_cases hct : c.top = top
          · rw [if_neg (by simp [hct])]
            have hkf : t.keyEqual key c.key = false := by
              rcases hkk : t.keyEqual key c.key with - | -
              · rfl
              · exact absurd ⟨hct, hkk⟩ hmatch
            rw [hkf]
            simp only [Bool.false_eq_true, if_false]
          · rw [if_pos hct, if_neg hc0]
        rcases ih with ⟨p, hp, htop, hkey, hbefore, heq⟩ |
            ⟨heq, q, hq, hclean, hcut⟩
        · left
          refine ⟨p + 1, by rw [List.length_cons]; omega, ?_, ?_, ?_, ?_⟩
          · rwa [List.getD_cons_succ]
          · rwa [List.getD_cons_succ]
          · intro l hl
            match l with
            | 0 =>
              rw [List.getD_cons_zero]
              exact ⟨hc0, hmatch⟩
            | l' + 1 =>
              rw [List.getD_cons_succ]
              exact hbefore l' (by omega)
          · rw [List.getD_cons_succ, hstep]
            exact heq
        · right
          refine ⟨by rw [hstep]; exact heq, q + 1,
            by rw [List.length_cons]; omega, ?_, ?_⟩
          · intro l hl
            match l with
            | 0 =>
              rw [List.getD_cons_zero]
              exact ⟨hc0, hmatch⟩
            | l' + 1 =>
              rw [List.getD_cons_succ]
              exact hclean l' (by omega)
          · rcases hcut with hcut | hcut
            · left; rw [List.length_cons]; omega
            · right; rwa [List.getD_cons_succ]

/-- From a clean prefix and no match anywhere past it, a clean cut (or the
chain end) exists; `n` is fuel bounding `b.length - s`. -/
theorem clean_cut_exists {K V : Type} [Inhabited K] [Inhabited V]
    (t : maptype K V) (key : K) (top : Nat) (b : Chain K V) :
    ∀ (n s : Nat), b.length - s ≤ n →
      (∀ l, s ≤ l → l < b.length →
        ¬((b.getD l ⟨emptyOne, default, default⟩).top = top ∧
          t.keyEqual key (b.getD l ⟨emptyOne, default, default⟩).key
            = true)) →
      (∀ l, l < s →
        (b.getD l ⟨emptyOne, default, default⟩).top ≠ emptyRest ∧
        ¬((b.getD l ⟨emptyOne, default, default⟩).top = top ∧
          t.keyEqual key (b.getD l ⟨emptyOne, default, default⟩).key
            = true)) →
      ∃ q, q ≤ b.length ∧
        (∀ l, l < q →
          (b.getD l ⟨emptyOne, default, default⟩).top ≠ emptyRest ∧
          ¬((b.getD l ⟨emptyOne, default, default⟩).top = top ∧
            t.keyEqual key (b.getD l ⟨emptyOne, default, default⟩).key
              = true)) ∧
        (q = b.length ∨
          (b.getD q ⟨emptyOne, default, default⟩).top = emptyRest) := by
  intro n
  induction n with
  | zero =>
    intro s hs _ hclean
    refine ⟨b.length, Nat.le_refl _, ?_, .inl rfl⟩
    intro l hl
    exact hclean l (by omega)
  | succ n ih =>
    intro s hs hnomatch hclean
    by_cases hsl : b.length ≤ s
    · refine ⟨b.length, Nat.le_refl _, ?_, .inl rfl⟩
      intro l hl
      exact hclean l (by omega)
    · by_cases hcut : (b.getD s ⟨emptyOne, default, default⟩).top
          = emptyRest
      · exact ⟨s, by omega, hclean, .inr hcut⟩
      · refine ih (s + 1) (by omega) (fun l hl₁ hl₂ =>
          hnomatch l (by omega) hl₂) ?_
        intro l hl
        rcases Nat.lt_succ_iff_lt_or_eq.mp hl with hl | rfl
        · exact hclean l hl
        · exact ⟨hcut, hnomatch l (Nat.le_refl _) (by omega)⟩

/-- Two chains that agree pointwise up to both-non-matching cells with the
same cut status produce the same walk result. -/
theorem chainLookup_congr {K V : Type} [Inhabited K] [Inhabited V]
    (t : maptype K V) (key : K) (top : Nat) (htop5 : minTopHash ≤ top) :
    ∀ (b b' : Chain K V), b'.length = b.length →
      (∀ l, l < b.length →
        b'.getD l ⟨emptyOne, default, default⟩ =
          b.getD l ⟨emptyOne, default, default⟩ ∨
        (¬((b.getD l ⟨emptyOne, default, default⟩).top = top ∧
            t.keyEqual key (b.getD l ⟨emptyOne, default, default⟩).key
              = true) ∧
         ¬((b'.getD l ⟨emptyOne, default, default⟩).top = top ∧
            t.keyEqual key (b'.getD l ⟨emptyOne, default, default⟩).key
              = true) ∧
         ((b'.getD l ⟨emptyOne, default, default⟩).top = emptyRest ↔
          (b.getD l ⟨emptyOne, default, default⟩).top = emptyRest))) →
      chainLookup t key top b' = chainLookup t key top b := by
  intro b
  induction b with
  | nil =>
    intro b' hlen _
    rw [List.length_eq_zero.mp hlen]
  | cons c rest ih =>
    intro b' hlen hpt
    match b' with
    | [] => simp at hlen
    | c' :: rest' =>
      rw [List.length_cons, List.length_cons] at hlen
      have h0 := hpt 0 (by rw [List.length_cons]; omega)
      rw [List.getD_cons_zero, List.getD_cons_zero] at h0
      have hrest : ∀ l, l < rest.length →
          rest'.getD l ⟨emptyOne, default, default⟩ =
            rest.getD l ⟨emptyOne, default, default⟩ ∨
          (¬((rest.getD l ⟨emptyOne, default, default⟩).top = top ∧
              t.keyEqual key (rest.getD l ⟨emptyOne, default, default⟩).key
                = true) ∧
           ¬((rest'.getD l ⟨emptyOne, default, default⟩).top = top ∧
              t.keyEqual key
                (rest'.getD l ⟨emptyOne, default, default⟩).key = true) ∧
           ((rest'.getD l ⟨emptyOne, default, default⟩).top = emptyRest ↔
            (rest.getD l ⟨emptyOne, default, default⟩).top
              = emptyRest)) := by
        intro l hl
        have := hpt (l + 1) (by rw [List.length_cons]; omega)
        rwa [List.getD_cons_succ, List.getD_cons_succ] at this
      have htail := ih rest' (by omega) hrest
      rcases h0 with heq | ⟨hm, hm', hiff⟩
      · rw [heq, chainLookup, chainLookup]
        by_cases hct : c.top ≠ top
        · rw [if_pos hct, if_pos hct]
          by_cases hc0 : c.top = emptyRest
          · rw [if_pos hc0, if_pos hc0]
          · rw [if_neg hc0, if_neg hc0]
            exact htail
        · rw [if_neg hct, if_neg hct]
          by_cases hkk : t.keyEqual key c.key = true
          · rw [if_pos hkk, if_pos hkk]
          · rw [if_neg hkk, if_neg hkk]
            exact htail
      · by_cases hcut : c.top = emptyRest
        · have hcut2 : c'.top = emptyRest := hiff.mpr hcut
          rw [chainLookup_cons_cut t key top c rest htop5 hcut,
            chainLookup_cons_cut t key top c' rest' htop5 hcut2]
        · have hcut2 : c'.top ≠ emptyRest := fun hcon => hcut (hiff.mp hcon)
          rw [chainLookup_cons_skip t key top c rest hcut hm,
            chainLookup_cons_skip t key top c' rest' hcut2 hm']
          exact htail

/-! ## C1 groundwork: index-level characterization of the scans -/

/-- A computed tophash is never an empty sentinel. -/
theorem isEmptyTop_of_top {top : Nat} (htop5 : minTopHash ≤ top) :
    isEmptyTop top = false := by
  unfold isEmptyTop emptyOne minTopHash at *
  simp only [decide_eq_false_iff_not]
  omega

/-- The find half of the `mapassign` chain scan: a `found` result names a
matching cell behind a clean prefix. -/
theorem assignScanAux_found {K V : Type} [Inhabited K] [Inhabited V]
    (t : maptype K V) (key : K) (top : Nat) (htop5 : minTopHash ≤ top) :
    ∀ (b : Chain K V) (i m : Nat) (ins : Option Nat),
      assignScanAux t key top b i ins = .found m →
      ∃ j, m = i + j ∧ j < b.length ∧
        (b.getD j ⟨emptyOne, default, default⟩).top = top ∧
        t.keyEqual key (b.getD j ⟨emptyOne, default, default⟩).key
          = true ∧
        ∀ l, l < j →
          (b.getD l ⟨emptyOne, default, default⟩).top ≠ emptyRest ∧
          ¬((b.getD l ⟨emptyOne, default, default⟩).top = top ∧
            t.keyEqual key (b.getD l ⟨emptyOne, default, default⟩).key
              = true) := by
  intro b
  induction b with
  | nil =>
    intro i m ins h
    exact absurd h (by rw [assignScanAux]; simp)
  | cons c rest ih =>
    intro i m ins h
    simp only [assignScanAux] at h
    by_cases hct : c.top = top
    · rw [if_neg (by simp [hct])] at h
      by_cases hkk : t.keyEqual key c.key = true
      · rw [if_pos hkk] at h
        cases h
        exact ⟨0, by omega, by rw [List.length_cons]; omega,
          by rw [List.getD_cons_zero]; exact hct,
          by rw [List.getD_cons_zero]; exact hkk,
          fun l hl => by omega⟩
      · rw [if_neg hkk] at h
        obtain ⟨j, hmj, hj, hjt, hjk, hbef⟩ := ih (i + 1) m ins h
        refine ⟨j + 1, by omega, by rw [List.length_cons]; omega,
          by rwa [List.getD_cons_succ], by rwa [List.getD_cons_succ], ?_⟩
        intro l hl
        match l with
        | 0 =>
          rw [List.getD_cons_zero]
          refine ⟨by rw [hct]; exact fun hcon =>
            emptyRest_ne_top htop5 hcon.symm, ?_⟩
          exact fun hcon => hkk hcon.2
        | l' + 1 =>
          rw [List.getD_cons_succ]
          exact hbef l' (by omega)
    · rw [if_pos hct] at h
      by_cases hc0 : c.top = emptyRest
      · rw [if_pos hc0] at h
        exact absurd h (by simp)
      · rw [if_neg hc0] at h
        obtain ⟨j, hmj, hj, hjt, hjk, hbef⟩ := ih (i + 1) m _ h
        refine ⟨j + 1, by omega, by rw [List.length_cons]; omega,
          by rwa [List.getD_cons_succ], by rwa [List.getD_cons_succ], ?_⟩
        intro l hl
        match l with
        | 0 =>
          rw [List.getD_cons_zero]
          exact ⟨hc0, fun hcon => hct hcon.1⟩
        | l' + 1 =>
          rw [List.getD_cons_succ]
          exact hbef l' (by omega)

/-- The find half of the scan: a `notFound` result means the chain walk of
the access functions fails on this chain. -/
theorem assignScanAux_notFound_lookup {K V : Type} [Inhabited K]
    [Inhabited V] (t : maptype K V) (key : K) (top : Nat)
    (htop5 : minTopHash ≤ top) :
    ∀ (b : Chain K V) (i : Nat) (ins o : Option Nat),
      assignScanAux t key top b i ins = .notFound o →
      chainLookup t key top b = none := by
  intro b
  induction b with
  | nil => intro i ins o _; rfl
  | cons c rest ih =>
    intro i ins o h
    simp only [assignScanAux] at h
    by_cases hct : c.top = top
    · rw [if_neg (by simp [hct])] at h
      by_cases hkk : t.keyEqual key c.key = true
      · rw [if_pos hkk] at h
        exact absurd h (by simp)
      · rw [if_neg hkk] at h
        rw [chainLookup_cons_skip t key top c rest
          (by rw [hct]; exact fun hcon => emptyRest_ne_top htop5 hcon.symm)
          (fun hcon => hkk hcon.2)]
        exact ih (i + 1) ins o h
    · rw [if_pos hct] at h
      by_cases hc0 : c.top = emptyRest
      · exact chainLookup_cons_cut t key top c rest htop5 hc0
      · rw [if_neg hc0] at h
        rw [chainLookup_cons_skip t key top c rest hc0
          (fun hcon => hct hcon.1)]
        exact ih (i + 1) _ o h

/-- The insert-slot tracking of the scan: once recorded, the insert slot is
never replaced. -/
theorem assignScanAux_ins_some {K V : Type} [Inhabited K] [Inhabited V]
    (t : maptype K V) (key : K) (top : Nat) :
    ∀ (b : Chain K V) (i x : Nat) (o : Option Nat),
      assignScanAux t key top b i (some x) = .notFound o →
      o = some x := by
  intro b
  induction b with
  | nil =>
    intro i x o h
    rw [assignScanAux] at h
    cases h
    rfl
  | cons c rest ih =>
    intro i x o h
    simp only [assignScanAux, Option.isNone_some, Bool.and_false,
      if_false] at h
    by_cases hct : c.top = top
    · rw [if_neg (by simp [hct])] at h
      by_cases hkk : t.keyEqual key c.key = true
      · rw [if_pos hkk] at h
        exact absurd h (by simp)
      · rw [if_neg hkk] at h
        exact ih (i + 1) x o h
    · rw [if_pos hct] at h
      by_cases hc0 : c.top = emptyRest
      · rw [if_pos hc0] at h
        cases h
        rfl
      · rw [if_neg hc0] at h
        exact ih (i + 1) x o h

/-- The insert-slot tracking of the scan, started with no slot: a recorded
slot is the first empty cell, and every cell before it is non-empty and
non-matching. -/
theorem assignScanAux_first_empty {K V : Type} [Inhabited K] [Inhabited V]
    (t : maptype K V) (key : K) (top : Nat) (htop5 : minTopHash ≤ top) :
    ∀ (b : Chain K V) (i m : Nat),
      assignScanAux t key top b i none = .notFound (some m) →
      ∃ j, m = i + j ∧ j < b.length ∧
        isEmptyTop (b.getD j ⟨emptyOne, default, default⟩).top = true ∧
        ∀ l, l < j →
          isEmptyTop (b.getD l ⟨emptyOne, default, default⟩).top
            = false ∧
          ¬((b.getD l ⟨emptyOne, default, default⟩).top = top ∧
            t.keyEqual key (b.getD l ⟨emptyOne, default, default⟩).key
              = true) := by
  intro b
  induction b with
  | nil =>
    intro i m h
    rw [assignScanAux] at h
    exact absurd h (by simp)
  | cons c rest ih =>
    intro i m h
    simp only [assignScanAux, Option.isNone_none, Bool.and_true] at h
    by_cases hct : c.top = top
    · rw [if_neg (by simp [hct])] at h
      by_cases hkk : t.keyEqual key c.key = true
      · rw [if_pos hkk] at h
        exact absurd h (by simp)
      · rw [if_neg hkk] at h
        obtain ⟨j, hmj, hj, hje, hbef⟩ := ih (i + 1) m h
        refine ⟨j + 1, by omega, by rw [List.length_cons]; omega,
          by rwa [List.getD_cons_succ], ?_⟩
        intro l hl
        match l with
        | 0 =>
          rw [List.getD_cons_zero]
          exact ⟨by rw [hct]; exact isEmptyTop_of_top htop5,
            fun hcon => hkk hcon.2⟩
        | l' + 1 =>
          rw [List.getD_cons_succ]
          exact hbef l' (by omega)
    · rw [if_pos hct] at h
      by_cases hemp : isEmptyTop c.top = true
      · rw [if_pos hemp] at h
        have hm : m = i := by
          by_cases hc0 : c.top = emptyRest
          · rw [if_pos hc0] at h
            cases h
            rfl
          · rw [if_neg hc0] at h
            have := assignScanAux_ins_some t key top rest (i + 1) i _ h
            cases this
            rfl
        exact ⟨0, by omega, by rw [List.length_cons]; omega,
          by rw [List.getD_cons_zero]; exact hemp, fun l hl => by omega⟩
      · have hc0 : ¬ c.top = emptyRest := by
          intro hcon
          rw [hcon] at hemp
          exact hemp (by decide)
        rw [if_neg hemp, if_neg hc0] at h
        obtain ⟨j, hmj, hj, hje, hbef⟩ := ih (i + 1) m h
        refine ⟨j + 1, by omega, by rw [List.length_cons]; omega,
          by rwa [List.getD_cons_succ], ?_⟩
        intro l hl
        match l with
        | 0 =>
          rw [List.getD_cons_zero]
          exact ⟨by rw [Bool.not_eq_true] at hemp; exact hemp,
            fun hcon => hct hcon.1⟩
        | l' + 1 =>
          rw [List.getD_cons_succ]
          exact hbef l' (by omega)

/-- The insert-slot tracking of the scan, started with no slot: no recorded
slot means the scan saw no empty cell and no match at all. -/
theorem assignScanAux_no_empty {K V : Type} [Inhabited K] [Inhabited V]
    (t : maptype K V) (key : K) (top : Nat) (htop5 : minTopHash ≤ top) :
    ∀ (b : Chain K V) (i : Nat),
      assignScanAux t key top b i none = .notFound none →
      ∀ l, l < b.length →
        isEmptyTop (b.getD l ⟨emptyOne, default, default⟩).top = false ∧
        ¬((b.getD l ⟨emptyOne, default, default⟩).top = top ∧
          t.keyEqual key (b.getD l ⟨emptyOne, default, default⟩).key
            = true) := by
  intro b
  induction b with
  | nil => intro i _ l hl; simp at hl
  | cons c rest ih =>
    intro i h l hl
    simp only [assignScanAux, Option.isNone_none, Bool.and_true] at h
    by_cases hct : c.top = top
    · rw [if_neg (by simp [hct])] at h
      by_cases hkk : t.keyEqual key c.key = true
      · rw [if_pos hkk] at h
        exact absurd h (by simp)
      · rw [if_neg hkk] at h
        match l with
        | 0 =>
          rw [List.getD_cons_zero]
          exact ⟨by rw [hct]; exact isEmptyTop_of_top htop5,
            fun hcon => hkk hcon.2⟩
        | l' + 1 =>
          rw [List.getD_cons_succ]
          rw [List.length_cons] at hl
          exact ih (i + 1) h l' (by omega)
    · rw [if_pos hct] at h
      by_cases hemp : isEmptyTop c.top = true
      · rw [if_pos hemp] at h
        exfalso
        by_cases hc0 : c.top = emptyRest
        · rw [if_pos hc0] at h
          exact absurd h (by simp)
        · rw [if_neg hc0] at h
          have := assignScanAux_ins_some t key top rest (i + 1) i _ h
          exact absurd this (by simp)
      · have hc0 : ¬ c.top = emptyRest := by
          intro hcon
          rw [hcon] at hemp
          exact hemp (by decide)
        rw [if_neg hemp, if_neg hc0] at h
        match l with
        | 0 =>
          rw [List.getD_cons_zero]
          exact ⟨by rw [Bool.not_eq_true] at hemp; exact hemp,
            fun hcon => hct hcon.1⟩
        | l' + 1 =>
          rw [List.getD_cons_succ]
          rw [List.length_cons] at hl
          exact ih (i + 1) h l' (by omega)

/-- The `mapdelete` chain search: a hit names a matching cell behind a
clean prefix. -/
theorem deleteSearch_found {K V : Type} [Inhabited K] [Inhabited V]
    (t : maptype K V) (key : K) (top : Nat) (htop5 : minTopHash ≤ top) :
    ∀ (b : Chain K V) (i m : Nat),
      deleteSearch t key top b i = some m →
      ∃ j, m = i + j ∧ j < b.length ∧
        (b.getD j ⟨emptyOne, default, default⟩).top = top ∧
        t.keyEqual key (b.getD j ⟨emptyOne, default, default⟩).key
          = true ∧
        ∀ l, l < j →
          (b.getD l ⟨emptyOne, default, default⟩).top ≠ emptyRest ∧
          ¬((b.getD l ⟨emptyOne, default, default⟩).top = top ∧
            t.keyEqual key (b.getD l ⟨emptyOne, default, default⟩).key
              = true) := by
  intro b
  induction b with
  | nil => intro i m h; cases h
  | cons c rest ih =>
    intro i m h
    rw [deleteSearch] at h
    by_cases hct : c.top = top
    · rw [if_neg (by simp [hct])] at h
      by_cases hkk : t.keyEqual key c.key = true
      · rw [if_pos hkk] at h
        cases h
        exact ⟨0, by omega, by rw [List.length_cons]; omega,
          by rw [List.getD_cons_zero]; exact hct,
          by rw [List.getD_cons_zero]; exact hkk,
          fun l hl => by omega⟩
      · rw [if_neg hkk] at h
        obtain ⟨j, hmj, hj, hjt, hjk, hbef⟩ := ih (i + 1) m h
        refine ⟨j + 1, by omega, by rw [List.length_cons]; omega,
          by rwa [List.getD_cons_succ], by rwa [List.getD_cons_succ], ?_⟩
        intro l hl
        match l with
        | 0 =>
          rw [List.getD_cons_zero]
          refine ⟨by rw [hct]; exact fun hcon =>
            emptyRest_ne_top htop5 hcon.symm, fun hcon => hkk hcon.2⟩
        | l' + 1 =>
          rw [List.getD_cons_succ]
          exact hbef l' (by omega)
    · rw [if_pos hct] at h
      by_cases hc0 : c.top = emptyRest
      · rw [if_pos hc0] at h
        cases h
      · rw [if_neg hc0] at h
        obtain ⟨j, hmj, hj, hjt, hjk, hbef⟩ := ih (i + 1) m h
        refine ⟨j + 1, by omega, by rw [List.length_cons]; omega,
          by rwa [List.getD_cons_succ], by rwa [List.getD_cons_succ], ?_⟩
        intro l hl
        match l with
        | 0 =>
          rw [List.getD_cons_zero]
          exact ⟨hc0, fun hcon => hct hcon.1⟩
        | l' + 1 =>
          rw [List.getD_cons_succ]
          exact hbef l' (by omega)

/-! ## C1 groundwork: pointwise list tools -/

theorem list_getD_set_eq {A : Type} (l : List A) (i : Nat) (a d : A)
    (hi : i < l.length) : (l.set i a).getD i d = a := by
  rw [List.getD_eq_getElem?_getD, List.getElem?_set_eq_of_lt _ hi]
  rfl

theorem list_getD_set_ne {A : Type} (l : List A) (i j : Nat) (a d : A)
    (hij : i ≠ j) : (l.set i a).getD j d = l.getD j d := by
  rw [List.getD_eq_getElem?_getD, List.getElem?_set_ne hij,
    ← List.getD_eq_getElem?_getD]

theorem list_getD_modify_ne {A : Type} (l : List A) (f : A → A)
    (i j : Nat) (d : A) (hij : j ≠ i) :
    (l.modify f i).getD j d = l.getD j d := by
  rw [List.getD_eq_getElem?_getD,
    List.getElem?_modify_ne _ _ (fun hcon => hij hcon.symm),
    ← List.getD_eq_getElem?_getD]

theorem list_getD_modify_eq {A : Type} (l : List A) (f : A → A)
    (i : Nat) (d : A) (hi : i < l.length) :
    (l.modify f i).getD i d = f (l.getD i d) := by
  rw [List.getD_eq_getElem?_getD, List.getElem?_modify_eq,
    List.getElem?_eq_getElem hi, List.getD_eq_getElem _ _ hi]
  rfl

theorem list_getD_append_left {A : Type} (l₁ l₂ : List A) (i : Nat)
    (d : A) (hi : i < l₁.length) :
    (l₁ ++ l₂).getD i d = l₁.getD i d := by
  rw [List.getD_eq_getElem?_getD, List.getElem?_append, if_pos hi,
    ← List.getD_eq_getElem?_getD]

theorem list_getD_append_right {A : Type} (l₁ l₂ : List A) (i : Nat)
    (d : A) (hi : l₁.length ≤ i) :
    (l₁ ++ l₂).getD i d = l₂.getD (i - l₁.length) d := by
  rw [List.getD_eq_getElem?_getD, List.getElem?_append_right hi,
    ← List.getD_eq_getElem?_getD]

/-! ## C1 groundwork: occupied-cell counting -/

theorem liveCount_cons {K V : Type} (c : Cell K V) (rest : Chain K V) :
    liveCount (c :: rest) =
      liveCount rest + (if minTopHash ≤ c.top then 1 else 0) := by
  unfold liveCount
  rw [List.countP_cons]
  by_cases hc : minTopHash ≤ c.top
  · rw [if_pos hc, if_pos (by simpa using hc)]
  · rw [if_neg hc, if_neg (by simpa using hc)]

theorem liveCount_replicate_empty {K V : Type} [Inhabited K] [Inhabited V]
    (n : Nat) : liveCount (List.replicate n (emptyCell K V)) = 0 := by
  induction n with
  | zero => rfl
  | succ n ih =>
    rw [List.replicate_succ, liveCount_cons, ih,
      if_neg (by unfold emptyCell emptyRest minTopHash; simp)]

theorem liveCount_fresh {K V : Type} [Inhabited K] [Inhabited V] :
    liveCount (freshBucket K V) = 0 :=
  liveCount_replicate_empty bucketCnt

theorem liveCount_zero_of_dead {K V : Type} (b : Chain K V)
    (hdead : ∀ c ∈ b, c.top < minTopHash) : liveCount b = 0 := by
  induction b with
  | nil => rfl
  | cons c rest ih =>
    rw [liveCount_cons, ih (fun x hx => hdead x (List.mem_cons_of_mem _ hx)),
      if_neg (by have := hdead c (List.mem_cons_self _ _); omega)]

theorem liveCount_length_of_live {K V : Type} (b : Chain K V)
    (hlive : ∀ c ∈ b, minTopHash ≤ c.top) : liveCount b = b.length := by
  induction b with
  | nil => rfl
  | cons c rest ih =>
    rw [liveCount_cons, ih (fun x hx => hlive x (List.mem_cons_of_mem _ hx)),
      if_pos (hlive c (List.mem_cons_self _ _)), List.length_cons]

theorem liveCount_append {K V : Type} (b₁ b₂ : Chain K V) :
    liveCount (b₁ ++ b₂) = liveCount b₁ + liveCount b₂ := by
  unfold liveCount
  rw [List.countP_append]

theorem liveCount_pos_of_mem {K V : Type} (b : Chain K V) (c : Cell K V)
    (hmem : c ∈ b) (hc : minTopHash ≤ c.top) : 1 ≤ liveCount b := by
  induction b with
  | nil => cases hmem
  | cons x rest ih =>
    rw [liveCount_cons]
    rcases List.mem_cons.mp hmem with rfl | hmem'
    · rw [if_pos hc]; omega
    · have := ih hmem'; omega

/-- Pointwise change of exactly one cell from occupied to free, all other
cells keeping their occupancy, drops the occupied count by one. -/
theorem liveCount_congr {K V : Type} [Inhabited K] [Inhabited V] :
    ∀ (b' b : Chain K V), b'.length = b.length →
      (∀ l, l < b.length →
        (minTopHash ≤ (b'.getD l ⟨emptyOne, default, default⟩).top ↔
         minTopHash ≤ (b.getD l ⟨emptyOne, default, default⟩).top)) →
      liveCount b' = liveCount b := by
  intro b'
  induction b' with
  | nil =>
    intro b hlen _
    cases b with
    | nil => rfl
    | cons c rest => simp at hlen
  | cons c' rest' ih =>
    intro b hlen hsame
    cases b with
    | nil => simp at hlen
    | cons c rest =>
      rw [List.length_cons, List.length_cons] at hlen
      have h0 := hsame 0 (by rw [List.length_cons]; omega)
      rw [List.getD_cons_zero, List.getD_cons_zero] at h0
      have htails := ih rest (by omega) (fun l hl => by
        have := hsame (l + 1) (by rw [List.length_cons]; omega)
        rwa [List.getD_cons_succ, List.getD_cons_succ] at this)
      rw [liveCount_cons, liveCount_cons, htails]
      by_cases hc : minTopHash ≤ c.top
      · rw [if_pos hc, if_pos (h0.mpr hc)]
      · rw [if_neg hc, if_neg (fun hcon => hc (h0.mp hcon))]

/-- Pointwise change of exactly one cell from occupied to free, all other
cells keeping their occupancy, drops the occupied count by one. -/
theorem liveCount_pt {K V : Type} [Inhabited K] [Inhabited V] :
    ∀ (b' b : Chain K V) (j : Nat), b'.length = b.length →
      j < b.length →
      (∀ l, l < b.length → l ≠ j →
        (minTopHash ≤ (b'.getD l ⟨emptyOne, default, default⟩).top ↔
         minTopHash ≤ (b.getD l ⟨emptyOne, default, default⟩).top)) →
      minTopHash ≤ (b.getD j ⟨emptyOne, default, default⟩).top →
      (b'.getD j ⟨emptyOne, default, default⟩).top < minTopHash →
      liveCount b' + 1 = liveCount b := by
  intro b'
  induction b' with
  | nil =>
    intro b j hlen hj hsame hlive hdead
    cases b with
    | nil => simp at hj
    | cons c rest => simp at hlen
  | cons c' rest' ih =>
    intro b j hlen hj hsame hlive hdead
    cases b with
    | nil => simp at hj
    | cons c rest =>
      rw [List.length_cons, List.length_cons] at hlen
      rw [List.length_cons] at hj
      match j with
      | 0 =>
        rw [List.getD_cons_zero] at hlive
        rw [List.getD_cons_zero] at hdead
        have htails : liveCount rest' = liveCount rest :=
          liveCount_congr rest' rest (by omega) (fun l hl => by
            have := hsame (l + 1) (by rw [List.length_cons]; omega)
              (by omega)
            rwa [List.getD_cons_succ, List.getD_cons_succ] at this)
        rw [liveCount_cons, liveCount_cons, htails, if_pos hlive,
          if_neg (by omega)]
      | j' + 1 =>
        rw [List.getD_cons_succ] at hlive
        rw [List.getD_cons_succ] at hdead
        have h0 := hsame 0 (by rw [List.length_cons]; omega) (by omega)
        rw [List.getD_cons_zero, List.getD_cons_zero] at h0
        have hrec := ih rest j' (by omega) (by omega) (fun l hl hne => by
          have := hsame (l + 1) (by rw [List.length_cons]; omega)
            (by omega)
          rwa [List.getD_cons_succ, List.getD_cons_succ] at this)
          hlive hdead
        rw [liveCount_cons, liveCount_cons]
        by_cases hc : minTopHash ≤ c.top
        · rw [if_pos hc, if_pos (h0.mpr hc)]
          omega
        · rw [if_neg hc, if_neg (fun hcon => hc (h0.mp hcon))]
          omega


theorem sumLive_nil {K V : Type} : sumLive ([] : List (Chain K V)) = 0 :=
  rfl

theorem sumLive_cons {K V : Type} (c : Chain K V) (l : List (Chain K V)) :
    sumLive (c :: l) = liveCount c + sumLive l := by
  unfold sumLive
  rw [List.map_cons, List.sum_cons]

theorem sumLive_replicate_fresh {K V : Type} [Inhabited K] [Inhabited V]
    (n : Nat) : sumLive (List.replicate n (freshBucket K V)) = 0 := by
  induction n with
  | zero => rfl
  | succ n ih =>
    rw [List.replicate_succ, sumLive_cons, ih, liveCount_fresh]

theorem sumLive_getD_le {K V : Type} :
    ∀ (l : List (Chain K V)) (i : Nat),
      liveCount (l.getD i []) ≤ sumLive l := by
  intro l
  induction l with
  | nil =>
    intro i
    rw [List.getD_eq_default _ _ (by simp)]
    exact Nat.le_refl _
  | cons c rest ih =>
    intro i
    rw [sumLive_cons]
    match i with
    | 0 =>
      rw [List.getD_cons_zero]
      omega
    | i' + 1 =>
      rw [List.getD_cons_succ]
      have := ih i'
      omega

theorem sumLive_set {K V : Type} :
    ∀ (l : List (Chain K V)) (i : Nat) (c : Chain K V), i < l.length →
      sumLive (l.set i c) + liveCount (l.getD i []) =
        sumLive l + liveCount c := by
  intro l
  induction l with
  | nil => intro i c hi; simp at hi
  | cons x rest ih =>
    intro i c hi
    rw [List.length_cons] at hi
    match i with
    | 0 =>
      rw [List.getD_cons_zero, List.set_cons_zero, sumLive_cons,
        sumLive_cons]
      omega
    | i' + 1 =>
      rw [List.getD_cons_succ, List.set_cons_succ, sumLive_cons,
        sumLive_cons]
      have := ih i' c (by omega)
      omega

/-! ## C1 groundwork: the delete clear-and-promote step, pointwise -/

/-- Pointwise description of the backward promotion loop: it turns the
cells of a contiguous range `[i0, j]` into `emptyRest` (all of which except
the last were `emptyOne` before) and keeps every other cell. -/
theorem promoteBack_spec {K V : Type} [Inhabited K] [Inhabited V] :
    ∀ (j : Nat) (chain : Chain K V), j < chain.length →
      ∃ i0, i0 ≤ j ∧
        (promoteBack chain j).length = chain.length ∧
        (∀ l, l < i0 →
          (promoteBack chain j).getD l ⟨emptyOne, default, default⟩ =
            chain.getD l ⟨emptyOne, default, default⟩) ∧
        (∀ l, j < l →
          (promoteBack chain j).getD l ⟨emptyOne, default, default⟩ =
            chain.getD l ⟨emptyOne, default, default⟩) ∧
        (∀ l, i0 ≤ l → l ≤ j →
          ((promoteBack chain j).getD l
            ⟨emptyOne, default, default⟩).top = emptyRest) ∧
        (∀ l, i0 ≤ l → l < j →
          (chain.getD l ⟨emptyOne, default, default⟩).top = emptyOne) := by
  intro j
  induction j with
  | zero =>
    intro chain hj
    rw [promoteBack]
    refine ⟨0, Nat.le_refl _, List.length_modify _ _ _, fun l hl => by omega,
      ?_, ?_, fun l hl₁ hl₂ => by omega⟩
    · intro l hl
      exact list_getD_modify_ne _ _ _ _ _ (by omega)
    · intro l hl₁ hl₂
      have hl0 : l = 0 := by omega
      subst hl0
      rw [list_getD_modify_eq _ _ _ _ hj]
  | succ j ih =>
    intro chain hj
    rw [promoteBack]
    have hlen' : (chain.modify (fun c => { c with top := emptyRest })
        (j + 1)).length = chain.length := List.length_modify _ _ _
    have hne' : ∀ l, l ≠ j + 1 →
        (chain.modify (fun c => { c with top := emptyRest }) (j + 1)).getD l
          ⟨emptyOne, default, default⟩ =
        chain.getD l ⟨emptyOne, default, default⟩ :=
      fun l hl => list_getD_modify_ne _ _ _ _ _ hl
    have hself' : (chain.modify (fun c => { c with top := emptyRest })
        (j + 1)).getD (j + 1) ⟨emptyOne, default, default⟩ =
        { chain.getD (j + 1) ⟨emptyOne, default, default⟩ with
          top := emptyRest } :=
      list_getD_modify_eq _ _ _ _ hj
    split
    · rename_i hguard
      obtain ⟨i0, hi0, hplen, hlow, hhigh, hmid, hpre⟩ :=
        ih (chain.modify (fun c => { c with top := emptyRest }) (j + 1))
          (by omega)
      refine ⟨i0, by omega, hplen.trans hlen', ?_, ?_, ?_, ?_⟩
      · intro l hl
        rw [hlow l hl, hne' l (by omega)]
      · intro l hl
        rw [hhigh l (by omega), hne' l (by omega)]
      · intro l hl₁ hl₂
        rcases Nat.lt_or_ge l (j + 1) with hl3 | hl3
        · exact hmid l hl₁ (by omega)
        · have hl4 : l = j + 1 := by omega
          rw [hl4, hhigh (j + 1) (by omega), hself']
      · intro l hl₁ hl₂
        rcases Nat.lt_or_ge l j with hl3 | hl3
        · have := hpre l hl₁ hl3
          rwa [hne' l (by omega)] at this
        · have hl4 : l = j := by omega
          rw [hl4]
          have := hguard
          rwa [hne' j (by omega)] at this
    · rename_i hguard
      refine ⟨j + 1, Nat.le_refl _, hlen', ?_, ?_, ?_,
        fun l hl₁ hl₂ => by omega⟩
      · intro l hl
        exact hne' l (by omega)
      · intro l hl
        exact hne' l (by omega)
      · intro l hl₁ hl₂
        have hl3 : l = j + 1 := by omega
        subst hl3
        rw [hself']

/-- Pointwise description of the whole clear-and-promote step. -/
theorem deleteClear_spec {K V : Type} [Inhabited K] [Inhabited V]
    (b : Chain K V) (j : Nat) (hj : j < b.length) :
    (deleteClear b j).length = b.length ∧
    ∃ i0, i0 ≤ j ∧
      (∀ l, l < i0 →
        (deleteClear b j).getD l ⟨emptyOne, default, default⟩ =
          b.getD l ⟨emptyOne, default, default⟩) ∧
      (∀ l, j < l →
        (deleteClear b j).getD l ⟨emptyOne, default, default⟩ =
          b.getD l ⟨emptyOne, default, default⟩) ∧
      (∀ l, i0 ≤ l → l < j →
        (b.getD l ⟨emptyOne, default, default⟩).top = emptyOne) ∧
      ((i0 = j ∧
          (deleteClear b j).getD j ⟨emptyOne, default, default⟩ =
            ⟨emptyOne, default, default⟩) ∨
       ((∀ l, i0 ≤ l → l ≤ j →
           ((deleteClear b j).getD l ⟨emptyOne, default, default⟩).top
             = emptyRest) ∧
        (b.length ≤ j + 1 ∨
          (b.getD (j + 1) ⟨emptyOne, default, default⟩).top
            = emptyRest))) := by
  unfold deleteClear
  dsimp only
  set b₁ := b.set j (⟨emptyOne, default, default⟩ : Cell K V) with hb₁
  have hlen₁ : b₁.length = b.length := List.length_set _ _ _
  have hne₁ : ∀ l, l ≠ j →
      b₁.getD l ⟨emptyOne, default, default⟩ =
        b.getD l ⟨emptyOne, default, default⟩ :=
    fun l hl => list_getD_set_ne _ _ _ _ _ (fun hcon => hl hcon.symm)
  have hself₁ : b₁.getD j ⟨emptyOne, default, default⟩ =
      ⟨emptyOne, default, default⟩ :=
    list_getD_set_eq _ _ _ _ (by omega)
  split
  · rename_i hcond
    refine ⟨hlen₁, j, Nat.le_refl _, ?_, ?_,
      fun l hl₁ hl₂ => by omega, .inl ⟨rfl, hself₁⟩⟩
    · intro l hl
      exact hne₁ l (by omega)
    · intro l hl
      exact hne₁ l (by omega)
  · rename_i hcond
    push_neg at hcond
    obtain ⟨i0, hi0, hplen, hlow, hhigh, hmid, hpre⟩ :=
      promoteBack_spec j b₁ (by omega)
    refine ⟨hplen.trans hlen₁, i0, hi0, ?_, ?_, ?_, .inr ⟨hmid, ?_⟩⟩
    · intro l hl
      rw [hlow l hl, hne₁ l (by omega)]
    · intro l hl
      rw [hhigh l hl, hne₁ l (by omega)]
    · intro l hl₁ hl₂
      have := hpre l hl₁ hl₂
      rwa [hne₁ l (by omega)] at this
    · rcases Nat.lt_or_ge (j + 1) b.length with hl | hl
      · right
        have := hcond (by omega)
        rwa [hne₁ (j + 1) (by omega)] at this
      · left
        omega

/-! ## C1 groundwork: consequences of the clear-and-promote description -/

theorem forall_mem_iff_getD {K V : Type} [Inhabited K] [Inhabited V]
    (c : Chain K V) (P : Cell K V → Prop) :
    (∀ cell ∈ c, P cell) ↔
      ∀ l, l < c.length → P (c.getD l ⟨emptyOne, default, default⟩) := by
  constructor
  · intro h l hl
    rw [List.getD_eq_getElem _ _ hl]
    exact h _ (List.getElem_mem hl)
  · intro h cell hmem
    obtain ⟨l, hl, rfl⟩ := List.getElem_of_mem hmem
    have := h l hl
    rwa [List.getD_eq_getElem _ _ hl] at this

theorem freshBucket_length {K V : Type} [Inhabited K] [Inhabited V] :
    (freshBucket K V).length = bucketCnt := List.length_replicate _ _

theorem freshBucket_getD {K V : Type} [Inhabited K] [Inhabited V]
    (l : Nat) (hl : l < bucketCnt) :
    (freshBucket K V).getD l ⟨emptyOne, default, default⟩ =
      emptyCell K V := by
  rw [freshBucket, List.getD_eq_getElem _ _
    (by rw [List.length_replicate]; exact hl), List.getElem_replicate]

theorem shortCircuitPt_fresh {K V : Type} [Inhabited K] [Inhabited V] :
    shortCircuitPt (freshBucket K V) := by
  intro i j hij hj htop
  rw [freshBucket, List.length_replicate] at hj
  rw [freshBucket, List.getD_eq_getElem _ _
    (by rw [List.length_replicate]; exact hj), List.getElem_replicate]
  have hx : (emptyCell K V).top = emptyRest := rfl
  have e0 : emptyRest = 0 := rfl
  have e5 : minTopHash = 5 := rfl
  omega

theorem chainState_fresh {K V : Type} [Inhabited K] [Inhabited V]
    (t : maptype K V) (seed n idx : Nat) :
    chainState t seed n idx (freshBucket K V) := by
  constructor
  · intro cell hmem
    rw [freshBucket] at hmem
    rw [List.eq_of_mem_replicate hmem]
    left
    rfl
  · exact shortCircuitPt_fresh

/-- The clear-and-promote step preserves the short-circuit invariant,
pointwise form. -/
theorem shortCircuitPt_deleteClear {K V : Type} [Inhabited K] [Inhabited V]
    (b : Chain K V) (j : Nat) (hj : j < b.length)
    (hsc : shortCircuitPt b) : shortCircuitPt (deleteClear b j) := by
  obtain ⟨hdlen, i0, hi0, hlow, hhigh, hpre, hbr⟩ := deleteClear_spec b j hj
  have e0 : emptyRest = 0 := rfl
  have e1 : emptyOne = 1 := rfl
  have e5 : minTopHash = 5 := rfl
  intro a b2 hab hb2 htopa
  rw [hdlen] at hb2
  rcases Nat.lt_or_ge a i0 with ha | ha
  · rw [hlow a ha] at htopa
    rcases Nat.lt_or_ge b2 i0 with hb | hb
    · rw [hlow b2 hb]
      exact hsc a b2 hab hb2 htopa
    · rcases Nat.lt_or_ge j b2 with hb3 | hb3
      · rw [hhigh b2 hb3]
        exact hsc a b2 hab hb2 htopa
      · rcases hbr with ⟨hij, hpost⟩ | ⟨hmid, -⟩
        · have hbj : b2 = j := by omega
          rw [hbj, hpost]
          have hx : ((⟨emptyOne, default, default⟩ : Cell K V)).top
            = emptyOne := rfl
          omega
        · have := hmid b2 hb hb3
          omega
  · rcases Nat.lt_or_ge j a with ha2 | ha2
    · rw [hhigh a ha2] at htopa
      rw [hhigh b2 (by omega)]
      exact hsc a b2 hab hb2 htopa
    · rcases hbr with ⟨hij, hpost⟩ | ⟨hmid, hnext⟩
      · have haj : a = j := by omega
        rw [haj, hpost] at htopa
        have hx : ((⟨emptyOne, default, default⟩ : Cell K V)).top
          = emptyOne := rfl
        omega
      · rcases Nat.lt_or_ge j b2 with hb3 | hb3
        · rw [hhigh b2 hb3]
          rcases hnext with hn | hn
          · omega
          · rcases Nat.lt_or_ge (j + 1) b2 with hb4 | hb4
            · exact hsc (j + 1) b2 hb4 hb2 hn
            · have hbj : b2 = j + 1 := by omega
              rw [hbj, hn]
              omega
        · have := hmid b2 (by omega) hb3
          omega

/-- The clear-and-promote step of a delete frees exactly one occupied
cell. -/
theorem deleteClear_liveCount {K V : Type} [Inhabited K] [Inhabited V]
    (b : Chain K V) (j : Nat) (hj : j < b.length)
    (hlive : minTopHash ≤ (b.getD j ⟨emptyOne, default, default⟩).top) :
    liveCount (deleteClear b j) + 1 = liveCount b := by
  obtain ⟨hdlen, i0, hi0, hlow, hhigh, hpre, hbr⟩ := deleteClear_spec b j hj
  have e0 : emptyRest = 0 := rfl
  have e1 : emptyOne = 1 := rfl
  have e5 : minTopHash = 5 := rfl
  have hx : ((⟨emptyOne, default, default⟩ : Cell K V)).top
    = emptyOne := rfl
  refine liveCount_pt _ _ j hdlen hj ?_ hlive ?_
  · intro l hl hne
    rcases Nat.lt_or_ge l i0 with h1 | h1
    · rw [hlow l h1]
    · rcases Nat.lt_or_ge j l with h2 | h2
      · rw [hhigh l h2]
      · have hpretop := hpre l h1 (by omega)
        rcases hbr with ⟨hij, -⟩ | ⟨hmid, -⟩
        · omega
        · have := hmid l h1 (by omega)
          constructor
          · intro hcon
            omega
          · intro hcon
            omega
  · rcases hbr with ⟨hij, hpost⟩ | ⟨hmid, -⟩
    · rw [hpost]
      omega
    · have := hmid j (by omega) (Nat.le_refl _)
      omega

/-- The clear-and-promote step preserves the per-chain invariant. -/
theorem chainState_deleteClear {K V : Type} [Inhabited K] [Inhabited V]
    (t : maptype K V) (seed n idx : Nat) (b : Chain K V) (j : Nat)
    (hj : j < b.length) (hcs : chainState t seed n idx b) :
    chainState t seed n idx (deleteClear b j) := by
  obtain ⟨hcell, hsc⟩ := hcs
  refine ⟨?_, shortCircuitPt_deleteClear b j hj hsc⟩
  rw [forall_mem_iff_getD] at hcell ⊢
  obtain ⟨hdlen, i0, hi0, hlow, hhigh, hpre, hbr⟩ := deleteClear_spec b j hj
  intro l hl
  rw [hdlen] at hl
  rcases Nat.lt_or_ge l i0 with h1 | h1
  · rw [hlow l h1]
    exact hcell l hl
  · rcases Nat.lt_or_ge j l with h2 | h2
    · rw [hhigh l h2]
      exact hcell l hl
    · rcases hbr with ⟨hij, hpost⟩ | ⟨hmid, -⟩
      · have hlj : l = j := by omega
        rw [hlj, hpost]
        exact Or.inr (Or.inl rfl)
      · exact Or.inl (hmid l h1 h2)

/-- The clear-and-promote step at a cell that does not match a walk leaves
that walk's result unchanged. -/
theorem deleteClear_lookup_other {K V : Type} [Inhabited K] [Inhabited V]
    (t : maptype K V) (key2 : K) (top2 : Nat)
    (htop5 : minTopHash ≤ top2)
    (b : Chain K V) (j : Nat) (hj : j < b.length)
    (hsc : shortCircuitPt b)
    (hjlive : minTopHash ≤ (b.getD j ⟨emptyOne, default, default⟩).top)
    (hjnm : ¬((b.getD j ⟨emptyOne, default, default⟩).top = top2 ∧
      t.keyEqual key2 (b.getD j ⟨emptyOne, default, default⟩).key
        = true)) :
    chainLookup t key2 top2 (deleteClear b j) =
      chainLookup t key2 top2 b := by
  obtain ⟨hdlen, i0, hi0, hlow, hhigh, hpre, hbr⟩ := deleteClear_spec b j hj
  have e0 : emptyRest = 0 := rfl
  have e1 : emptyOne = 1 := rfl
  have e5 : minTopHash = 5 := rfl
  have hx : ((⟨emptyOne, default, default⟩ : Cell K V)).top
    = emptyOne := rfl
  rcases hbr with ⟨hij, hpost⟩ | ⟨hmid, hnext⟩
  · refine chainLookup_congr t key2 top2 htop5 b (deleteClear b j)
      hdlen ?_
    intro l hl
    rcases Nat.lt_or_ge l i0 with h1 | h1
    · exact Or.inl (hlow l h1)
    · rcases Nat.lt_or_ge j l with h2 | h2
      · exact Or.inl (hhigh l h2)
      · have hlj : l = j := by omega
        subst hlj
        refine Or.inr ⟨hjnm, ?_, ?_⟩
        · rw [hpost]
          intro hcon
          rw [hx] at hcon
          omega
        · rw [hpost, hx]
          constructor
          · intro hcon
            omega
          · intro hcon
            omega
  · rcases chainLookup_destruct t key2 top2 htop5 b with
      ⟨p, hp, hpt, hpk, hbef, heq⟩ | ⟨heq, q, hq, hclean, hcut⟩
    · have hpj : p ≠ j := fun hcon => hjnm (hcon ▸ ⟨hpt, hpk⟩)
      have hplt : p < i0 := by
        by_contra hge
        push_neg at hge
        rcases Nat.lt_or_ge p j with h2 | h2
        · have := hpre p hge h2
          omega
        · have hpgt : j < p := by omega
          rcases hnext with hn | hn
          · omega
          · rcases Nat.lt_or_ge (j + 1) p with h3 | h3
            · exact (hbef (j + 1) h3).1 hn
            · have hpj1 : p = j + 1 := by omega
              rw [hpj1, hn] at hpt
              omega
      have hpp := hlow p hplt
      rw [heq]
      have hres := chainLookup_eq_some t key2 top2 (deleteClear b j) p
        (by omega) (by rw [hpp]; exact hpt) (by rw [hpp]; exact hpk)
        (fun l hl => by rw [hlow l (by omega)]; exact hbef l hl)
      rw [hres, hpp]
    · rw [heq]
      rcases Nat.lt_or_ge i0 q with hc | hc
      · refine chainLookup_eq_none t key2 top2 htop5 _ i0 (by omega)
          ?_ (.inr ?_)
        · intro l hl
          rw [hlow l hl]
          exact hclean l (by omega)
        · exact hmid i0 (Nat.le_refl _) hi0
      · have hqi : q < i0 ∨ (q = b.length ∧ q = i0) := by
          rcases hcut with hc2 | hc2
          · rcases Nat.eq_or_lt_of_le hc with heq2 | hlt2
            · right; omega
            · left; omega
          · left
            rcases Nat.eq_or_lt_of_le hc with heq2 | hlt2
            · exfalso
              rcases Nat.lt_or_ge q j with h3 | h3
              · have := hpre q (by omega) h3
                omega
              · have hqj : q = j := by omega
                rw [hqj] at hc2
                omega
            · exact hlt2
        refine chainLookup_eq_none t key2 top2 htop5 _ q (by omega)
          ?_ ?_
        · intro l hl
          rw [hlow l (by omega)]
          exact hclean l hl
        · rcases hcut with hc2 | hc2
          · left
            omega
          · right
            rcases hqi with hqi | ⟨hql, -⟩
            · rw [hlow q hqi]
              exact hc2
            · omega

/-! ## C1 groundwork: evacuation destinations -/

theorem shortCircuitPt_tail {K V : Type} [Inhabited K] [Inhabited V]
    (c : Cell K V) (rest : Chain K V) (h : shortCircuitPt (c :: rest)) :
    shortCircuitPt rest := by
  intro i j hij hj htop
  have := h (i + 1) (j + 1) (by omega)
    (by rw [List.length_cons]; omega)
    (by rwa [List.getD_cons_succ])
  rwa [List.getD_cons_succ] at this

theorem shortCircuitPt_head_cut {K V : Type} [Inhabited K] [Inhabited V]
    (c : Cell K V) (rest : Chain K V) (h : shortCircuitPt (c :: rest))
    (hc : c.top = emptyRest) :
    ∀ cell ∈ rest, cell.top < minTopHash := by
  rw [forall_mem_iff_getD]
  intro l hl
  have := h 0 (l + 1) (by omega) (by rw [List.length_cons]; omega)
    (by rw [List.getD_cons_zero]; exact hc)
  rwa [List.getD_cons_succ] at this

/-- Writing entries through the evacuation cursor into a fresh destination
yields the entries followed by zeroed padding. -/
theorem evacFillGo_fresh {K V : Type} [Inhabited K] [Inhabited V] :
    ∀ (es cur : List (Cell K V)),
      (∀ c ∈ cur, c = emptyCell K V) →
      ∃ pad, evacFillGo es cur [] = es ++ pad ∧
        ∀ c ∈ pad, c = emptyCell K V := by
  intro es
  induction es with
  | nil =>
    intro cur hcur
    refine ⟨cur, ?_, hcur⟩
    rw [evacFillGo, List.nil_append, List.append_nil]
  | cons e es ih =>
    intro cur hcur
    match cur with
    | [] =>
      obtain ⟨pad, hfill, hpad⟩ := ih
        (List.replicate (bucketCnt - 1) (emptyCell K V))
        (fun c hc => List.eq_of_mem_replicate hc)
      refine ⟨pad, ?_, hpad⟩
      rw [evacFillGo, hfill, List.cons_append]
    | c :: cur' =>
      obtain ⟨pad, hfill, hpad⟩ := ih cur'
        (fun x hx => hcur x (List.mem_cons_of_mem _ hx))
      refine ⟨pad, ?_, hpad⟩
      rw [evacFillGo, hfill, List.cons_append]

theorem evacFill_fresh {K V : Type} [Inhabited K] [Inhabited V]
    (es : List (Cell K V)) :
    ∃ pad, evacFill (freshBucket K V) es = es ++ pad ∧
      ∀ c ∈ pad, c = emptyCell K V := by
  unfold evacFill
  have h1 : (freshBucket K V).take bucketCnt = freshBucket K V := by
    rw [freshBucket, List.take_replicate]
    simp
  have h2 : (freshBucket K V).drop bucketCnt = [] := by
    rw [freshBucket, List.drop_replicate]
    simp [freshBucket]
  rw [h1, h2]
  exact evacFillGo_fresh es (freshBucket K V)
    (fun c hc => List.eq_of_mem_replicate hc)

/-- A walk over live entries followed by zeroed padding equals the walk
over the entries alone. -/
theorem chainLookup_append_pad {K V : Type} (t : maptype K V) (key : K)
    (top : Nat) (htop5 : minTopHash ≤ top) :
    ∀ (es pad : List (Cell K V)),
      (∀ c ∈ es, c.top ≠ emptyRest) →
      (∀ c ∈ pad, c.top = emptyRest) →
      chainLookup t key top (es ++ pad) = chainLookup t key top es := by
  intro es
  induction es with
  | nil =>
    intro pad _ hpad
    rw [List.nil_append]
    match pad with
    | [] => rfl
    | c :: rest =>
      rw [chainLookup_cons_cut t key top c rest htop5
        (hpad c (List.mem_cons_self _ _))]
      rfl
  | cons e es ih =>
    intro pad hes hpad
    rw [List.cons_append]
    by_cases hct : e.top ≠ top
    · rw [chainLookup, chainLookup, if_pos hct, if_pos hct,
        if_neg (hes e (List.mem_cons_self _ _)),
        if_neg (hes e (List.mem_cons_self _ _))]
      exact ih pad (fun c hc => hes c (List.mem_cons_of_mem _ hc)) hpad
    · rw [chainLookup, chainLookup, if_neg hct, if_neg hct]
      by_cases hkk : t.keyEqual key e.key = true
      · rw [if_pos hkk, if_pos hkk]
      · rw [if_neg hkk, if_neg hkk]
        exact ih pad (fun c hc => hes c (List.mem_cons_of_mem _ hc)) hpad

/-- Live entries followed by zeroed padding satisfy the short-circuit
invariant. -/
theorem shortCircuitPt_live_pad {K V : Type} [Inhabited K] [Inhabited V]
    (es pad : List (Cell K V))
    (hes : ∀ c ∈ es, minTopHash ≤ c.top)
    (hpad : ∀ c ∈ pad, c.top = emptyRest) :
    shortCircuitPt (es ++ pad) := by
  rw [forall_mem_iff_getD] at hes hpad
  have e0 : emptyRest = 0 := rfl
  have e5 : minTopHash = 5 := rfl
  intro i j hij hj htop
  rw [List.length_append] at hj
  rcases Nat.lt_or_ge i es.length with hi | hi
  · rw [list_getD_append_left _ _ _ _ hi] at htop
    have := hes i hi
    omega
  · rcases Nat.lt_or_ge j es.length with hj2 | hj2
    · omega
    · rw [list_getD_append_right _ _ _ _ hj2]
      have := hpad (j - es.length) (by omega)
      omega

/-- Under a lawful key equality, `evacDecision` always follows the hash
bit (the NaN branch requires `equal(k,k)` to fail). -/
theorem evacDecision_hashbit {K V : Type} (t : maptype K V)
    (hkeq : ∀ a b, t.keyEqual a b = true ↔ a = b)
    (iterFlag : Bool) (newbit top : Nat) (k : K) (hash : Nat) :
    evacDecision t iterFlag newbit top k hash =
      ((if (hash / newbit) % 2 ≠ 0 then 1 else 0), top) := by
  unfold evacDecision
  rw [(hkeq k k).mpr rfl]
  simp

/-- The stamping walk of `evacuate` over an old chain of valid cells, for a
doubling grow: it succeeds, kills every old cell, splits the occupied
cells by the `newbit` hash bit into the X and Y lists (whose cells are
valid for the doubled array), and the access walk over the old chain
agrees with the walk over the half selected by the key's own hash bit. -/
theorem evacCells_spec {K V : Type} [Inhabited K] [Inhabited V]
    (t : maptype K V) (hkeq : ∀ a b, t.keyEqual a b = true ↔ a = b)
    (iterFlag : Bool) (hash0 newbit ob : Nat) :
    ∀ b : Chain K V,
      (∀ cell ∈ b, cellOK t hash0 newbit ob cell) →
      ∃ stamped xs ys,
        evacCells t iterFlag false hash0 newbit b =
          .ok (stamped, xs, ys) ∧
        stamped.length = b.length ∧
        (∀ cell ∈ stamped,
          emptyOne < cell.top ∧ cell.top < minTopHash) ∧
        xs.length + ys.length = liveCount b ∧
        (∀ cell ∈ xs, minTopHash ≤ cell.top ∧
          ∃ hv, t.hasher cell.key hash0 = some hv ∧
            cell.top = tophash hv ∧ hv % (2 * newbit) = ob) ∧
        (∀ cell ∈ ys, minTopHash ≤ cell.top ∧
          ∃ hv, t.hasher cell.key hash0 = some hv ∧
            cell.top = tophash hv ∧ hv % (2 * newbit) = ob + newbit) ∧
        (shortCircuitPt b →
          ∀ (k : K) (hk : Nat), t.hasher k hash0 = some hk →
            chainLookup t k (tophash hk) b =
              if (hk / newbit) % 2 = 0 then
                chainLookup t k (tophash hk) xs
              else chainLookup t k (tophash hk) ys) := by
  intro b
  induction b with
  | nil =>
    intro _
    refine ⟨[], [], [], rfl, rfl, fun cell hc => absurd hc (by simp),
      by rw [liveCount]; rfl, fun cell hc => absurd hc (by simp),
      fun cell hc => absurd hc (by simp), ?_⟩
    intro _ k hk _
    by_cases hb : (hk / newbit) % 2 = 0
    · rw [if_pos hb]
    · rw [if_neg hb]
  | cons c rest ih =>
    intro hcells
    have hc := hcells c (List.mem_cons_self _ _)
    obtain ⟨s, xs, ys, hec, hslen, hstop, hcnt, hxs, hys, hlook⟩ :=
      ih (fun x hx => hcells x (List.mem_cons_of_mem _ hx))
    have e0 : emptyRest = 0 := rfl
    have e1 : emptyOne = 1 := rfl
    have e5 : minTopHash = 5 := rfl
    by_cases hemp : isEmptyTop c.top = true
    · have hnl : c.top ≤ emptyOne := by
        unfold isEmptyTop at hemp
        exact of_decide_eq_true hemp
      refine ⟨{ c with top := evacuatedEmpty } :: s, xs, ys, ?_, ?_, ?_,
        ?_, hxs, hys, ?_⟩
      · rw [evacCells, if_pos hemp, hec]
      · rw [List.length_cons, List.length_cons, hslen]
      · intro cell hcm
        rcases List.mem_cons.mp hcm with rfl | hcm'
        · have hx : ({ c with top := evacuatedEmpty } : Cell K V).top
            = evacuatedEmpty := rfl
          rw [hx]
          exact ⟨by decide, by decide⟩
        · exact hstop cell hcm'
      · rw [liveCount_cons, if_neg (by omega)]
        omega
      · intro hsc k hk hhk
        have htop5 := tophash_ge_min hk
        by_cases hc0 : c.top = emptyRest
        · rw [chainLookup_cons_cut t k (tophash hk) c rest htop5 hc0]
          have hdead : liveCount rest = 0 :=
            liveCount_zero_of_dead rest
              (shortCircuitPt_head_cut c rest hsc hc0)
          have hxnil : xs = [] :=
            List.length_eq_zero.mp (by omega)
          have hynil : ys = [] :=
            List.length_eq_zero.mp (by omega)
          by_cases hb : (hk / newbit) % 2 = 0
          · rw [if_pos hb, hxnil]
            rfl
          · rw [if_neg hb, hynil]
            rfl
        · rw [chainLookup_cons_skip t k (tophash hk) c rest hc0
            (fun hcon => by omega)]
          exact hlook (shortCircuitPt_tail c rest hsc) k hk hhk
    · rcases hc with h0 | h1 | ⟨hv, hhv, htv, hmod⟩
      · exact absurd (by rw [h0]; decide) hemp
      · exact absurd (by rw [h1]; decide) hemp
      · have hlive : minTopHash ≤ c.top := by
          rw [htv]
          exact tophash_ge_min hv
      -- the branch on the key's hash bit
        by_cases hbit : (hv / newbit) % 2 = 0
        · have hstep : evacCells t iterFlag false hash0 newbit (c :: rest)
              = .ok ({ c with top := evacuatedX + 0 } :: s,
                  (⟨c.top, c.key, c.val⟩ : Cell K V) :: xs, ys) := by
            rw [evacCells, if_neg hemp, if_neg (by omega)]
            dsimp only
            rw [if_neg (by simp), hhv]
            dsimp only
            rw [evacDecision_hashbit t hkeq]
            dsimp only
            rw [if_neg (by decide), hec]
            dsimp only
            have huse : (if (hv / newbit) % 2 ≠ 0 then 1 else 0) = 0 := by
              rw [if_neg (by omega)]
            rw [huse, if_neg (by omega)]
          refine ⟨{ c with top := evacuatedX + 0 } :: s,
            (⟨c.top, c.key, c.val⟩ : Cell K V) :: xs, ys, hstep, ?_, ?_,
            ?_, ?_, hys, ?_⟩
          · rw [List.length_cons, List.length_cons, hslen]
          · intro cell hcm
            rcases List.mem_cons.mp hcm with rfl | hcm'
            · have hx : ({ c with top := evacuatedX + 0 } : Cell K V).top
                = evacuatedX + 0 := rfl
              rw [hx]
              exact ⟨by decide, by decide⟩
            · exact hstop cell hcm'
          · rw [liveCount_cons, if_pos hlive, List.length_cons]
            omega
          · intro cell hcm
            rcases List.mem_cons.mp hcm with rfl | hcm'
            · refine ⟨hlive, hv, hhv, htv, ?_⟩
              rw [Nat.mul_comm, Nat.mod_mul, hmod, hbit]
              omega
            · exact hxs cell hcm'
          · intro hsc k hk hhk
            have htop5 := tophash_ge_min hk
            by_cases hmk : c.top = tophash hk ∧
                t.keyEqual k c.key = true
            · have hkey : k = c.key := (hkeq k c.key).mp hmk.2
              have hhk2 : hv = hk := by
                rw [← hkey] at hhv
                exact Option.some_injective _ (hhv.symm.trans hhk)
              rw [chainLookup_cons_match t k (tophash hk) c rest
                hmk.1 hmk.2]
              rw [if_pos (by rw [← hhk2]; exact hbit)]
              rw [chainLookup_cons_match t k (tophash hk)
                (⟨c.top, c.key, c.val⟩ : Cell K V) xs hmk.1 hmk.2]
            · rw [chainLookup_cons_skip t k (tophash hk) c rest
                (by omega) hmk]
              rw [hlook (shortCircuitPt_tail c rest hsc) k hk hhk]
              by_cases hb2 : (hk / newbit) % 2 = 0
              · rw [if_pos hb2, if_pos hb2,
                  chainLookup_cons_skip t k (tophash hk)
                    (⟨c.top, c.key, c.val⟩ : Cell K V) xs
                    (by show c.top ≠ emptyRest; omega) hmk]
              · rw [if_neg hb2, if_neg hb2]
        · have hstep : evacCells t iterFlag false hash0 newbit (c :: rest)
              = .ok ({ c with top := evacuatedX + 1 } :: s, xs,
                  (⟨c.top, c.key, c.val⟩ : Cell K V) :: ys) := by
            rw [evacCells, if_neg hemp, if_neg (by omega)]
            dsimp only
            rw [if_neg (by simp), hhv]
            dsimp only
            rw [evacDecision_hashbit t hkeq]
            dsimp only
            rw [if_neg (by decide), hec]
            dsimp only
            have huse : (if (hv / newbit) % 2 ≠ 0 then 1 else 0) = 1 := by
              rw [if_pos hbit]
            rw [huse, if_pos rfl]
          refine ⟨{ c with top := evacuatedX + 1 } :: s, xs,
            (⟨c.top, c.key, c.val⟩ : Cell K V) :: ys, hstep, ?_, ?_,
            ?_, hxs, ?_, ?_⟩
          · rw [List.length_cons, List.length_cons, hslen]
          · intro cell hcm
            rcases List.mem_cons.mp hcm with rfl | hcm'
            · have hx : ({ c with top := evacuatedX + 1 } : Cell K V).top
                = evacuatedX + 1 := rfl
              rw [hx]
              exact ⟨by decide, by decide⟩
            · exact hstop cell hcm'
          · rw [liveCount_cons, if_pos hlive, List.length_cons]
            omega
          · intro cell hcm
            rcases List.mem_cons.mp hcm with rfl | hcm'
            · refine ⟨hlive, hv, hhv, htv, ?_⟩
              rw [Nat.mul_comm, Nat.mod_mul, hmod]
              have hb1 : (hv / newbit) % 2 = 1 := by omega
              rw [hb1]
              omega
            · exact hys cell hcm'
          · intro hsc k hk hhk
            have htop5 := tophash_ge_min hk
            by_cases hmk : c.top = tophash hk ∧
                t.keyEqual k c.key = true
            · have hkey : k = c.key := (hkeq k c.key).mp hmk.2
              have hhk2 : hv = hk := by
                rw [← hkey] at hhv
                exact Option.some_injective _ (hhv.symm.trans hhk)
              rw [chainLookup_cons_match t k (tophash hk) c rest
                hmk.1 hmk.2]
              rw [if_neg (by rw [← hhk2]; exact hbit)]
              rw [chainLookup_cons_match t k (tophash hk)
                (⟨c.top, c.key, c.val⟩ : Cell K V) ys hmk.1 hmk.2]
            · rw [chainLookup_cons_skip t k (tophash hk) c rest
                (by omega) hmk]
              rw [hlook (shortCircuitPt_tail c rest hsc) k hk hhk]
              by_cases hb2 : (hk / newbit) % 2 = 0
              · rw [if_pos hb2, if_pos hb2]
              · rw [if_neg hb2, if_neg hb2,
                  chainLookup_cons_skip t k (tophash hk)
                    (⟨c.top, c.key, c.val⟩ : Cell K V) ys
                    (by show c.top ≠ emptyRest; omega) hmk]

/-- The stamping walk of `evacuate` for a same-size grow: every occupied
cell goes to the X list with its tophash kept, and the access walk over
the old chain agrees with the walk over the X list. -/
theorem evacCells_spec_same {K V : Type} [Inhabited K] [Inhabited V]
    (t : maptype K V) (iterFlag : Bool) (hash0 newbit ob : Nat) :
    ∀ b : Chain K V,
      (∀ cell ∈ b, cellOK t hash0 newbit ob cell) →
      ∃ stamped xs,
        evacCells t iterFlag true hash0 newbit b =
          .ok (stamped, xs, []) ∧
        stamped.length = b.length ∧
        (∀ cell ∈ stamped,
          emptyOne < cell.top ∧ cell.top < minTopHash) ∧
        xs.length = liveCount b ∧
        (∀ cell ∈ xs, minTopHash ≤ cell.top ∧
          ∃ hv, t.hasher cell.key hash0 = some hv ∧
            cell.top = tophash hv ∧ hv % newbit = ob) ∧
        (shortCircuitPt b →
          ∀ (k : K) (hk : Nat), t.hasher k hash0 = some hk →
            chainLookup t k (tophash hk) b =
              chainLookup t k (tophash hk) xs) := by
  intro b
  induction b with
  | nil =>
    exact fun _ => ⟨[], [], rfl, rfl, fun cell hc => absurd hc (by simp),
      by rw [liveCount]; rfl, fun cell hc => absurd hc (by simp),
      fun _ k hk _ => rfl⟩
  | cons c rest ih =>
    intro hcells
    have hc := hcells c (List.mem_cons_self _ _)
    obtain ⟨s, xs, hec, hslen, hstop, hcnt, hxs, hlook⟩ :=
      ih (fun x hx => hcells x (List.mem_cons_of_mem _ hx))
    have e0 : emptyRest = 0 := rfl
    have e1 : emptyOne = 1 := rfl
    have e5 : minTopHash = 5 := rfl
    by_cases hemp : isEmptyTop c.top = true
    · have hnl : c.top ≤ emptyOne := by
        unfold isEmptyTop at hemp
        exact of_decide_eq_true hemp
      refine ⟨{ c with top := evacuatedEmpty } :: s, xs, ?_, ?_, ?_, ?_,
        hxs, ?_⟩
      · rw [evacCells, if_pos hemp, hec]
      · rw [List.length_cons, List.length_cons, hslen]
      · intro cell hcm
        rcases List.mem_cons.mp hcm with rfl | hcm'
        · have hx : ({ c with top := evacuatedEmpty } : Cell K V).top
            = evacuatedEmpty := rfl
          rw [hx]
          exact ⟨by decide, by decide⟩
        · exact hstop cell hcm'
      · rw [liveCount_cons, if_neg (by omega)]
        omega
      · intro hsc k hk hhk
        have htop5 := tophash_ge_min hk
        by_cases hc0 : c.top = emptyRest
        · rw [chainLookup_cons_cut t k (tophash hk) c rest htop5 hc0]
          have hdead : liveCount rest = 0 :=
            liveCount_zero_of_dead rest
              (shortCircuitPt_head_cut c rest hsc hc0)
          have hxnil : xs = [] := List.length_eq_zero.mp (by omega)
          rw [hxnil]
          rfl
        · rw [chainLookup_cons_skip t k (tophash hk) c rest hc0
            (fun hcon => by omega)]
          exact hlook (shortCircuitPt_tail c rest hsc) k hk hhk
    · rcases hc with h0 | h1 | ⟨hv, hhv, htv, hmod⟩
      · exact absurd (by rw [h0]; decide) hemp
      · exact absurd (by rw [h1]; decide) hemp
      · have hlive : minTopHash ≤ c.top := by
          rw [htv]
          exact tophash_ge_min hv
        have hstep : evacCells t iterFlag true hash0 newbit (c :: rest)
            = .ok ({ c with top := evacuatedX + 0 } :: s,
                (⟨c.top, c.key, c.val⟩ : Cell K V) :: xs, []) := by
          rw [evacCells, if_neg hemp, if_neg (by omega)]
          dsimp only
          rw [if_pos rfl]
          dsimp only
          rw [if_neg (by decide), hec]
          dsimp only
          rw [if_neg (by omega)]
        refine ⟨{ c with top := evacuatedX + 0 } :: s,
          (⟨c.top, c.key, c.val⟩ : Cell K V) :: xs, hstep, ?_, ?_, ?_,
          ?_, ?_⟩
        · rw [List.length_cons, List.length_cons, hslen]
        · intro cell hcm
          rcases List.mem_cons.mp hcm with rfl | hcm'
          · have hx : ({ c with top := evacuatedX + 0 } : Cell K V).top
              = evacuatedX + 0 := rfl
            rw [hx]
            exact ⟨by decide, by decide⟩
          · exact hstop cell hcm'
        · rw [liveCount_cons, if_pos hlive, List.length_cons]
          omega
        · intro cell hcm
          rcases List.mem_cons.mp hcm with rfl | hcm'
          · exact ⟨hlive, hv, hhv, htv, hmod⟩
          · exact hxs cell hcm'
        · intro hsc k hk hhk
          have htop5 := tophash_ge_min hk
          by_cases hmk : c.top = tophash hk ∧ t.keyEqual k c.key = true
          · rw [chainLookup_cons_match t k (tophash hk) c rest
              hmk.1 hmk.2]
            rw [chainLookup_cons_match t k (tophash hk)
              (⟨c.top, c.key, c.val⟩ : Cell K V) xs hmk.1 hmk.2]
          · rw [chainLookup_cons_skip t k (tophash hk) c rest
              (by omega) hmk]
            rw [hlook (shortCircuitPt_tail c rest hsc) k hk hhk]
            rw [chainLookup_cons_skip t k (tophash hk)
              (⟨c.top, c.key, c.val⟩ : Cell K V) xs
              (by show c.top ≠ emptyRest; omega) hmk]

/-! ## C1 groundwork: bucket selection and the cursor advance -/

theorem bucketShift_pos (b : Nat) : 1 ≤ bucketShift b := by
  unfold bucketShift
  rw [Nat.shiftLeft_eq, one_mul]
  exact Nat.one_le_two_pow

theorem bucketMask_succ (b : Nat) : bucketMask b + 1 = bucketShift b := by
  have := bucketShift_pos b
  unfold bucketMask
  omega

/-- Bucket selection with no grow in progress. -/
theorem lookupChain_nogrow {K V : Type} [Inhabited K] [Inhabited V]
    (h : hmap K V) (hash : Nat) (hold : h.oldbuckets = none) :
    lookupChain h hash = h.buckets.getD (hash % bucketShift h.B) [] := by
  unfold lookupChain
  rw [hold]
  dsimp only
  rw [bucketMask_succ]

/-- Bucket selection during a grow: redirect to the old bucket exactly
while it is not yet evacuated. -/
theorem lookupChain_grow {K V : Type} [Inhabited K] [Inhabited V]
    (h : hmap K V) (old : List (Chain K V)) (hash : Nat)
    (hB : h.B ≤ 63) (hold : h.oldbuckets = some old)
    (hlen : old.length = h.noldbuckets)
    (hss : h.flags.sameSizeGrow = false → 1 ≤ h.B) :
    lookupChain h hash =
      (if chainEvacuated (old.getD (hash % old.length) []) = false
       then old.getD (hash % old.length) []
       else h.buckets.getD (hash % bucketShift h.B) []) := by
  have hp : ptrBits = 64 := rfl
  unfold lookupChain
  rw [hold]
  dsimp only
  rw [bucketMask_succ]
  have hfin : ∀ m2 : Nat, m2 + 1 = old.length →
      (if (!chainEvacuated (old.getD (hash % (m2 + 1)) [])) = true
       then old.getD (hash % (m2 + 1)) []
       else h.buckets.getD (hash % bucketShift h.B) []) =
      (if chainEvacuated (old.getD (hash % old.length) []) = false
       then old.getD (hash % old.length) []
       else h.buckets.getD (hash % bucketShift h.B) []) := by
    intro m2 hm2
    rw [hm2]
    by_cases hch : chainEvacuated (old.getD (hash % old.length) [])
        = false
    · rw [if_pos (by rw [hch]; rfl), if_pos hch]
    · rw [Bool.not_eq_false] at hch
      rw [if_neg (by rw [hch]; simp), if_neg (by rw [hch]; simp)]
  cases hsval : h.flags.sameSizeGrow with
  | false =>
    rw [show h.isSameSizeGrow = false from hsval]
    have hm2 : (if (!false) = true then bucketMask h.B >>> 1
        else bucketMask h.B) = bucketMask h.B >>> 1 := by simp
    rw [hm2]
    refine hfin _ ?_
    have hB1 : 1 ≤ h.B := hss hsval
    rw [hlen]
    unfold hmap.noldbuckets hmap.isSameSizeGrow
    rw [hsval, if_neg (by simp)]
    unfold bucketMask bucketShift
    rw [Nat.shiftRight_eq_div_pow, Nat.shiftLeft_eq, Nat.shiftLeft_eq,
      one_mul, one_mul, Nat.mod_eq_of_lt (by omega),
      Nat.mod_eq_of_lt (by omega)]
    have hpow : 2 ^ h.B = 2 * 2 ^ (h.B - 1) := by
      rw [← pow_succ']
      congr 1
      omega
    rw [hpow]
    have := Nat.one_le_two_pow (n := h.B - 1)
    have h21 : (2 : Nat) ^ 1 = 2 := by norm_num
    rw [h21]
    omega
  | true =>
    rw [show h.isSameSizeGrow = true from hsval]
    have hm2 : (if (!true) = true then bucketMask h.B >>> 1
        else bucketMask h.B) = bucketMask h.B := by simp
    rw [hm2]
    refine hfin _ ?_
    rw [bucketMask_succ, hlen]
    unfold hmap.noldbuckets hmap.isSameSizeGrow
    rw [hsval, if_pos rfl]

/-- The abstract lookup only depends on the bucket arrays, `B`, the
same-size-grow bit and the seed. -/
theorem absLookup_congr {K V : Type} [Inhabited K] [Inhabited V]
    (t : maptype K V) (g₂ g₁ : hmap K V)
    (hb : g₂.buckets = g₁.buckets) (ho : g₂.oldbuckets = g₁.oldbuckets)
    (hB : g₂.B = g₁.B)
    (hs : g₂.flags.sameSizeGrow = g₁.flags.sameSizeGrow)
    (hh : g₂.hash0 = g₁.hash0) :
    ∀ k, absLookup t g₂ k = absLookup t g₁ k := by
  intro k
  unfold absLookup
  rw [hh]
  have hlc : ∀ hash, lookupChain g₂ hash = lookupChain g₁ hash := by
    intro hash
    unfold lookupChain hmap.isSameSizeGrow
    rw [hb, ho, hB, hs]
  cases hh2 : t.hasher k g₁.hash0 with
  | none => rfl
  | some hash =>
    dsimp only
    rw [hlc hash]

theorem noldbuckets_congr {K V : Type} (g₂ g₁ : hmap K V)
    (hB : g₂.B = g₁.B)
    (hs : g₂.flags.sameSizeGrow = g₁.flags.sameSizeGrow) :
    g₂.noldbuckets = g₁.noldbuckets := by
  unfold hmap.noldbuckets hmap.isSameSizeGrow
  rw [hB, hs]

/-- The cursor-advance loop only crosses evacuated buckets. -/
theorem advanceLoop_sound {K V : Type} (h : hmap K V) (stop : Nat) :
    ∀ fuel n, (∀ j, j < n → bucketEvacuated h j = true) →
      ∀ j, j < advanceLoop h stop fuel n → bucketEvacuated h j = true := by
  intro fuel
  induction fuel with
  | zero =>
    intro n hn j hj
    rw [advanceLoop] at hj
    exact hn j hj
  | succ fuel ih =>
    intro n hn j hj
    rw [advanceLoop] at hj
    split at hj
    · rename_i hcond
      refine ih (n + 1) ?_ j hj
      intro j2 hj2
      rcases Nat.lt_or_ge j2 n with h2 | h2
      · exact hn j2 h2
      · have hj3 : j2 = n := by omega
        rw [hj3]
        exact hcond.2
    · exact hn j hj

theorem chainEvacuated_of_stamped {K V : Type} (stamped : Chain K V)
    (hne : stamped ≠ [])
    (htops : ∀ cell ∈ stamped,
      emptyOne < cell.top ∧ cell.top < minTopHash) :
    chainEvacuated stamped = true := by
  cases stamped with
  | nil => exact absurd rfl hne
  | cons c rest =>
    have := htops c (List.mem_cons_self _ _)
    unfold chainEvacuated
    simp only [Bool.and_eq_true, decide_eq_true_eq]
    exact this

theorem evacFill_fresh_ne_nil {K V : Type} [Inhabited K] [Inhabited V]
    (es : List (Cell K V)) : evacFill (freshBucket K V) es ≠ [] := by
  intro hcon
  obtain ⟨pad, hfill, -⟩ := evacFill_fresh es
  rw [hfill] at hcon
  obtain ⟨he, hp⟩ := List.append_eq_nil.mp hcon
  subst he
  rw [hp, List.append_nil] at hfill
  unfold evacFill at hfill
  rw [evacFillGo, List.take_append_drop] at hfill
  have hl := freshBucket_length (K := K) (V := V)
  rw [hfill, List.length_nil] at hl
  exact absurd hl (by decide)

/-- Field-level description of one `advanceEvacuationMark` call. -/
theorem advanceEvacuationMark_spec {K V : Type} [Inhabited K] [Inhabited V]
    (g : hmap K V) (newbit : Nat) (old : List (Chain K V))
    (hold : g.oldbuckets = some old)
    (hcursor : ∀ j, j < g.nevacuate →
      chainEvacuated (old.getD j []) = true)
    (hnow : chainEvacuated (old.getD g.nevacuate []) = true)
    (hlt : g.nevacuate < newbit) :
    (advanceEvacuationMark g newbit).buckets = g.buckets ∧
    (advanceEvacuationMark g newbit).count = g.count ∧
    (advanceEvacuationMark g newbit).B = g.B ∧
    (advanceEvacuationMark g newbit).hash0 = g.hash0 ∧
    (advanceEvacuationMark g newbit).noverflow = g.noverflow ∧
    (advanceEvacuationMark g newbit).overflowReg = g.overflowReg ∧
    (advanceEvacuationMark g newbit).flags.hashWriting
      = g.flags.hashWriting ∧
    (advanceEvacuationMark g newbit).flags.iterator = g.flags.iterator ∧
    (advanceEvacuationMark g newbit).flags.oldIterator
      = g.flags.oldIterator ∧
    (((advanceEvacuationMark g newbit).oldbuckets = none ∧
      (advanceEvacuationMark g newbit).flags.sameSizeGrow = false ∧
      ∀ j, j < newbit → chainEvacuated (old.getD j []) = true) ∨
     ((advanceEvacuationMark g newbit).oldbuckets = g.oldbuckets ∧
      (advanceEvacuationMark g newbit).flags.sameSizeGrow
        = g.flags.sameSizeGrow ∧
      (advanceEvacuationMark g newbit).nevacuate < newbit ∧
      g.nevacuate < (advanceEvacuationMark g newbit).nevacuate ∧
      ∀ j, j < (advanceEvacuationMark g newbit).nevacuate →
        chainEvacuated (old.getD j []) = true)) := by
  unfold advanceEvacuationMark
  dsimp only
  have hge : g.nevacuate + 1 ≤
      advanceLoop { g with nevacuate := g.nevacuate + 1 }
        (min (g.nevacuate + 1 + 1024) newbit) 1024 (g.nevacuate + 1) :=
    advanceLoop_ge _ _ _ _
  have hle : advanceLoop { g with nevacuate := g.nevacuate + 1 }
      (min (g.nevacuate + 1 + 1024) newbit) 1024 (g.nevacuate + 1) ≤
      min (g.nevacuate + 1 + 1024) newbit :=
    advanceLoop_le _ _ _ _ (by omega)
  have hsound : ∀ j, j < advanceLoop { g with nevacuate := g.nevacuate + 1 }
      (min (g.nevacuate + 1 + 1024) newbit) 1024 (g.nevacuate + 1) →
      chainEvacuated (old.getD j []) = true := by
    have hbase : ∀ j, j < g.nevacuate + 1 →
        bucketEvacuated { g with nevacuate := g.nevacuate + 1 } j
          = true := by
      intro j hj
      unfold bucketEvacuated
      dsimp only
      rw [hold]
      rcases Nat.lt_or_ge j g.nevacuate with h2 | h2
      · exact hcursor j h2
      · have hj3 : j = g.nevacuate := by omega
        rw [hj3]
        exact hnow
    intro j hj
    have := advanceLoop_sound _ _ _ _ hbase j hj
    unfold bucketEvacuated at this
    dsimp only at this
    rw [hold] at this
    exact this
  by_cases hnveq : advanceLoop { g with nevacuate := g.nevacuate + 1 }
      (min (g.nevacuate + 1 + 1024) newbit) 1024 (g.nevacuate + 1)
      = newbit
  · rw [if_pos hnveq]
    refine ⟨rfl, rfl, rfl, rfl, rfl, rfl, rfl, rfl, rfl,
      .inl ⟨rfl, rfl, ?_⟩⟩
    intro j hj
    exact hsound j (by omega)
  · rw [if_neg hnveq]
    dsimp only
    refine ⟨rfl, rfl, rfl, rfl, rfl, rfl, rfl, rfl, rfl,
      .inr ⟨rfl, rfl, by omega, by omega, hsound⟩⟩

/-- A cursor advance from a state satisfying the invariant whose
at-cursor old bucket is evacuated preserves the invariant and every
abstract lookup, and only ever keeps or releases the old array. -/
theorem advance_sound {K V : Type} [Inhabited K] [Inhabited V]
    (t : maptype K V) (g : hmap K V) (old : List (Chain K V))
    (newbit : Nat) (hnb : newbit = g.noldbuckets)
    (hInv : MapInv0 t g) (hold : g.oldbuckets = some old)
    (hnow : chainEvacuated (old.getD g.nevacuate []) = true) :
    MapInv0 t (advanceEvacuationMark g newbit) ∧
    (∀ k, absLookup t (advanceEvacuationMark g newbit) k =
      absLookup t g k) ∧
    (advanceEvacuationMark g newbit).count = g.count ∧
    (advanceEvacuationMark g newbit).B = g.B ∧
    (advanceEvacuationMark g newbit).hash0 = g.hash0 ∧
    (advanceEvacuationMark g newbit).flags.hashWriting =
      g.flags.hashWriting ∧
    (advanceEvacuationMark g newbit).buckets = g.buckets ∧
    (∀ old', (advanceEvacuationMark g newbit).oldbuckets
        = some old' → old' = old ∧
      (advanceEvacuationMark g newbit).flags.sameSizeGrow
        = g.flags.sameSizeGrow) := by
  subst hnb
  obtain ⟨hB, hlazy, hlen, hne, hnew, hsame, hcount, holdinv⟩ := hInv
  obtain ⟨hss1, holdlen, holdne, hcur, hcurs, hdead, hunev⟩ :=
    holdinv old hold
  have hbne : g.buckets ≠ [] := by
    intro hcon
    have := (hlazy hcon).2.1
    rw [hold] at this
    cases this
  have hblen : g.buckets.length = bucketShift g.B := by
    rcases hlen with hcon | hgood
    · exact absurd hcon hbne
    · exact hgood
  obtain ⟨hb, hc, hBf, hh0, hnov, hreg, hw, hit, hoit, hbr⟩ :=
    advanceEvacuationMark_spec g g.noldbuckets old hold hcurs hnow
      (by omega)
  have holdpos : 0 < old.length := by omega
  rcases hbr with ⟨hrel, hrss, hrall⟩ | ⟨hkeep, hkss, hklt, hkgt, hkall⟩
  · -- release
    refine ⟨⟨?_, ?_, ?_, ?_, ?_, ?_, ?_, ?_⟩, ?_, hc, hBf, hh0, hw, hb,
      ?_⟩
    · rw [hBf]; exact hB
    · intro hcon
      rw [hb] at hcon
      exact absurd hcon hbne
    · right
      rw [hb, hBf]
      exact hblen
    · rw [hb]; exact hne
    · rw [hb, hh0]; exact hnew
    · rw [hrss]
      intro hcon
      cases hcon
    · rw [hrel, hb]
      have : sumLive ((none : Option (List (Chain K V))).getD []) = 0 :=
        rfl
      rw [this, hc]
      omega
    · intro old' hcon
      rw [hrel] at hcon
      cases hcon
    · intro k
      unfold absLookup
      rw [hh0]
      cases hh2 : t.hasher k g.hash0 with
      | none => rfl
      | some hk =>
        dsimp only
        have hmlt := Nat.mod_lt hk holdpos
        rw [lookupChain_nogrow _ hk hrel,
          lookupChain_grow g old hk hB hold holdlen hss1,
          if_neg (by
            rw [hrall (hk % old.length) (by omega)]
            simp), hb, hBf]
    · intro old' hcon
      rw [hrel] at hcon
      cases hcon
  · -- keep
    have hss2 : (advanceEvacuationMark g g.noldbuckets).flags.sameSizeGrow
        = g.flags.sameSizeGrow := hkss
    refine ⟨⟨?_, ?_, ?_, ?_, ?_, ?_, ?_, ?_⟩, ?_, hc, hBf, hh0, hw, hb,
      ?_⟩
    · rw [hBf]; exact hB
    · intro hcon
      rw [hb] at hcon
      exact absurd hcon hbne
    · right
      rw [hb, hBf]
      exact hblen
    · rw [hb]; exact hne
    · rw [hb, hh0]; exact hnew
    · rw [hkss, hkeep, hold]
      intro _
      rfl
    · rw [hkeep, hb, hc]
      exact hcount
    · intro old' hsome
      rw [hkeep, hold] at hsome
      cases hsome
      refine ⟨?_, ?_, holdne, ?_, hkall, hdead, ?_⟩
      · rw [hkss, hBf]
        exact hss1
      · rw [holdlen]
        exact (noldbuckets_congr _ _ hBf hkss).symm
      · rw [holdlen]
        exact hklt
      · intro j hj hje
        obtain ⟨hcs, hfx, hfy⟩ := hunev j hj hje
        refine ⟨by rw [hh0]; exact hcs, by rw [hb]; exact hfx, ?_⟩
        intro hssf
        rw [hb]
        exact hfy (by rw [← hkss]; exact hssf)
    · exact absLookup_congr t _ g hb (by rw [hkeep]) hBf hkss hh0
    · intro old' hsome
      rw [hkeep, hold] at hsome
      cases hsome
      exact ⟨rfl, hkss⟩

/-- The bucket-move phase of `evacuate` on an unevacuated old bucket of a
doubling grow: the resulting state (given by its fields) satisfies the
invariant, preserves every abstract lookup, and marks exactly the moved
old bucket evacuated. -/
theorem step_double_sound {K V : Type} [Inhabited K] [Inhabited V]
    (t : maptype K V) (hkeq : ∀ a b, t.keyEqual a b = true ↔ a = b)
    (h H2 : hmap K V) (old : List (Chain K V)) (ob : Nat)
    (stamped xs ys padX padY : List (Cell K V))
    (hInv : MapInv0 t h) (hold : h.oldbuckets = some old)
    (hob : ob < old.length) (hssv : h.flags.sameSizeGrow = false)
    (hbe : chainEvacuated (old.getD ob []) = false)
    (hslen : stamped.length = (old.getD ob []).length)
    (hstop : ∀ cell ∈ stamped,
      emptyOne < cell.top ∧ cell.top < minTopHash)
    (hcnt : xs.length + ys.length = liveCount (old.getD ob []))
    (hxs : ∀ cell ∈ xs, minTopHash ≤ cell.top ∧
      ∃ hv, t.hasher cell.key h.hash0 = some hv ∧
        cell.top = tophash hv ∧ hv % (2 * old.length) = ob)
    (hys : ∀ cell ∈ ys, minTopHash ≤ cell.top ∧
      ∃ hv, t.hasher cell.key h.hash0 = some hv ∧
        cell.top = tophash hv ∧ hv % (2 * old.length) = ob + old.length)
    (hlook : ∀ (k : K) (hk : Nat), t.hasher k h.hash0 = some hk →
      chainLookup t k (tophash hk) (old.getD ob []) =
        if (hk / old.length) % 2 = 0 then
          chainLookup t k (tophash hk) xs
        else chainLookup t k (tophash hk) ys)
    (hpadX : ∀ c ∈ padX, c = emptyCell K V)
    (hpadY : ∀ c ∈ padY, c = emptyCell K V)
    (hdX : xs ++ padX ≠ []) (hdY : ys ++ padY ≠ [])
    (h2b : H2.buckets = (h.buckets.set ob (xs ++ padX)).set
      (ob + old.length) (ys ++ padY))
    (h2o : H2.oldbuckets = some (old.set ob stamped))
    (h2B : H2.B = h.B) (h2f : H2.flags = h.flags)
    (h2c : H2.count = h.count) (h2h : H2.hash0 = h.hash0)
    (h2n : H2.nevacuate = h.nevacuate) :
    MapInv0 t H2 ∧
    (∀ k2, absLookup t H2 k2 = absLookup t h k2) ∧
    (old.set ob stamped).length = old.length ∧
    (∀ j, j < old.length → chainEvacuated (old.getD j []) = true →
      chainEvacuated ((old.set ob stamped).getD j []) = true) ∧
    chainEvacuated ((old.set ob stamped).getD ob []) = true := by
  obtain ⟨hB, hlazy, hlen, hne, hnew, hsame, hcount, holdinv⟩ := hInv
  obtain ⟨hss1, holdlen, holdne, hcur, hcurs, hdead, hunev⟩ :=
    holdinv old hold
  obtain ⟨⟨hcsb, hscb⟩, hfreshX, hfreshYf⟩ := hunev ob hob hbe
  have hfreshY := hfreshYf hssv
  have hp : ptrBits = 64 := rfl
  have e0 : emptyRest = 0 := rfl
  have e1v : emptyOne = 1 := rfl
  have e5 : minTopHash = 5 := rfl
  have hB1 : 1 ≤ h.B := hss1 hssv
  have hbne : h.buckets ≠ [] := by
    intro hcon
    have := (hlazy hcon).2.1
    rw [hold] at this
    cases this
  have hblen : h.buckets.length = bucketShift h.B := by
    rcases hlen with hcon | hgood
    · exact absurd hcon hbne
    · exact hgood
  have holdpos : 0 < old.length := by omega
  have h2len : bucketShift h.B = 2 * old.length := by
    rw [holdlen]
    unfold hmap.noldbuckets hmap.isSameSizeGrow
    rw [hssv, if_neg (by simp)]
    unfold bucketShift
    rw [Nat.shiftLeft_eq, Nat.shiftLeft_eq, one_mul, one_mul,
      Nat.mod_eq_of_lt (by omega), Nat.mod_eq_of_lt (by omega)]
    rw [← pow_succ']
    congr 1
    omega
  have hlcX : liveCount (xs ++ padX) = xs.length := by
    rw [liveCount_append,
      liveCount_length_of_live xs (fun c hc => (hxs c hc).1),
      liveCount_zero_of_dead padX (fun c hc => by
        rw [hpadX c hc]
        show emptyRest < minTopHash
        omega)]
    omega
  have hlcY : liveCount (ys ++ padY) = ys.length := by
    rw [liveCount_append,
      liveCount_length_of_live ys (fun c hc => (hys c hc).1),
      liveCount_zero_of_dead padY (fun c hc => by
        rw [hpadY c hc]
        show emptyRest < minTopHash
        omega)]
    omega
  have hlcStamped : liveCount stamped = 0 :=
    liveCount_zero_of_dead _ (fun c hc => (hstop c hc).2)
  have hbmem : old.getD ob [] ∈ old := by
    rw [List.getD_eq_getElem _ _ hob]
    exact List.getElem_mem hob
  have hbnechain : old.getD ob [] ≠ [] := holdne _ hbmem
  have hstampedne : stamped ≠ [] := by
    intro hcon
    rw [hcon] at hslen
    exact hbnechain (List.length_eq_zero.mp (by simpa using hslen.symm))
  have hstev : chainEvacuated stamped = true :=
    chainEvacuated_of_stamped _ hstampedne hstop
  have hobnev : h.nevacuate ≤ ob := by
    by_contra hcon
    push_neg at hcon
    have hcev := hcurs ob hcon
    rw [hbe] at hcev
    cases hcev
  have hosl : (old.set ob stamped).length = old.length :=
    List.length_set _ _ _
  have hmono : ∀ j, j < old.length →
      chainEvacuated (old.getD j []) = true →
      chainEvacuated ((old.set ob stamped).getD j []) = true := by
    intro j hj hje
    by_cases hjo : j = ob
    · rw [hjo, list_getD_set_eq _ _ _ _ hob]
      exact hstev
    · rw [list_getD_set_ne _ _ _ _ _ (fun hcon => hjo hcon.symm)]
      exact hje
  have hobev : chainEvacuated ((old.set ob stamped).getD ob []) = true := by
    rw [list_getD_set_eq _ _ _ _ hob]
    exact hstev
  have hblen2 : H2.buckets.length = h.buckets.length := by
    rw [h2b, List.length_set, List.length_set]
  have hobb : ob < h.buckets.length := by
    rw [hblen, h2len]
    omega
  have hobb2 : ob + old.length < h.buckets.length := by
    rw [hblen, h2len]
    omega
  have hgX : H2.buckets.getD ob [] = xs ++ padX := by
    rw [h2b, list_getD_set_ne _ _ _ _ _ (by omega),
      list_getD_set_eq _ _ _ _ hobb]
  have hgY : H2.buckets.getD (ob + old.length) [] = ys ++ padY := by
    rw [h2b, list_getD_set_eq _ _ _ _ (by rw [List.length_set]; exact hobb2)]
  have hgO : ∀ i, i ≠ ob → i ≠ ob + old.length →
      H2.buckets.getD i [] = h.buckets.getD i [] := by
    intro i hi1 hi2
    rw [h2b, list_getD_set_ne _ _ _ _ _ (fun hcon => hi2 hcon.symm),
      list_getD_set_ne _ _ _ _ _ (fun hcon => hi1 hcon.symm)]
  have hnold2 : H2.noldbuckets = h.noldbuckets :=
    noldbuckets_congr H2 h h2B (by rw [h2f])
  refine ⟨⟨?_, ?_, ?_, ?_, ?_, ?_, ?_, ?_⟩, ?_, hosl, hmono, hobev⟩
  · rw [h2B]
    exact hB
  · intro hcon
    have hL := congrArg List.length hcon
    rw [hblen2, hblen, List.length_nil] at hL
    have := bucketShift_pos h.B
    omega
  · right
    rw [hblen2, hblen, h2B]
  · intro c hc
    rw [h2b] at hc
    rcases List.mem_or_eq_of_mem_set hc with hc2 | rfl
    · rcases List.mem_or_eq_of_mem_set hc2 with hc3 | rfl
      · exact hne c hc3
      · exact hdX
    · exact hdY
  · intro i hi
    rw [hblen2] at hi
    rw [h2h, hblen2]
    by_cases hio : i = ob
    · rw [hio, hgX, hblen, h2len]
      constructor
      · intro cell hmem
        rcases List.mem_append.mp hmem with hm | hm
        · exact Or.inr (Or.inr (hxs cell hm).2)
        · rw [hpadX cell hm]
          exact Or.inl rfl
      · exact shortCircuitPt_live_pad xs padX
          (fun c hc => (hxs c hc).1)
          (fun c hc => by rw [hpadX c hc]; rfl)
    · by_cases hio2 : i = ob + old.length
      · rw [hio2, hgY, hblen, h2len]
        constructor
        · intro cell hmem
          rcases List.mem_append.mp hmem with hm | hm
          · exact Or.inr (Or.inr (hys cell hm).2)
          · rw [hpadY cell hm]
            exact Or.inl rfl
        · exact shortCircuitPt_live_pad ys padY
            (fun c hc => (hys c hc).1)
            (fun c hc => by rw [hpadY c hc]; rfl)
      · rw [hgO i hio hio2]
        exact hnew i hi
  · intro _
    rw [h2o]
    rfl
  · rw [h2o, h2c, h2b, Option.getD_some]
    have e1 := sumLive_set old ob stamped hob
    have e2 := sumLive_set h.buckets ob (xs ++ padX) hobb
    have e3 := sumLive_set (h.buckets.set ob (xs ++ padX))
      (ob + old.length) (ys ++ padY)
      (by rw [List.length_set]; exact hobb2)
    have e4 : (h.buckets.set ob (xs ++ padX)).getD (ob + old.length) []
        = h.buckets.getD (ob + old.length) [] :=
      list_getD_set_ne _ _ _ _ _ (by omega)
    have e5b : liveCount (h.buckets.getD ob []) = 0 := by
      rw [hfreshX]
      exact liveCount_fresh
    have e6 : liveCount (h.buckets.getD (ob + old.length) []) = 0 := by
      rw [hfreshY]
      exact liveCount_fresh
    have hc0 := hcount
    rw [hold, Option.getD_some] at hc0
    rw [e4, e6] at e3
    rw [e5b, hlcX] at e2
    rw [hlcY] at e3
    rw [hlcStamped] at e1
    omega
  · intro old' hsome
    rw [h2o] at hsome
    cases hsome
    refine ⟨?_, ?_, ?_, ?_, ?_, ?_, ?_⟩
    · intro _
      rw [h2B]
      exact hB1
    · rw [hosl, holdlen, hnold2]
    · intro c hc
      rcases List.mem_or_eq_of_mem_set hc with hc2 | rfl
      · exact holdne c hc2
      · exact hstampedne
    · rw [h2n, hosl]
      exact hcur
    · intro j hj
      rw [h2n] at hj
      rw [list_getD_set_ne _ _ _ _ _ (by omega)]
      exact hcurs j hj
    · intro j hj hje
      rw [hosl] at hj
      by_cases hjo : j = ob
      · rw [hjo, list_getD_set_eq _ _ _ _ hob]
        exact hlcStamped
      · rw [list_getD_set_ne _ _ _ _ _ (fun hcon => hjo hcon.symm)] at hje ⊢
        exact hdead j hj hje
    · intro j hj hje
      rw [hosl] at hj
      by_cases hjo : j = ob
      · exfalso
        rw [hjo, list_getD_set_eq _ _ _ _ hob, hstev] at hje
        cases hje
      · rw [list_getD_set_ne _ _ _ _ _ (fun hcon => hjo hcon.symm)] at hje
        obtain ⟨hcs, hfx2, hfy2⟩ := hunev j hj hje
        refine ⟨?_, ?_, ?_⟩
        · rw [list_getD_set_ne _ _ _ _ _ (fun hcon => hjo hcon.symm),
            h2h, hosl]
          exact hcs
        · rw [hgO j hjo (by omega)]
          exact hfx2
        · intro _
          rw [hosl, hgO (j + old.length) (by omega)
            (fun hcon => hjo (by omega))]
          exact hfy2 hssv
  · intro k2
    unfold absLookup
    rw [h2h]
    cases hh2 : t.hasher k2 h.hash0 with
    | none => rfl
    | some hk =>
      dsimp only
      suffices hs : chainLookup t k2 (tophash hk) (lookupChain H2 hk) =
          chainLookup t k2 (tophash hk) (lookupChain h hk) by
        rw [hs]
      rw [lookupChain_grow H2 (old.set ob stamped) hk
          (by rw [h2B]; exact hB) h2o
          (by rw [hosl, holdlen, hnold2])
          (fun _ => by rw [h2B]; exact hB1),
        lookupChain_grow h old hk hB hold holdlen hss1, hosl]
      by_cases hj0 : hk % old.length = ob
      · rw [hj0, list_getD_set_eq _ _ _ _ hob,
          if_neg (by rw [hstev]; simp), if_pos hbe, h2B, h2len,
          hlook k2 hk hh2]
        have hsplit : hk % (2 * old.length) =
            ob + old.length * ((hk / old.length) % 2) := by
          rw [Nat.mul_comm, Nat.mod_mul, hj0]
        by_cases hbit : (hk / old.length) % 2 = 0
        · rw [if_pos hbit]
          rw [hbit, Nat.mul_zero, Nat.add_zero] at hsplit
          rw [hsplit, hgX]
          exact chainLookup_append_pad t k2 (tophash hk)
            (tophash_ge_min hk) xs padX
            (fun c hc => by have := (hxs c hc).1; omega)
            (fun c hc => by rw [hpadX c hc]; rfl)
        · have hb1 : (hk / old.length) % 2 = 1 := by omega
          rw [if_neg hbit]
          rw [hb1, Nat.mul_one] at hsplit
          rw [hsplit, hgY]
          exact chainLookup_append_pad t k2 (tophash hk)
            (tophash_ge_min hk) ys padY
            (fun c hc => by have := (hys c hc).1; omega)
            (fun c hc => by rw [hpadY c hc]; rfl)
      · rw [list_getD_set_ne _ _ _ _ _ (fun hcon => hj0 hcon.symm)]
        by_cases hev : chainEvacuated (old.getD (hk % old.length) [])
            = false
        · rw [if_pos hev, if_pos hev]
        · rw [if_neg hev, if_neg hev, h2B, h2len]
          have hi0 : hk % (2 * old.length) % old.length =
              hk % old.length :=
            Nat.mod_mod_of_dvd hk ⟨2, by ring⟩
          rw [hgO (hk % (2 * old.length))
            (fun hcon => hj0 (by
              rw [← hi0, hcon, Nat.mod_eq_of_lt hob]))
            (fun hcon => hj0 (by
              rw [← hi0, hcon, Nat.add_mod_right,
                Nat.mod_eq_of_lt hob]))]

/-- The bucket-move phase of `evacuate` on an unevacuated old bucket of a
same-size grow. -/
theorem step_same_sound {K V : Type} [Inhabited K] [Inhabited V]
    (t : maptype K V)
    (h H2 : hmap K V) (old : List (Chain K V)) (ob : Nat)
    (stamped xs padX : List (Cell K V))
    (hInv : MapInv0 t h) (hold : h.oldbuckets = some old)
    (hob : ob < old.length) (hssv : h.flags.sameSizeGrow = true)
    (hbe : chainEvacuated (old.getD ob []) = false)
    (hslen : stamped.length = (old.getD ob []).length)
    (hstop : ∀ cell ∈ stamped,
      emptyOne < cell.top ∧ cell.top < minTopHash)
    (hcnt : xs.length = liveCount (old.getD ob []))
    (hxs : ∀ cell ∈ xs, minTopHash ≤ cell.top ∧
      ∃ hv, t.hasher cell.key h.hash0 = some hv ∧
        cell.top = tophash hv ∧ hv % old.length = ob)
    (hlook : ∀ (k : K) (hk : Nat), t.hasher k h.hash0 = some hk →
      chainLookup t k (tophash hk) (old.getD ob []) =
        chainLookup t k (tophash hk) xs)
    (hpadX : ∀ c ∈ padX, c = emptyCell K V)
    (hdX : xs ++ padX ≠ [])
    (h2b : H2.buckets = h.buckets.set ob (xs ++ padX))
    (h2o : H2.oldbuckets = some (old.set ob stamped))
    (h2B : H2.B = h.B) (h2f : H2.flags = h.flags)
    (h2c : H2.count = h.count) (h2h : H2.hash0 = h.hash0)
    (h2n : H2.nevacuate = h.nevacuate) :
    MapInv0 t H2 ∧
    (∀ k2, absLookup t H2 k2 = absLookup t h k2) ∧
    (old.set ob stamped).length = old.length ∧
    (∀ j, j < old.length → chainEvacuated (old.getD j []) = true →
      chainEvacuated ((old.set ob stamped).getD j []) = true) ∧
    chainEvacuated ((old.set ob stamped).getD ob []) = true := by
  obtain ⟨hB, hlazy, hlen, hne, hnew, hsame, hcount, holdinv⟩ := hInv
  obtain ⟨hss1, holdlen, holdne, hcur, hcurs, hdead, hunev⟩ :=
    holdinv old hold
  obtain ⟨⟨hcsb, hscb⟩, hfreshX, -⟩ := hunev ob hob hbe
  have hp : ptrBits = 64 := rfl
  have e0 : emptyRest = 0 := rfl
  have e1v : emptyOne = 1 := rfl
  have e5 : minTopHash = 5 := rfl
  have hbne : h.buckets ≠ [] := by
    intro hcon
    have := (hlazy hcon).2.1
    rw [hold] at this
    cases this
  have hblen : h.buckets.length = bucketShift h.B := by
    rcases hlen with hcon | hgood
    · exact absurd hcon hbne
    · exact hgood
  have holdpos : 0 < old.length := by omega
  have h2len : bucketShift h.B = old.length := by
    rw [holdlen]
    unfold hmap.noldbuckets hmap.isSameSizeGrow
    rw [hssv, if_pos rfl]
  have hlcX : liveCount (xs ++ padX) = xs.length := by
    rw [liveCount_append,
      liveCount_length_of_live xs (fun c hc => (hxs c hc).1),
      liveCount_zero_of_dead padX (fun c hc => by
        rw [hpadX c hc]
        show emptyRest < minTopHash
        omega)]
    omega
  have hlcStamped : liveCount stamped = 0 :=
    liveCount_zero_of_dead _ (fun c hc => (hstop c hc).2)
  have hbmem : old.getD ob [] ∈ old := by
    rw [List.getD_eq_getElem _ _ hob]
    exact List.getElem_mem hob
  have hbnechain : old.getD ob [] ≠ [] := holdne _ hbmem
  have hstampedne : stamped ≠ [] := by
    intro hcon
    rw [hcon] at hslen
    exact hbnechain (List.length_eq_zero.mp (by simpa using hslen.symm))
  have hstev : chainEvacuated stamped = true :=
    chainEvacuated_of_stamped _ hstampedne hstop
  have hobnev : h.nevacuate ≤ ob := by
    by_contra hcon
    push_neg at hcon
    have hcev := hcurs ob hcon
    rw [hbe] at hcev
    cases hcev
  have hosl : (old.set ob stamped).length = old.length :=
    List.length_set _ _ _
  have hmono : ∀ j, j < old.length →
      chainEvacuated (old.getD j []) = true →
      chainEvacuated ((old.set ob stamped).getD j []) = true := by
    intro j hj hje
    by_cases hjo : j = ob
    · rw [hjo, list_getD_set_eq _ _ _ _ hob]
      exact hstev
    · rw [list_getD_set_ne _ _ _ _ _ (fun hcon => hjo hcon.symm)]
      exact hje
  have hobev : chainEvacuated ((old.set ob stamped).getD ob []) = true := by
    rw [list_getD_set_eq _ _ _ _ hob]
    exact hstev
  have hblen2 : H2.buckets.length = h.buckets.length := by
    rw [h2b, List.length_set]
  have hobb : ob < h.buckets.length := by
    rw [hblen, h2len]
    omega
  have hgX : H2.buckets.getD ob [] = xs ++ padX := by
    rw [h2b, list_getD_set_eq _ _ _ _ hobb]
  have hgO : ∀ i, i ≠ ob →
      H2.buckets.getD i [] = h.buckets.getD i [] := by
    intro i hi1
    rw [h2b, list_getD_set_ne _ _ _ _ _ (fun hcon => hi1 hcon.symm)]
  have hnold2 : H2.noldbuckets = h.noldbuckets :=
    noldbuckets_congr H2 h h2B (by rw [h2f])
  refine ⟨⟨?_, ?_, ?_, ?_, ?_, ?_, ?_, ?_⟩, ?_, hosl, hmono, hobev⟩
  · rw [h2B]
    exact hB
  · intro hcon
    have hL := congrArg List.length hcon
    rw [hblen2, hblen, List.length_nil] at hL
    have := bucketShift_pos h.B
    omega
  · right
    rw [hblen2, hblen, h2B]
  · intro c hc
    rw [h2b] at hc
    rcases List.mem_or_eq_of_mem_set hc with hc2 | rfl
    · exact hne c hc2
    · exact hdX
  · intro i hi
    rw [hblen2] at hi
    rw [h2h, hblen2]
    by_cases hio : i = ob
    · rw [hio, hgX, hblen, h2len]
      constructor
      · intro cell hmem
        rcases List.mem_append.mp hmem with hm | hm
        · exact Or.inr (Or.inr (hxs cell hm).2)
        · rw [hpadX cell hm]
          exact Or.inl rfl
      · exact shortCircuitPt_live_pad xs padX
          (fun c hc => (hxs c hc).1)
          (fun c hc => by rw [hpadX c hc]; rfl)
    · rw [hgO i hio]
      exact hnew i hi
  · intro _
    rw [h2o]
    rfl
  · rw [h2o, h2c, h2b, Option.getD_some]
    have e1 := sumLive_set old ob stamped hob
    have e2 := sumLive_set h.buckets ob (xs ++ padX) hobb
    have e5b : liveCount (h.buckets.getD ob []) = 0 := by
      rw [hfreshX]
      exact liveCount_fresh
    have hc0 := hcount
    rw [hold, Option.getD_some] at hc0
    rw [e5b, hlcX] at e2
    rw [hlcStamped] at e1
    omega
  · intro old' hsome
    rw [h2o] at hsome
    cases hsome
    refine ⟨?_, ?_, ?_, ?_, ?_, ?_, ?_⟩
    · intro hx
      rw [h2f, hssv] at hx
      cases hx
    · rw [hosl, holdlen, hnold2]
    · intro c hc
      rcases List.mem_or_eq_of_mem_set hc with hc2 | rfl
      · exact holdne c hc2
      · exact hstampedne
    · rw [h2n, hosl]
      exact hcur
    · intro j hj
      rw [h2n] at hj
      rw [list_getD_set_ne _ _ _ _ _ (by omega)]
      exact hcurs j hj
    · intro j hj hje
      rw [hosl] at hj
      by_cases hjo : j = ob
      · rw [hjo, list_getD_set_eq _ _ _ _ hob]
        exact hlcStamped
      · rw [list_getD_set_ne _ _ _ _ _ (fun hcon => hjo hcon.symm)] at hje ⊢
        exact hdead j hj hje
    · intro j hj hje
      rw [hosl] at hj
      by_cases hjo : j = ob
      · exfalso
        rw [hjo, list_getD_set_eq _ _ _ _ hob, hstev] at hje
        cases hje
      · rw [list_getD_set_ne _ _ _ _ _ (fun hcon => hjo hcon.symm)] at hje
        obtain ⟨hcs, hfx2, hfy2⟩ := hunev j hj hje
        refine ⟨?_, ?_, ?_⟩
        · rw [list_getD_set_ne _ _ _ _ _ (fun hcon => hjo hcon.symm),
            h2h, hosl]
          exact hcs
        · rw [hgO j hjo]
          exact hfx2
        · intro hx
          rw [h2f, hssv] at hx
          cases hx
  · intro k2
    unfold absLookup
    rw [h2h]
    cases hh2 : t.hasher k2 h.hash0 with
    | none => rfl
    | some hk =>
      dsimp only
      suffices hs : chainLookup t k2 (tophash hk) (lookupChain H2 hk) =
          chainLookup t k2 (tophash hk) (lookupChain h hk) by
        rw [hs]
      rw [lookupChain_grow H2 (old.set ob stamped) hk
          (by rw [h2B]; exact hB) h2o
          (by rw [hosl, holdlen, hnold2])
          (fun hx => by
            rw [h2f, hssv] at hx
            cases hx),
        lookupChain_grow h old hk hB hold holdlen
          (fun hx => by rw [hssv] at hx; cases hx), hosl]
      by_cases hj0 : hk % old.length = ob
      · rw [hj0, list_getD_set_eq _ _ _ _ hob,
          if_neg (by rw [hstev]; simp), if_pos hbe, h2B, h2len,
          hlook k2 hk hh2, hj0, hgX]
        exact chainLookup_append_pad t k2 (tophash hk)
          (tophash_ge_min hk) xs padX
          (fun c hc => by have := (hxs c hc).1; omega)
          (fun c hc => by rw [hpadX c hc]; rfl)
      · rw [list_getD_set_ne _ _ _ _ _ (fun hcon => hj0 hcon.symm)]
        by_cases hev : chainEvacuated (old.getD (hk % old.length) [])
            = false
        · rw [if_pos hev, if_pos hev]
        · rw [if_neg hev, if_neg hev, h2B, h2len,
            hgO (hk % old.length) hj0]

set_option maxHeartbeats 1000000 in
/-- Soundness of `evacuate` on one old bucket: the invariant and the
abstract lookup are preserved, and evacuation states only move forward. -/
theorem evacuate_sound {K V : Type} [Inhabited K] [Inhabited V]
    (t : maptype K V) (hkeq : ∀ a b, t.keyEqual a b = true ↔ a = b)
    (h h' : hmap K V) (old : List (Chain K V)) (ob : Nat)
    (hInv : MapInv0 t h) (hold : h.oldbuckets = some old)
    (hob : ob < old.length)
    (he : evacuate t h ob = .ok h') :
    MapInv0 t h' ∧
    (∀ k, absLookup t h' k = absLookup t h k) ∧
    h'.count = h.count ∧ h'.B = h.B ∧ h'.hash0 = h.hash0 ∧
    h'.flags.hashWriting = h.flags.hashWriting ∧
    h'.buckets.length = h.buckets.length ∧
    (∀ old', h'.oldbuckets = some old' →
      old'.length = old.length ∧
      h'.flags.sameSizeGrow = h.flags.sameSizeGrow ∧
      chainEvacuated (old'.getD ob []) = true ∧
      ∀ j, j < old.length → chainEvacuated (old.getD j []) = true →
        chainEvacuated (old'.getD j []) = true) := by
  have holdfacts := hInv.hold old hold
  have holdlen : old.length = h.noldbuckets := holdfacts.2.1
  have hcurs := holdfacts.2.2.2.2.1
  have hunev := holdfacts.2.2.2.2.2.2
  simp only [evacuate, hold, Option.getD_some] at he
  by_cases hbe : chainEvacuated (old.getD ob []) = true
  · -- skip case
    rw [hbe] at he
    simp only [Bool.not_true] at he
    rw [if_neg (by simp)] at he
    dsimp only at he
    by_cases hadv : ob = h.nevacuate
    · rw [if_pos hadv] at he
      cases he
      obtain ⟨aInv, aabs, ac, aB, ah0, aw, ab, aold⟩ :=
        advance_sound t h old h.noldbuckets rfl hInv hold
          (by rw [← hadv]; exact hbe)
      refine ⟨aInv, aabs, ac, aB, ah0, aw, by rw [ab], ?_⟩
      intro old' hsome
      obtain ⟨rfl, hssg⟩ := aold old' hsome
      exact ⟨rfl, hssg, hbe, fun j hj hje => hje⟩
    · rw [if_neg hadv] at he
      cases he
      refine ⟨hInv, fun k => rfl, rfl, rfl, rfl, rfl, rfl, ?_⟩
      intro old' hsome
      rw [hold] at hsome
      cases hsome
      exact ⟨rfl, rfl, hbe, fun j hj hje => hje⟩
  · rw [Bool.not_eq_true] at hbe
    rw [hbe] at he
    simp only [Bool.not_false] at he
    rw [if_pos trivial] at he
    rw [← holdlen] at he
    obtain ⟨⟨hcsb, hscb⟩, hfreshX, hfreshYf⟩ := hunev ob hob hbe
    by_cases hssv : h.flags.sameSizeGrow = true
    · obtain ⟨stamped, xs, hec, hslen, hstop, hcnt, hxs, hlookraw⟩ :=
        evacCells_spec_same t h.flags.iterator h.hash0 old.length ob
          (old.getD ob []) hcsb
      rw [show h.isSameSizeGrow = true from hssv, hec] at he
      dsimp only at he
      have hA1f := applyNewoverflows_fields t h (evacOverflowCalls xs.length)
      have hA1ss : (applyNewoverflows t h
          (evacOverflowCalls xs.length)).isSameSizeGrow = true := by
        show (applyNewoverflows t h
          (evacOverflowCalls xs.length)).flags.sameSizeGrow = true
        rw [hA1f.2.2.2.2.1]
        exact hssv
      rw [hA1ss] at he
      simp only [Bool.not_true] at he
      rw [if_neg (show ¬(false = true) by simp)] at he
      dsimp only at he
      rw [hA1f.1, hA1f.2.2.2.2.2.1, hA1f.2.2.2.2.1, hA1f.2.2.2.1,
        hA1f.2.2.2.2.2.2, hA1f.2.2.1, hfreshX] at he
      obtain ⟨padX, hfx, hpadX⟩ := evacFill_fresh xs
      have hdX : xs ++ padX ≠ [] := by
        rw [← hfx]
        exact evacFill_fresh_ne_nil xs
      rw [hfx] at he
      have hlook := hlookraw hscb
      obtain ⟨R, hRe, hRb, hRo, hRB, hRf, hRc, hRh, hRn⟩ :
          ∃ R2 : hmap K V,
            (if ob = h.nevacuate then
              Except.ok (advanceEvacuationMark R2 old.length)
            else Except.ok R2) = Except.ok h' ∧
            R2.buckets = h.buckets.set ob (xs ++ padX) ∧
            R2.oldbuckets = some (old.set ob stamped) ∧
            R2.B = h.B ∧ R2.flags = h.flags ∧ R2.count = h.count ∧
            R2.hash0 = h.hash0 ∧ R2.nevacuate = h.nevacuate :=
        ⟨_, he, rfl, rfl, rfl, rfl, rfl, rfl, rfl⟩
      obtain ⟨sInv, sabs, slen, smono, sevac⟩ :=
        step_same_sound t h R old ob stamped xs padX
          hInv hold hob hssv hbe hslen hstop hcnt hxs hlook
          hpadX hdX hRb hRo hRB hRf hRc hRh hRn
      by_cases hadv : ob = h.nevacuate
      · rw [if_pos hadv] at hRe
        cases hRe
        obtain ⟨aInv, aabs, ac, aB, ah0, aw, ab, aold⟩ :=
          advance_sound t R (old.set ob stamped) old.length
            (by
              rw [noldbuckets_congr R h hRB (by rw [hRf])]
              exact holdlen)
            sInv hRo
            (by
              rw [hRn, ← hadv]
              exact sevac)
        refine ⟨aInv, fun k => (aabs k).trans (sabs k), ?_, ?_, ?_, ?_,
          ?_, ?_⟩
        · rw [ac, hRc]
        · rw [aB, hRB]
        · rw [ah0, hRh]
        · rw [aw, hRf]
        · rw [ab, hRb]
          simp only [List.length_set]
        · intro old' hsome
          obtain ⟨rfl, hssg⟩ := aold old' hsome
          refine ⟨slen, ?_, sevac, smono⟩
          rw [hssg, hRf]
      · rw [if_neg hadv] at hRe
        cases hRe
        refine ⟨sInv, sabs, hRc, hRB, hRh, by rw [hRf],
          by rw [hRb]; simp only [List.length_set], ?_⟩
        intro old' hsome
        rw [hRo] at hsome
        cases Option.some_injective _ hsome
        exact ⟨slen, by rw [hRf], sevac, smono⟩
    · rw [Bool.not_eq_true] at hssv
      have hfreshY := hfreshYf hssv
      obtain ⟨stamped, xs, ys, hec, hslen, hstop, hcnt, hxs, hys,
          hlookraw⟩ :=
        evacCells_spec t hkeq h.flags.iterator h.hash0 old.length ob
          (old.getD ob []) hcsb
      rw [show h.isSameSizeGrow = false from hssv, hec] at he
      dsimp only at he
      have hA1f := applyNewoverflows_fields t h (evacOverflowCalls xs.length)
      have hA1ss : (applyNewoverflows t h
          (evacOverflowCalls xs.length)).isSameSizeGrow = false := by
        show (applyNewoverflows t h
          (evacOverflowCalls xs.length)).flags.sameSizeGrow = false
        rw [hA1f.2.2.2.2.1]
        exact hssv
      rw [hA1ss] at he
      simp only [Bool.not_false] at he
      rw [if_pos trivial] at he
      dsimp only at he
      have hA2f := applyNewoverflows_fields t
        (applyNewoverflows t h (evacOverflowCalls xs.length))
        (evacOverflowCalls ys.length)
      have hA2n : (applyNewoverflows t
          (applyNewoverflows t h (evacOverflowCalls xs.length))
          (evacOverflowCalls ys.length)).nevacuate = h.nevacuate := by
        rw [hA2f.1, hA1f.1]
      have hA2c : (applyNewoverflows t
          (applyNewoverflows t h (evacOverflowCalls xs.length))
          (evacOverflowCalls ys.length)).count = h.count := by
        rw [hA2f.2.2.2.2.2.1, hA1f.2.2.2.2.2.1]
      have hA2fl : (applyNewoverflows t
          (applyNewoverflows t h (evacOverflowCalls xs.length))
          (evacOverflowCalls ys.length)).flags = h.flags := by
        rw [hA2f.2.2.2.2.1, hA1f.2.2.2.2.1]
      have hA2B : (applyNewoverflows t
          (applyNewoverflows t h (evacOverflowCalls xs.length))
          (evacOverflowCalls ys.length)).B = h.B := by
        rw [hA2f.2.2.2.1, hA1f.2.2.2.1]
      have hA2h : (applyNewoverflows t
          (applyNewoverflows t h (evacOverflowCalls xs.length))
          (evacOverflowCalls ys.length)).hash0 = h.hash0 := by
        rw [hA2f.2.2.2.2.2.2, hA1f.2.2.2.2.2.2]
      rw [hA2n, hA2c, hA2fl, hA2B, hA2h, hA1f.2.2.1, hfreshX] at he
      obtain ⟨padX, hfx, hpadX⟩ := evacFill_fresh xs
      have hdX : xs ++ padX ≠ [] := by
        rw [← hfx]
        exact evacFill_fresh_ne_nil xs
      rw [hfx] at he
      have hgY : (h.buckets.set ob (xs ++ padX)).getD (ob + old.length) []
          = freshBucket K V := by
        rw [list_getD_set_ne _ _ _ _ _ (by omega), hfreshY]
      rw [hgY] at he
      obtain ⟨padY, hfy, hpadY⟩ := evacFill_fresh ys
      have hdY : ys ++ padY ≠ [] := by
        rw [← hfy]
        exact evacFill_fresh_ne_nil ys
      rw [hfy] at he
      have hlook := hlookraw hscb
      obtain ⟨R, hRe, hRb, hRo, hRB, hRf, hRc, hRh, hRn⟩ :
          ∃ R2 : hmap K V,
            (if ob = h.nevacuate then
              Except.ok (advanceEvacuationMark R2 old.length)
            else Except.ok R2) = Except.ok h' ∧
            R2.buckets = (h.buckets.set ob (xs ++ padX)).set
              (ob + old.length) (ys ++ padY) ∧
            R2.oldbuckets = some (old.set ob stamped) ∧
            R2.B = h.B ∧ R2.flags = h.flags ∧ R2.count = h.count ∧
            R2.hash0 = h.hash0 ∧ R2.nevacuate = h.nevacuate :=
        ⟨_, he, rfl, rfl, rfl, rfl, rfl, rfl, rfl⟩
      obtain ⟨sInv, sabs, slen, smono, sevac⟩ :=
        step_double_sound t hkeq h R old ob stamped xs ys padX padY
          hInv hold hob hssv hbe hslen hstop hcnt hxs hys hlook
          hpadX hpadY hdX hdY hRb hRo hRB hRf hRc hRh hRn
      by_cases hadv : ob = h.nevacuate
      · rw [if_pos hadv] at hRe
        cases hRe
        obtain ⟨aInv, aabs, ac, aB, ah0, aw, ab, aold⟩ :=
          advance_sound t R (old.set ob stamped) old.length
            (by
              rw [noldbuckets_congr R h hRB (by rw [hRf])]
              exact holdlen)
            sInv hRo
            (by
              rw [hRn, ← hadv]
              exact sevac)
        refine ⟨aInv, fun k => (aabs k).trans (sabs k), ?_, ?_, ?_, ?_,
          ?_, ?_⟩
        · rw [ac, hRc]
        · rw [aB, hRB]
        · rw [ah0, hRh]
        · rw [aw, hRf]
        · rw [ab, hRb]
          simp only [List.length_set]
        · intro old' hsome
          obtain ⟨rfl, hssg⟩ := aold old' hsome
          refine ⟨slen, ?_, sevac, smono⟩
          rw [hssg, hRf]
      · rw [if_neg hadv] at hRe
        cases hRe
        refine ⟨sInv, sabs, hRc, hRB, hRh, by rw [hRf],
          by rw [hRb]; simp only [List.length_set], ?_⟩
        intro old' hsome
        rw [hRo] at hsome
        cases Option.some_injective _ hsome
        exact ⟨slen, by rw [hRf], sevac, smono⟩

/-- Soundness of `growWork`: the target old bucket ends up evacuated. -/
theorem growWork_sound {K V : Type} [Inhabited K] [Inhabited V]
    (t : maptype K V) (hkeq : ∀ a b, t.keyEqual a b = true ↔ a = b)
    (h h' : hmap K V) (old : List (Chain K V)) (bucket : Nat)
    (hInv : MapInv0 t h) (hold : h.oldbuckets = some old)
    (hg : growWork t h bucket = .ok h') :
    MapInv0 t h' ∧
    (∀ k, absLookup t h' k = absLookup t h k) ∧
    h'.count = h.count ∧ h'.B = h.B ∧ h'.hash0 = h.hash0 ∧
    h'.flags.hashWriting = h.flags.hashWriting ∧
    h'.buckets.length = h.buckets.length ∧
    (∀ old', h'.oldbuckets = some old' →
      old'.length = old.length ∧
      h'.flags.sameSizeGrow = h.flags.sameSizeGrow ∧
      chainEvacuated (old'.getD (bucket % old.length) []) = true) := by
  have holdpos : 0 < old.length := by
    have := (hInv.hold old hold).2.2.2.1
    omega
  have holdlen : old.length = h.noldbuckets := (hInv.hold old hold).2.1
  have hnpos : 0 < h.noldbuckets := by
    unfold hmap.noldbuckets
    exact bucketShift_pos _
  have hm : h.oldbucketmask + 1 = old.length := by
    unfold hmap.oldbucketmask
    omega
  unfold growWork at hg
  rw [hm] at hg
  cases he1 : evacuate t h (bucket % old.length) with
  | error f =>
    rw [he1] at hg
    dsimp only at hg
    cases hg
  | ok h1 =>
    rw [he1] at hg
    dsimp only at hg
    obtain ⟨e1Inv, e1abs, e1c, e1B, e1h0, e1w, e1len, e1old⟩ :=
      evacuate_sound t hkeq h h1 old (bucket % old.length) hInv hold
        (Nat.mod_lt _ holdpos) he1
    by_cases hgr : h1.growing = true
    · obtain ⟨old1, hold1⟩ := Option.isSome_iff_exists.mp hgr
      rw [if_pos hgr] at hg
      obtain ⟨len1, ssg1, evac1, mono1⟩ := e1old old1 hold1
      have hcur1 : h1.nevacuate < old1.length :=
        (e1Inv.hold old1 hold1).2.2.2.1
      obtain ⟨e2Inv, e2abs, e2c, e2B, e2h0, e2w, e2len, e2old⟩ :=
        evacuate_sound t hkeq h1 h' old1 h1.nevacuate e1Inv hold1
          hcur1 hg
      refine ⟨e2Inv, fun k => (e2abs k).trans (e1abs k), e2c.trans e1c,
        e2B.trans e1B, e2h0.trans e1h0, e2w.trans e1w,
        e2len.trans e1len, ?_⟩
      intro old' hsome
      obtain ⟨len2, ssg2, _, mono2⟩ := e2old old' hsome
      refine ⟨len2.trans len1, ssg2.trans ssg1, ?_⟩
      exact mono2 (bucket % old.length)
        (by rw [len1]; exact Nat.mod_lt _ holdpos) evac1
    · rw [if_neg hgr] at hg
      cases hg
      refine ⟨e1Inv, e1abs, e1c, e1B, e1h0, e1w, e1len, ?_⟩
      intro old' hsome
      obtain ⟨len1, ssg1, evac1, _⟩ := e1old old' hsome
      exact ⟨len1, ssg1, evac1⟩

theorem list_getD_replicate {A : Type} (n i : Nat) (a d : A) (hi : i < n) :
    (List.replicate n a).getD i d = a := by
  rw [List.getD_eq_getElem _ _ (by rw [List.length_replicate]; exact hi),
    List.getElem_replicate]

theorem overLoadFactor_63 (c : Int) : overLoadFactor c 63 = false := by
  unfold overLoadFactor
  have hp : ptrBits = 64 := rfl
  rw [hp]
  have hpos : (0 : Int) < ((2 ^ 64 : Nat) : Int) := by positivity
  have hlt := Int.emod_lt_of_pos c hpos
  have hge := Int.emod_nonneg c (ne_of_gt hpos)
  have hsh : loadFactorNum * (bucketShift 63 / loadFactorDen) =
      13 * 2 ^ 62 := by decide
  have hnot : ¬((c % ((2 ^ 64 : Nat) : Int)).toNat >
      loadFactorNum * (bucketShift 63 / loadFactorDen)) := by
    rw [hsh]
    have hnum : (2 : Nat) ^ 64 ≤ 13 * 2 ^ 62 := by norm_num
    omega
  rw [decide_eq_false hnot, Bool.and_false]

theorem bucketShift_double (B : Nat) (hB : B ≤ 62) :
    bucketShift (B + 1) = 2 * bucketShift B := by
  unfold bucketShift
  have hp : ptrBits = 64 := rfl
  rw [hp, Nat.shiftLeft_eq, Nat.shiftLeft_eq, one_mul, one_mul,
    Nat.mod_eq_of_lt (by omega), Nat.mod_eq_of_lt (by omega)]
  rw [pow_succ']

theorem buckets_unevacuated {K V : Type} [Inhabited K] [Inhabited V]
    (t : maptype K V) (h : hmap K V) (hInv : MapInv0 t h) :
    ∀ j, j < h.buckets.length →
      chainEvacuated (h.buckets.getD j []) = false := by
  intro j hj
  have hcs := (hInv.hnew j hj).1
  cases hc : h.buckets.getD j [] with
  | nil => rfl
  | cons hd tl =>
    have hok : cellOK t h.hash0 h.buckets.length j hd := by
      apply hcs
      rw [hc]
      exact List.mem_cons_self _ _
    show (decide (emptyOne < hd.top) && decide (hd.top < minTopHash))
      = false
    have e0 : emptyRest = 0 := rfl
    have e1 : emptyOne = 1 := rfl
    have e5 : minTopHash = 5 := rfl
    rcases hok with h0 | h1 | ⟨hv, -, htop, -⟩
    · rw [decide_eq_false (by omega), Bool.false_and]
    · rw [decide_eq_false (by omega), Bool.false_and]
    · have h5 : minTopHash ≤ hd.top := by
        rw [htop]
        exact tophash_ge_min hv
      rw [decide_eq_false (show ¬hd.top < minTopHash by omega),
        Bool.and_false]

theorem grow_state_sound {K V : Type} [Inhabited K] [Inhabited V]
    (t : maptype K V) (h H : hmap K V)
    (hInv : MapInv0 t h) (hng : h.oldbuckets = none)
    (hbne : h.buckets ≠ [])
    (hcase : (H.B = h.B ∧ H.flags.sameSizeGrow = true) ∨
      (H.B = h.B + 1 ∧ h.B ≤ 62 ∧ H.flags.sameSizeGrow = false))
    (hHb : H.buckets = makeBucketArray K V H.B)
    (hHo : H.oldbuckets = some h.buckets)
    (hHn : H.nevacuate = 0)
    (hHh : H.hash0 = h.hash0)
    (hHc : H.count = h.count) :
    MapInv0 t H ∧ (∀ k, absLookup t H k = absLookup t h k) := by
  obtain ⟨hB, hlazy, hlen, hne, hnew, hsame, hcount, holdinv⟩ := hInv
  have hblen : h.buckets.length = bucketShift h.B := by
    rcases hlen with hcon | hgood
    · exact absurd hcon hbne
    · exact hgood
  have hbpos : 0 < h.buckets.length := List.length_pos.mpr hbne
  have hHlen : H.buckets.length = bucketShift H.B := by
    rw [hHb]
    unfold makeBucketArray
    exact List.length_replicate _ _
  have hHB63 : H.B ≤ 63 := by
    rcases hcase with ⟨hBe, -⟩ | ⟨hBe, hb62, -⟩ <;> omega
  have hshifts : bucketShift h.B ≤ bucketShift H.B := by
    rcases hcase with ⟨hBe, -⟩ | ⟨hBe, hb62, -⟩
    · rw [hBe]
    · rw [hBe, bucketShift_double h.B hb62]
      omega
  have hnold : h.buckets.length = H.noldbuckets := by
    unfold hmap.noldbuckets hmap.isSameSizeGrow
    rcases hcase with ⟨hBe, hsg⟩ | ⟨hBe, hb62, hsg⟩
    · rw [hsg, if_pos rfl, hBe, hblen]
    · rw [hsg, if_neg (by simp), hBe, hblen]
      congr 1
  have hHget : ∀ i, i < bucketShift H.B → H.buckets.getD i []
      = freshBucket K V := by
    intro i hi
    rw [hHb]
    unfold makeBucketArray
    exact list_getD_replicate _ _ _ _ hi
  have hunevac := buckets_unevacuated t h
    ⟨hB, hlazy, hlen, hne, hnew, hsame, hcount, holdinv⟩
  have hss1H : H.flags.sameSizeGrow = false → 1 ≤ H.B := by
    rcases hcase with ⟨hBe, hsg⟩ | ⟨hBe, hb62, hsg⟩
    · intro hx
      rw [hsg] at hx
      cases hx
    · intro _
      omega
  refine ⟨⟨hHB63, ?_, ?_, ?_, ?_, ?_, ?_, ?_⟩, ?_⟩
  · intro hcon
    have hl := congrArg List.length hcon
    rw [hHlen, List.length_nil] at hl
    have := bucketShift_pos H.B
    omega
  · right
    exact hHlen
  · intro c hc
    rw [hHb] at hc
    unfold makeBucketArray at hc
    rw [List.eq_of_mem_replicate hc]
    intro hcon
    have := congrArg List.length hcon
    rw [List.length_nil] at this
    have hf : (freshBucket K V).length = bucketCnt := freshBucket_length
    rw [hf] at this
    exact absurd this (by decide)
  · intro i hi
    rw [hHlen] at hi
    rw [hHget i hi]
    exact chainState_fresh t _ _ _
  · intro _
    rw [hHo]
    rfl
  · rw [hHo, hHc, hHb, Option.getD_some]
    unfold makeBucketArray
    rw [sumLive_replicate_fresh]
    have hc0 := hcount
    rw [hng] at hc0
    have hz : sumLive ((none : Option (List (Chain K V))).getD []) = 0 :=
      rfl
    rw [hz] at hc0
    omega
  · intro old hsome
    rw [hHo] at hsome
    cases hsome
    refine ⟨hss1H, hnold, hne, ?_, ?_, ?_, ?_⟩
    · rw [hHn]
      exact hbpos
    · intro j hj
      rw [hHn] at hj
      omega
    · intro j hj hje
      rw [hunevac j hj] at hje
      cases hje
    · intro j hj _
      refine ⟨?_, ?_, ?_⟩
      · rw [hHh]
        exact hnew j hj
      · exact hHget j (by omega)
      · intro hsg
        rcases hcase with ⟨hBe, hsg'⟩ | ⟨hBe, hb62, hsg'⟩
        · rw [hsg'] at hsg
          cases hsg
        · apply hHget
          rw [hBe, bucketShift_double h.B hb62]
          rw [hblen] at hj ⊢
          omega
  · intro k
    unfold absLookup
    rw [hHh]
    cases hh2 : t.hasher k h.hash0 with
    | none => rfl
    | some hash =>
      dsimp only
      suffices hs : lookupChain H hash = lookupChain h hash by
        rw [hs]
      rw [lookupChain_nogrow h hash hng,
        lookupChain_grow H h.buckets hash hHB63 hHo hnold hss1H,
        if_pos (hunevac _ (Nat.mod_lt _ hbpos)), hblen]

theorem hashGrow_sound {K V : Type} [Inhabited K] [Inhabited V]
    (t : maptype K V) (h h2 : hmap K V)
    (hInv : MapInv0 t h) (hng : h.oldbuckets = none)
    (hbne : h.buckets ≠ [])
    (hgrow : hashGrow h = .ok h2) :
    MapInv0 t h2 ∧
    (∀ k, absLookup t h2 k = absLookup t h k) ∧
    h2.count = h.count ∧ h2.hash0 = h.hash0 ∧
    h2.flags.hashWriting = h.flags.hashWriting ∧
    h2.oldbuckets.isSome = true := by
  have hssf : h.flags.sameSizeGrow = false := by
    cases hsv : h.flags.sameSizeGrow
    · rfl
    · have := hInv.hsame hsv
      rw [hng] at this
      cases this
  unfold hashGrow at hgrow
  dsimp only at hgrow
  cases hov : overLoadFactor (↑h.count + 1) h.B with
  | false =>
    rw [hov] at hgrow
    simp only [Bool.not_false] at hgrow
    rw [if_pos trivial, if_pos trivial] at hgrow
    by_cases hor : h.overflowReg = true
    · rw [if_pos hor] at hgrow
      by_cases hoo : h.oldoverflowReg = true
      · rw [if_pos hoo] at hgrow
        exact Except.noConfusion hgrow
      · rw [if_neg hoo] at hgrow
        have hR : h2 = _ := (Except.ok.inj hgrow).symm
        obtain ⟨gInv, gabs⟩ := grow_state_sound t h h2 hInv hng hbne
          (Or.inl ⟨by subst hR; rfl, by subst hR; rfl⟩) (by subst hR; rfl) (by subst hR; rfl)
          (by subst hR; rfl) (by subst hR; rfl) (by subst hR; rfl)
        exact ⟨gInv, gabs, by subst hR; rfl, by subst hR; rfl, by subst hR; rfl, by subst hR; rfl⟩
    · rw [if_neg hor] at hgrow
      have hR : h2 = _ := (Except.ok.inj hgrow).symm
      obtain ⟨gInv, gabs⟩ := grow_state_sound t h h2 hInv hng hbne
        (Or.inl ⟨by subst hR; rfl, by subst hR; rfl⟩) (by subst hR; rfl) (by subst hR; rfl)
        (by subst hR; rfl) (by subst hR; rfl) (by subst hR; rfl)
      exact ⟨gInv, gabs, by subst hR; rfl, by subst hR; rfl, by subst hR; rfl, by subst hR; rfl⟩
  | true =>
    have hb62 : h.B ≤ 62 := by
      by_contra hc
      push_neg at hc
      have h63 : h.B = 63 := by
        have := hInv.hB
        omega
      rw [h63, overLoadFactor_63] at hov
      cases hov
    rw [hov] at hgrow
    simp only [Bool.not_true] at hgrow
    rw [if_neg (show ¬(false = true) by simp),
      if_neg (show ¬(false = true) by simp)] at hgrow
    by_cases hor : h.overflowReg = true
    · rw [if_pos hor] at hgrow
      by_cases hoo : h.oldoverflowReg = true
      · rw [if_pos hoo] at hgrow
        exact Except.noConfusion hgrow
      · rw [if_neg hoo] at hgrow
        have hR : h2 = _ := (Except.ok.inj hgrow).symm
        obtain ⟨gInv, gabs⟩ := grow_state_sound t h h2 hInv hng hbne
          (Or.inr ⟨by subst hR; rfl, hb62, by subst hR; exact hssf⟩)
          (by subst hR; rfl) (by subst hR; rfl) (by subst hR; rfl) (by subst hR; rfl) (by subst hR; rfl)
        exact ⟨gInv, gabs, by subst hR; rfl, by subst hR; rfl, by subst hR; rfl, by subst hR; rfl⟩
    · rw [if_neg hor] at hgrow
      have hR : h2 = _ := (Except.ok.inj hgrow).symm
      obtain ⟨gInv, gabs⟩ := grow_state_sound t h h2 hInv hng hbne
        (Or.inr ⟨by subst hR; rfl, hb62, by subst hR; exact hssf⟩)
        (by subst hR; rfl) (by subst hR; rfl) (by subst hR; rfl) (by subst hR; rfl) (by subst hR; rfl)
      exact ⟨gInv, gabs, by subst hR; rfl, by subst hR; rfl, by subst hR; rfl, by subst hR; rfl⟩

theorem oldlen_dvd_shift {K V : Type} [Inhabited K] [Inhabited V]
    (t : maptype K V) (h : hmap K V) (old : List (Chain K V))
    (hInv : MapInv0 t h) (hold : h.oldbuckets = some old) :
    old.length ∣ bucketShift h.B := by
  have holdlen : old.length = h.noldbuckets := (hInv.hold old hold).2.1
  have hss1 := (hInv.hold old hold).1
  rw [holdlen]
  unfold hmap.noldbuckets hmap.isSameSizeGrow
  cases hsv : h.flags.sameSizeGrow with
  | true => rw [if_pos rfl]
  | false =>
    rw [if_neg (by simp)]
    have hB1 : 1 ≤ h.B := hss1 hsv
    have hB63 := hInv.hB
    refine ⟨2, ?_⟩
    conv_lhs => rw [show h.B = h.B - 1 + 1 by omega]
    rw [bucketShift_double (h.B - 1) (by omega)]
    omega

theorem assign_write_sound {K V : Type} [Inhabited K] [Inhabited V]
    (t : maptype K V) (h H2 : hmap K V) (key : K) (hash : Nat)
    (b' : Chain K V)
    (hInv : MapInv0 t h)
    (hhash : t.hasher key h.hash0 = some hash)
    (hbne : h.buckets ≠ [])
    (hred : ∀ oldh, h.oldbuckets = some oldh →
      chainEvacuated (oldh.getD (hash % oldh.length) []) = true)
    (hb'ne : b' ≠ [])
    (hb'state : chainState t h.hash0 h.buckets.length
      (hash % bucketShift h.B) b')
    (hb'live : liveCount b' + h.count ≤ liveCount
      (h.buckets.getD (hash % bucketShift h.B) []) + H2.count)
    (hb'other : ∀ k2 hk2, k2 ≠ key → t.hasher k2 h.hash0 = some hk2 →
      chainLookup t k2 (tophash hk2) b' =
        chainLookup t k2 (tophash hk2)
          (h.buckets.getD (hash % bucketShift h.B) []))
    (h2b : H2.buckets = h.buckets.set (hash % bucketShift h.B) b')
    (h2o : H2.oldbuckets = h.oldbuckets)
    (h2B : H2.B = h.B) (h2s : H2.flags.sameSizeGrow = h.flags.sameSizeGrow)
    (h2h : H2.hash0 = h.hash0)
    (h2n : H2.nevacuate = h.nevacuate) :
    MapInv0 t H2 ∧ lookupChain H2 hash = b' ∧
    (∀ k2, k2 ≠ key → absLookup t H2 k2 = absLookup t h k2) := by
  obtain ⟨hB, hlazy, hlen, hne, hnew, hsame, hcount, holdinv⟩ := hInv
  have hblen : h.buckets.length = bucketShift h.B := by
    rcases hlen with hcon | hgood
    · exact absurd hcon hbne
    · exact hgood
  have hbpos : 0 < h.buckets.length := List.length_pos.mpr hbne
  have hbkt : hash % bucketShift h.B < h.buckets.length := by
    rw [hblen]
    exact Nat.mod_lt _ (by rw [← hblen]; omega)
  have hblen2 : H2.buckets.length = h.buckets.length := by
    rw [h2b, List.length_set]
  have hnotbkt : ∀ oldh, h.oldbuckets = some oldh →
      ∀ j, j < oldh.length →
      chainEvacuated (oldh.getD j []) = false →
      j ≠ hash % bucketShift h.B ∧
      j + oldh.length ≠ hash % bucketShift h.B := by
    intro oldh holdh j hj hje
    have hdvd := oldlen_dvd_shift t h oldh
      ⟨hB, hlazy, hlen, hne, hnew, hsame, hcount, holdinv⟩ holdh
    have hmod : (hash % bucketShift h.B) % oldh.length
        = hash % oldh.length := Nat.mod_mod_of_dvd hash hdvd
    have holpos : 0 < oldh.length := by
      have := (holdinv oldh holdh).2.2.2.1
      omega
    have hev := hred oldh holdh
    constructor
    · intro hcon
      rw [← hcon, Nat.mod_eq_of_lt hj] at hmod
      rw [← hmod] at hev
      rw [hev] at hje
      cases hje
    · intro hcon
      rw [← hcon, Nat.add_mod_right, Nat.mod_eq_of_lt hj] at hmod
      rw [← hmod] at hev
      rw [hev] at hje
      cases hje
  refine ⟨⟨?_, ?_, ?_, ?_, ?_, ?_, ?_, ?_⟩, ?_, ?_⟩
  · rw [h2B]
    exact hB
  · intro hcon
    have hl := congrArg List.length hcon
    rw [hblen2, List.length_nil] at hl
    omega
  · right
    rw [hblen2, hblen, h2B]
  · intro c hc
    rw [h2b] at hc
    rcases List.mem_or_eq_of_mem_set hc with hc2 | rfl
    · exact hne c hc2
    · exact hb'ne
  · intro i hi
    rw [hblen2] at hi
    rw [h2h, hblen2]
    by_cases hio : i = hash % bucketShift h.B
    · rw [hio, h2b, list_getD_set_eq _ _ _ _ hbkt]
      exact hb'state
    · rw [h2b, list_getD_set_ne _ _ _ _ _ (fun hcon => hio hcon.symm)]
      exact hnew i hi
  · intro hsg
    rw [h2o]
    exact hsame (by rw [← h2s]; exact hsg)
  · rw [h2o]
    have e2 := sumLive_set h.buckets (hash % bucketShift h.B) b' hbkt
    rw [h2b]
    omega
  · intro old' hsome
    rw [h2o] at hsome
    obtain ⟨hss1, holdlen, holdne, hcur, hcurs, hdead, hunev⟩ :=
      holdinv old' hsome
    refine ⟨?_, ?_, holdne, ?_, ?_, hdead, ?_⟩
    · intro hx
      rw [h2B]
      exact hss1 (by rw [← h2s]; exact hx)
    · rw [holdlen]
      exact (noldbuckets_congr H2 h h2B h2s).symm
    · rw [h2n]
      exact hcur
    · intro j hj
      rw [h2n] at hj
      exact hcurs j hj
    · intro j hj hje
      obtain ⟨hcs, hfx, hfy⟩ := hunev j hj hje
      obtain ⟨hne1, hne2⟩ := hnotbkt old' hsome j hj hje
      refine ⟨?_, ?_, ?_⟩
      · rw [h2h]
        exact hcs
      · rw [h2b, list_getD_set_ne _ _ _ _ _ (fun hcon => hne1 hcon.symm)]
        exact hfx
      · intro hx
        rw [h2b,
          list_getD_set_ne _ _ _ _ _ (fun hcon => hne2 hcon.symm)]
        exact hfy (by rw [← h2s]; exact hx)
  · cases holdc : h.oldbuckets with
    | none =>
      rw [lookupChain_nogrow H2 hash (by rw [h2o]; exact holdc), h2b,
        h2B, list_getD_set_eq _ _ _ _ hbkt]
    | some oldh =>
      obtain ⟨hss1, holdlen, holdne, hcur, hcurs, hdead, hunev⟩ :=
        holdinv oldh holdc
      rw [lookupChain_grow H2 oldh hash (by rw [h2B]; exact hB)
        (by rw [h2o]; exact holdc)
        (by rw [holdlen]; exact (noldbuckets_congr H2 h h2B h2s).symm)
        (fun hx => by rw [h2B]; exact hss1 (by rw [← h2s]; exact hx)),
        if_neg (by rw [hred oldh holdc]; simp), h2b, h2B,
        list_getD_set_eq _ _ _ _ hbkt]
  · intro k2 hk2ne
    unfold absLookup
    rw [h2h]
    cases hh2 : t.hasher k2 h.hash0 with
    | none => rfl
    | some hk2 =>
      dsimp only
      suffices hs : chainLookup t k2 (tophash hk2) (lookupChain H2 hk2) =
          chainLookup t k2 (tophash hk2) (lookupChain h hk2) by
        rw [hs]
      have hnewside : chainLookup t k2 (tophash hk2)
          (H2.buckets.getD (hk2 % bucketShift h.B) []) =
          chainLookup t k2 (tophash hk2)
          (h.buckets.getD (hk2 % bucketShift h.B) []) := by
        by_cases hio : hk2 % bucketShift h.B = hash % bucketShift h.B
        · rw [hio, h2b, list_getD_set_eq _ _ _ _ hbkt]
          exact hb'other k2 hk2 hk2ne hh2
        · rw [h2b, list_getD_set_ne _ _ _ _ _
            (fun hcon => hio hcon.symm)]
      cases holdc : h.oldbuckets with
      | none =>
        rw [lookupChain_nogrow H2 hk2 (by rw [h2o]; exact holdc),
          lookupChain_nogrow h hk2 holdc, h2B]
        exact hnewside
      | some oldh =>
        obtain ⟨hss1, holdlen, holdne, hcur, hcurs, hdead, hunev⟩ :=
          holdinv oldh holdc
        rw [lookupChain_grow H2 oldh hk2 (by rw [h2B]; exact hB)
          (by rw [h2o]; exact holdc)
          (by rw [holdlen]; exact (noldbuckets_congr H2 h h2B h2s).symm)
          (fun hx => by rw [h2B]; exact hss1 (by rw [← h2s]; exact hx)),
          lookupChain_grow h oldh hk2 hB holdc holdlen hss1]
        by_cases hev : chainEvacuated (oldh.getD (hk2 % oldh.length) [])
            = false
        · rw [if_pos hev, if_pos hev]
        · rw [if_neg hev, if_neg hev, h2B]
          exact hnewside

theorem assign_found_chain {K V : Type} [Inhabited K] [Inhabited V]
    (t : maptype K V) (hkeq : ∀ a b, t.keyEqual a b = true ↔ a = b)
    (key : K) (v : V) (hash : Nat) (b : Chain K V) (m : Nat)
    (seed n idx : Nat)
    (hscan : assignScan t key (tophash hash) b = .found m)
    (hstate : chainState t seed n idx b) :
    (b.modify (fun c => { c with
      key := if t.needkeyupdate then key else c.key, val := v }) m).length
        = b.length ∧
    chainState t seed n idx (b.modify (fun c => { c with
      key := if t.needkeyupdate then key else c.key, val := v }) m) ∧
    liveCount (b.modify (fun c => { c with
      key := if t.needkeyupdate then key else c.key, val := v }) m)
      = liveCount b ∧
    (chainLookup t key (tophash hash) (b.modify (fun c => { c with
      key := if t.needkeyupdate then key else c.key, val := v }) m)).map
        Prod.snd = some v ∧
    (∀ (k2 : K) (top2 : Nat), k2 ≠ key → minTopHash ≤ top2 →
      chainLookup t k2 top2 (b.modify (fun c => { c with
        key := if t.needkeyupdate then key else c.key, val := v }) m) =
      chainLookup t k2 top2 b) := by
  have d : Cell K V := ⟨emptyOne, default, default⟩
  obtain ⟨j, hmj, hjlen, htopm, hkeym, hpre⟩ :=
    assignScanAux_found t key (tophash hash) (tophash_ge_min hash) b 0
      m none hscan
  have hm : m = j := by omega
  subst hm
  set f : Cell K V → Cell K V := fun c => { c with
    key := if t.needkeyupdate then key else c.key, val := v } with hf
  have hlen : (b.modify f m).length = b.length := List.length_modify _ _ _
  have hkeyeq : key = (b.getD m ⟨emptyOne, default, default⟩).key :=
    (hkeq _ _).mp hkeym
  have hcellm : (b.modify f m).getD m ⟨emptyOne, default, default⟩ =
      { b.getD m ⟨emptyOne, default, default⟩ with val := v } := by
    rw [list_getD_modify_eq _ _ _ _ hjlen, hf]
    dsimp only
    rw [← hkeyeq, ite_self]
  have hcello : ∀ l, l ≠ m → (b.modify f m).getD l
      ⟨emptyOne, default, default⟩ = b.getD l ⟨emptyOne, default, default⟩ :=
    fun l hl => list_getD_modify_ne _ _ _ _ _ hl
  have htops : ∀ l, ((b.modify f m).getD l
      ⟨emptyOne, default, default⟩).top =
      (b.getD l ⟨emptyOne, default, default⟩).top := by
    intro l
    by_cases hl : l = m
    · rw [hl, hcellm]
    · rw [hcello l hl]
  have hkeys : ∀ l, ((b.modify f m).getD l
      ⟨emptyOne, default, default⟩).key =
      (b.getD l ⟨emptyOne, default, default⟩).key := by
    intro l
    by_cases hl : l = m
    · rw [hl, hcellm]
    · rw [hcello l hl]
  refine ⟨hlen, ⟨?_, ?_⟩, ?_, ?_, ?_⟩
  · rw [forall_mem_iff_getD]
    intro l hl
    rw [hlen] at hl
    have hok := (forall_mem_iff_getD b _).mp hstate.1 l hl
    unfold cellOK at hok ⊢
    rw [htops l, hkeys l]
    exact hok
  · intro i i2 hii hi2 htop
    rw [hlen] at hi2
    rw [htops i2]
    rw [htops i] at htop
    exact hstate.2 i i2 hii hi2 htop
  · apply liveCount_congr _ _ hlen
    intro l hl
    rw [htops l]
  · rw [chainLookup_eq_some t key (tophash hash) (b.modify f m) m
      (by rw [hlen]; exact hjlen)
      (by rw [htops m]; exact htopm)
      (by rw [hkeys m]; exact hkeym)
      (by
        intro l hlm
        obtain ⟨hnr, hnm⟩ := hpre l hlm
        refine ⟨by rw [htops l]; exact hnr, ?_⟩
        rw [htops l, hkeys l]
        exact hnm)]
    rw [hcellm]
    rfl
  · intro k2 top2 hk2 htop5
    apply chainLookup_congr t k2 top2 htop5 b (b.modify f m) hlen
    intro l hl
    by_cases hlm : l = m
    · right
      subst hlm
      refine ⟨?_, ?_, ?_⟩
      · intro ⟨ht, hk⟩
        exact hk2 (by rw [(hkeq _ _).mp hk]; exact hkeyeq.symm ▸ rfl)
      · intro ⟨ht, hk⟩
        rw [hcellm] at hk
        exact hk2 (by rw [(hkeq _ _).mp hk]; exact hkeyeq.symm ▸ rfl)
      · rw [htops l]
    · left
      exact hcello l hlm

theorem assign_insert_chain {K V : Type} [Inhabited K] [Inhabited V]
    (t : maptype K V) (hkeq : ∀ a b, t.keyEqual a b = true ↔ a = b)
    (key : K) (v : V) (hash : Nat) (b : Chain K V) (m : Nat)
    (seed n idx : Nat)
    (hscan : assignScan t key (tophash hash) b = .notFound (some m))
    (hstate : chainState t seed n idx b)
    (hhk : t.hasher key seed = some hash)
    (hidx : hash % n = idx) :
    (b.set m ⟨tophash hash, key, v⟩).length = b.length ∧
    chainState t seed n idx (b.set m ⟨tophash hash, key, v⟩) ∧
    liveCount (b.set m ⟨tophash hash, key, v⟩) = liveCount b + 1 ∧
    (chainLookup t key (tophash hash)
      (b.set m ⟨tophash hash, key, v⟩)).map Prod.snd = some v ∧
    (∀ (k2 : K) (top2 : Nat), k2 ≠ key → minTopHash ≤ top2 →
      chainLookup t k2 top2 (b.set m ⟨tophash hash, key, v⟩) =
      chainLookup t k2 top2 b) := by
  obtain ⟨j, hmj, hjlen, hemp, hpre⟩ :=
    assignScanAux_first_empty t key (tophash hash) (tophash_ge_min hash)
      b 0 m hscan
  have hm : m = j := by omega
  subst hm
  have e0 : emptyRest = 0 := rfl
  have e1 : emptyOne = 1 := rfl
  have e5 : minTopHash = 5 := rfl
  have htophash := tophash_ge_min hash
  have hlen : (b.set m ⟨tophash hash, key, v⟩).length = b.length :=
    List.length_set _ _ _
  have hcellm : (b.set m ⟨tophash hash, key, v⟩).getD m
      ⟨emptyOne, default, default⟩ = ⟨tophash hash, key, v⟩ :=
    list_getD_set_eq _ _ _ _ hjlen
  have hcello : ∀ l, l ≠ m → (b.set m ⟨tophash hash, key, v⟩).getD l
      ⟨emptyOne, default, default⟩ =
      b.getD l ⟨emptyOne, default, default⟩ :=
    fun l hl => list_getD_set_ne _ _ _ _ _ (fun hcon => hl hcon.symm)
  have hmle : (b.getD m ⟨emptyOne, default, default⟩).top ≤ emptyOne := by
    unfold isEmptyTop at hemp
    exact of_decide_eq_true hemp
  have hprelow : ∀ l, l < m →
      emptyOne < (b.getD l ⟨emptyOne, default, default⟩).top := by
    intro l hl
    have := (hpre l hl).1
    unfold isEmptyTop at this
    have hx := of_decide_eq_false this
    omega
  refine ⟨hlen, ⟨?_, ?_⟩, ?_, ?_, ?_⟩
  · rw [forall_mem_iff_getD]
    intro l hl
    rw [hlen] at hl
    by_cases hlm : l = m
    · rw [hlm, hcellm]
      exact Or.inr (Or.inr ⟨hash, hhk, rfl, hidx⟩)
    · rw [hcello l hlm]
      exact (forall_mem_iff_getD b _).mp hstate.1 l hl
  · intro i i2 hii hi2 htop
    rw [hlen] at hi2
    by_cases him : i = m
    · exfalso
      rw [him, hcellm] at htop
      dsimp only at htop
      omega
    · rw [hcello i him] at htop
      have higt : m < i := by
        rcases Nat.lt_or_ge i m with hlt | hge
        · exact absurd htop (by have := hprelow i hlt; omega)
        · omega
      rw [hcello i2 (by omega)]
      exact hstate.2 i i2 hii hi2 htop
  · have := liveCount_pt b (b.set m ⟨tophash hash, key, v⟩) m
      hlen.symm (by rw [hlen]; exact hjlen)
      (fun l hl hlm => by rw [hcello l hlm])
      (by rw [hcellm]; exact htophash)
      (by omega)
    omega
  · rw [chainLookup_eq_some t key (tophash hash) _ m
      (by rw [hlen]; exact hjlen)
      (by rw [hcellm])
      (by rw [hcellm]; exact (hkeq key key).mpr rfl)
      (by
        intro l hlm
        rw [hcello l (by omega)]
        refine ⟨by have := hprelow l hlm; omega, (hpre l hlm).2⟩)]
    rw [hcellm]
    rfl
  · intro k2 top2 hk2 htop5
    by_cases hm0 : (b.getD m ⟨emptyOne, default, default⟩).top = emptyRest
    · rcases chainLookup_destruct t k2 top2 htop5 b with
        ⟨p, hp, hptop, hpkey, hppre, hpeq⟩ |
        ⟨hnone, q, hq, hqpre, hqcut⟩
      · have hpm : p < m := by
          rcases Nat.lt_trichotomy p m with h1 | h2 | h3
          · exact h1
          · exfalso
            rw [h2, hm0] at hptop
            omega
          · exact absurd hm0 (hppre m h3).1
        rw [hpeq, chainLookup_eq_some t k2 top2 _ p
          (by rw [hlen]; omega)
          (by rw [hcello p (by omega)]; exact hptop)
          (by rw [hcello p (by omega)]; exact hpkey)
          (by
            intro l hlp
            rw [hcello l (by omega)]
            exact hppre l hlp),
          hcello p (by omega)]
      · have hqm : q = m := by
          rcases Nat.lt_trichotomy q m with h1 | h2 | h3
          · exfalso
            rcases hqcut with hc1 | hc2
            · omega
            · exact absurd hc2 (by have := hprelow q h1; omega)
          · exact h2
          · exact absurd hm0 (hqpre m h3).1
        subst hqm
        rw [hnone]
        obtain ⟨q2, hq2len, hq2pre, hq2cut⟩ :=
          clean_cut_exists t k2 top2 (b.set q ⟨tophash hash, key, v⟩)
            (b.set q ⟨tophash hash, key, v⟩).length 0 (by omega)
            (by
              intro l _ hllen
              rw [hlen] at hllen
              by_cases hlq : l = q
              · rw [hlq, hcellm]
                intro ⟨ht, hk⟩
                exact hk2 ((hkeq _ _).mp hk)
              · rw [hcello l hlq]
                rcases Nat.lt_or_ge l q with hlt | hge
                · exact (hqpre l hlt).2
                · have hgt : q < l := by omega
                  have := hstate.2 q l hgt hllen hm0
                  intro ⟨ht, hk⟩
                  omega)
            (fun l hl => absurd hl (by omega))
        exact chainLookup_eq_none t k2 top2 htop5 _ q2 hq2len hq2pre
          hq2cut
    · apply chainLookup_congr t k2 top2 htop5 b _ hlen
      intro l hl
      by_cases hlm : l = m
      · right
        subst hlm
        refine ⟨?_, ?_, ?_⟩
        · intro ⟨ht, hk⟩
          omega
        · intro ⟨ht, hk⟩
          rw [hcellm] at hk
          exact hk2 ((hkeq _ _).mp hk)
        · rw [hcellm]
          constructor
          · intro hx
            dsimp only at hx
            omega
          · intro hx
            exact absurd hx hm0
      · left
        exact hcello l hlm

theorem assign_append_chain {K V : Type} [Inhabited K] [Inhabited V]
    (t : maptype K V) (hkeq : ∀ a b, t.keyEqual a b = true ↔ a = b)
    (key : K) (v : V) (hash : Nat) (b : Chain K V)
    (seed n idx : Nat)
    (hscan : assignScan t key (tophash hash) b = .notFound none)
    (hstate : chainState t seed n idx b)
    (hhk : t.hasher key seed = some hash)
    (hidx : hash % n = idx) :
    chainState t seed n idx (b ++ (⟨tophash hash, key, v⟩ ::
      List.replicate (bucketCnt - 1) (emptyCell K V))) ∧
    liveCount (b ++ (⟨tophash hash, key, v⟩ ::
      List.replicate (bucketCnt - 1) (emptyCell K V))) = liveCount b + 1 ∧
    (chainLookup t key (tophash hash) (b ++ (⟨tophash hash, key, v⟩ ::
      List.replicate (bucketCnt - 1) (emptyCell K V)))).map Prod.snd
      = some v ∧
    (∀ (k2 : K) (top2 : Nat), k2 ≠ key → minTopHash ≤ top2 →
      chainLookup t k2 top2 (b ++ (⟨tophash hash, key, v⟩ ::
        List.replicate (bucketCnt - 1) (emptyCell K V))) =
      chainLookup t k2 top2 b) := by
  have hchar := assignScanAux_no_empty t key (tophash hash)
    (tophash_ge_min hash) b 0 hscan
  have e0 : emptyRest = 0 := rfl
  have e1 : emptyOne = 1 := rfl
  have e5 : minTopHash = 5 := rfl
  have htophash := tophash_ge_min hash
  have hbc : bucketCnt - 1 = 7 := rfl
  have hlen : (b ++ (⟨tophash hash, key, v⟩ ::
      List.replicate (bucketCnt - 1) (emptyCell K V))).length
      = b.length + 8 := by
    rw [List.length_append, List.length_cons, List.length_replicate, hbc]
  have hprelow : ∀ l, l < b.length →
      emptyOne < (b.getD l ⟨emptyOne, default, default⟩).top := by
    intro l hl
    have := (hchar l hl).1
    unfold isEmptyTop at this
    have hx := of_decide_eq_false this
    omega
  have hcellb : ∀ l, l < b.length →
      (b ++ (⟨tophash hash, key, v⟩ ::
        List.replicate (bucketCnt - 1) (emptyCell K V))).getD l
        ⟨emptyOne, default, default⟩ =
      b.getD l ⟨emptyOne, default, default⟩ :=
    fun l hl => list_getD_append_left _ _ _ _ hl
  have hcellm : (b ++ (⟨tophash hash, key, v⟩ ::
      List.replicate (bucketCnt - 1) (emptyCell K V))).getD b.length
      ⟨emptyOne, default, default⟩ = ⟨tophash hash, key, v⟩ := by
    rw [list_getD_append_right _ _ _ _ (le_refl _), Nat.sub_self]
    rfl
  have hcellr : ∀ l, b.length < l → l < b.length + 8 →
      (b ++ (⟨tophash hash, key, v⟩ ::
      List.replicate (bucketCnt - 1) (emptyCell K V))).getD l
      ⟨emptyOne, default, default⟩ = emptyCell K V := by
    intro l hl hl8
    rw [list_getD_append_right _ _ _ _ (by omega)]
    have hx : l - b.length = (l - b.length - 1) + 1 := by omega
    rw [hx, List.getD_cons_succ]
    exact list_getD_replicate _ _ _ _ (by omega)
  refine ⟨⟨?_, ?_⟩, ?_, ?_, ?_⟩
  · intro cell hmem
    rcases List.mem_append.mp hmem with hm | hm
    · exact hstate.1 cell hm
    · rcases List.mem_cons.mp hm with rfl | hm2
      · exact Or.inr (Or.inr ⟨hash, hhk, rfl, hidx⟩)
      · rw [List.eq_of_mem_replicate hm2]
        exact Or.inl rfl
  · intro i j hij hj htop
    rw [hlen] at hj
    have him : b.length < i := by
      rcases Nat.lt_trichotomy i b.length with h1 | h2 | h3
      · exact absurd htop (by
          rw [hcellb i h1]
          have := hprelow i h1
          omega)
      · exfalso
        rw [h2, hcellm] at htop
        dsimp only at htop
        omega
      · exact h3
    rw [hcellr j (by omega) (by omega)]
    show emptyRest < minTopHash
    omega
  · have hz : liveCount (List.replicate (bucketCnt - 1)
        (emptyCell K V)) = 0 :=
      liveCount_zero_of_dead _ (fun c hc => by
        rw [List.eq_of_mem_replicate hc]
        show emptyRest < minTopHash
        omega)
    rw [liveCount_append, liveCount_cons, if_pos htophash, hz]
  · rw [chainLookup_eq_some t key (tophash hash) _ b.length
      (by omega)
      (by rw [hcellm])
      (by rw [hcellm]; exact (hkeq key key).mpr rfl)
      (by
        intro l hlm
        rw [hcellb l hlm]
        refine ⟨by have := hprelow l hlm; omega, (hchar l hlm).2⟩)]
    rw [hcellm]
    rfl
  · intro k2 top2 hk2 htop5
    rcases chainLookup_destruct t k2 top2 htop5 b with
      ⟨p, hp, hptop, hpkey, hppre, hpeq⟩ |
      ⟨hnone, q, hq, hqpre, hqcut⟩
    · rw [hpeq, chainLookup_eq_some t k2 top2 _ p
        (by omega)
        (by rw [hcellb p hp]; exact hptop)
        (by rw [hcellb p hp]; exact hpkey)
        (by
          intro l hlp
          rw [hcellb l (by omega)]
          exact hppre l hlp),
        hcellb p hp]
    · have hql : q = b.length := by
        rcases hqcut with hc1 | hc2
        · exact hc1
        · exact absurd hc2 (by
            rcases Nat.lt_or_ge q b.length with hlt | hge
            · have := hprelow q hlt
              omega
            · rw [List.getD_eq_default _ _ (by omega)]
              dsimp only
              omega)
      subst hql
      rw [hnone]
      apply chainLookup_eq_none t k2 top2 htop5 _ (b.length + 1)
        (by omega)
        (by
          intro l hl
          rcases Nat.lt_or_ge l b.length with hlt | hge
          · rw [hcellb l hlt]
            exact hqpre l hlt
          · have hleq : l = b.length := by omega
            rw [hleq, hcellm]
            refine ⟨by dsimp only; omega, ?_⟩
            intro ⟨ht, hk⟩
            exact hk2 ((hkeq _ _).mp hk))
      right
      rw [hcellr (b.length + 1) (by omega) (by omega)]
      rfl

/-- Field bookkeeping for the overflow-insert path of `mapassign`. -/
theorem incrOver_fields {K V : Type} (t : maptype K V) (h : hmap K V) :
    ((if t.bucketPtrdataZero then
        { h.incrnoverflow with overflowReg := true }
      else h.incrnoverflow)).buckets = h.buckets ∧
    ((if t.bucketPtrdataZero then
        { h.incrnoverflow with overflowReg := true }
      else h.incrnoverflow)).oldbuckets = h.oldbuckets ∧
    ((if t.bucketPtrdataZero then
        { h.incrnoverflow with overflowReg := true }
      else h.incrnoverflow)).B = h.B ∧
    ((if t.bucketPtrdataZero then
        { h.incrnoverflow with overflowReg := true }
      else h.incrnoverflow)).flags = h.flags ∧
    ((if t.bucketPtrdataZero then
        { h.incrnoverflow with overflowReg := true }
      else h.incrnoverflow)).count = h.count ∧
    ((if t.bucketPtrdataZero then
        { h.incrnoverflow with overflowReg := true }
      else h.incrnoverflow)).hash0 = h.hash0 ∧
    ((if t.bucketPtrdataZero then
        { h.incrnoverflow with overflowReg := true }
      else h.incrnoverflow)).nevacuate = h.nevacuate := by
  unfold hmap.incrnoverflow
  by_cases hz : t.bucketPtrdataZero = true
  · rw [if_pos hz]
    by_cases hb : h.B < 16
    · rw [if_pos hb]
      exact ⟨rfl, rfl, rfl, rfl, rfl, rfl, rfl⟩
    · rw [if_neg hb]
      exact ⟨rfl, rfl, rfl, rfl, rfl, rfl, rfl⟩
  · rw [if_neg hz]
    by_cases hb : h.B < 16
    · rw [if_pos hb]
      exact ⟨rfl, rfl, rfl, rfl, rfl, rfl, rfl⟩
    · rw [if_neg hb]
      exact ⟨rfl, rfl, rfl, rfl, rfl, rfl, rfl⟩

set_option maxHeartbeats 1000000 in
theorem assignScanStep_sound {K V : Type} [Inhabited K] [Inhabited V]
    (t : maptype K V) (hkeq : ∀ a b, t.keyEqual a b = true ↔ a = b)
    (key : K) (v : V) (hash : Nat)
    (next : hmap K V → Option (Except mapFault Unit × hmap K V))
    (h h1 : hmap K V)
    (hInv : MapInv0 t h) (hbne : h.buckets ≠ [])
    (hhash : t.hasher key h.hash0 = some hash)
    (hred : ∀ oldh, h.oldbuckets = some oldh →
      chainEvacuated (oldh.getD (hash % oldh.length) []) = true)
    (hnext : ∀ h2, MapInv0 t h2 → h2.buckets ≠ [] →
      t.hasher key h2.hash0 = some hash →
      next h2 = some (.ok (), h1) →
      MapInv0 t h1 ∧ h1.flags.hashWriting = false ∧ h1.hash0 = h2.hash0 ∧
      absLookup t h1 key = some v ∧
      (∀ k2, k2 ≠ key → absLookup t h1 k2 = absLookup t h2 k2))
    (hres :
      (match assignScan t key (tophash hash)
          (h.buckets.getD (hash % bucketShift h.B) []) with
        | .found i =>
          some (mapassignDone { h with
            buckets := h.buckets.set (hash % bucketShift h.B)
              ((h.buckets.getD (hash % bucketShift h.B) []).modify
                (fun c => { c with
                  key := if t.needkeyupdate then key else c.key,
                  val := v }) i) })
        | .notFound inserti =>
          if assignGrowCond h then
            match hashGrow h with
            | .error f => some (.error f, h)
            | .ok h2 => next h2
          else
            match inserti with
            | none =>
              some (mapassignDone
                (let hh := h.incrnoverflow
                 let hh2 := if t.bucketPtrdataZero then
                   { hh with overflowReg := true } else hh
                 { hh2 with
                   buckets := hh2.buckets.set (hash % bucketShift h.B)
                     ((h.buckets.getD (hash % bucketShift h.B) []) ++
                       (⟨tophash hash, key, v⟩ ::
                         List.replicate (bucketCnt - 1) (emptyCell K V))),
                   count := hh2.count + 1 }))
            | some i =>
              some (mapassignDone { h with
                buckets := h.buckets.set (hash % bucketShift h.B)
                  ((h.buckets.getD (hash % bucketShift h.B) []).set i
                    ⟨tophash hash, key, v⟩),
                count := h.count + 1 })) = some (.ok (), h1)) :
    MapInv0 t h1 ∧ h1.flags.hashWriting = false ∧ h1.hash0 = h.hash0 ∧
    absLookup t h1 key = some v ∧
    (∀ k2, k2 ≠ key → absLookup t h1 k2 = absLookup t h k2) := by
  have hblen : h.buckets.length = bucketShift h.B := by
    rcases hInv.hlen with hcon | hgood
    · exact absurd hcon hbne
    · exact hgood
  have hbpos : 0 < h.buckets.length := List.length_pos.mpr hbne
  have hbkt : hash % bucketShift h.B < h.buckets.length := by
    rw [hblen]
    exact Nat.mod_lt _ (by rw [← hblen]; omega)
  have hbmem : h.buckets.getD (hash % bucketShift h.B) [] ∈ h.buckets := by
    rw [List.getD_eq_getElem _ _ hbkt]
    exact List.getElem_mem hbkt
  have hbneb : h.buckets.getD (hash % bucketShift h.B) [] ≠ [] :=
    hInv.hne _ hbmem
  have hstate := hInv.hnew (hash % bucketShift h.B) hbkt
  cases hscan : assignScan t key (tophash hash)
      (h.buckets.getD (hash % bucketShift h.B) []) with
  | found i =>
    rw [hscan] at hres
    dsimp only at hres
    simp only [mapassignDone] at hres
    by_cases hwf : h.flags.hashWriting = true
    · rw [hwf] at hres
      simp only [Bool.not_true] at hres
      rw [if_neg (show ¬(false = true) by simp)] at hres
      have hR : h1 = _ :=
        ((Prod.mk.inj (Option.some.inj hres)).2).symm
      obtain ⟨clen, cstate, clive, clook, cother⟩ :=
        assign_found_chain t hkeq key v hash
          (h.buckets.getD (hash % bucketShift h.B) []) i
          h.hash0 h.buckets.length (hash % bucketShift h.B) hscan hstate
      obtain ⟨wInv, wchain, wother⟩ :=
        assign_write_sound t h h1 key hash _ hInv hhash hbne hred
          (by
            intro hcon
            have hl := congrArg List.length hcon
            rw [clen, List.length_nil] at hl
            exact hbneb (List.length_eq_zero.mp hl))
          cstate
          (by
            subst hR
            show _ + h.count ≤ _ + h.count
            rw [clive])
          (fun k2 hk2 hne hh2 =>
            cother k2 (tophash hk2) hne (tophash_ge_min hk2))
          (by subst hR; rfl) (by subst hR; rfl) (by subst hR; rfl)
          (by subst hR; rfl) (by subst hR; rfl) (by subst hR; rfl)
      have wkey : absLookup t h1 key = some v := by
        unfold absLookup
        rw [show h1.hash0 = h.hash0 by subst hR; rfl, hhash]
        dsimp only
        rw [wchain]
        exact clook
      exact ⟨wInv, by subst hR; rfl, by subst hR; rfl, wkey, wother⟩
    · rw [Bool.not_eq_true] at hwf
      rw [hwf] at hres
      simp only [Bool.not_false] at hres
      rw [if_pos trivial] at hres
      exact absurd (Prod.mk.inj (Option.some.inj hres)).1
        (by simp)
  | notFound inserti =>
    rw [hscan] at hres
    dsimp only at hres
    by_cases hgc : assignGrowCond h = true
    · rw [if_pos hgc] at hres
      have hng : h.oldbuckets = none := by
        have hand := (Bool.and_eq_true _ _).mp hgc
        have hg1 : h.growing = false := by
          have := hand.1
          cases hgv : h.growing
          · rfl
          · rw [hgv] at this
            cases this
        unfold hmap.growing at hg1
        exact Option.not_isSome_iff_eq_none.mp (by rw [hg1]; simp)
      cases hhg : hashGrow h with
      | error f =>
        rw [hhg] at hres
        dsimp only at hres
        exact absurd (Prod.mk.inj (Option.some.inj hres)).1 (by simp)
      | ok h2 =>
        rw [hhg] at hres
        dsimp only at hres
        obtain ⟨gInv2, gabs2, gc2, gh02, gw2, gsome2⟩ :=
          hashGrow_sound t h h2 hInv hng hbne hhg
        have hbne2 : h2.buckets ≠ [] := by
          intro hcon
          have := (gInv2.hlazy hcon).2.1
          rw [this] at gsome2
          cases gsome2
        obtain ⟨c1, c2, c3, c4, c5⟩ := hnext h2 gInv2 hbne2
          (by rw [gh02]; exact hhash) hres
        exact ⟨c1, c2, c3.trans gh02, c4,
          fun k2 hk2 => (c5 k2 hk2).trans (gabs2 k2)⟩
    · rw [if_neg hgc] at hres
      cases inserti with
      | some i =>
        dsimp only at hres
        simp only [mapassignDone] at hres
        by_cases hwf : h.flags.hashWriting = true
        · rw [hwf] at hres
          simp only [Bool.not_true] at hres
          rw [if_neg (show ¬(false = true) by simp)] at hres
          have hR : h1 = _ :=
            ((Prod.mk.inj (Option.some.inj hres)).2).symm
          obtain ⟨clen, cstate, clive, clook, cother⟩ :=
            assign_insert_chain t hkeq key v hash
              (h.buckets.getD (hash % bucketShift h.B) []) i
              h.hash0 h.buckets.length (hash % bucketShift h.B) hscan
              hstate hhash (by rw [hblen])
          obtain ⟨wInv, wchain, wother⟩ :=
            assign_write_sound t h h1 key hash _ hInv hhash hbne hred
              (by
                intro hcon
                have hl := congrArg List.length hcon
                rw [clen, List.length_nil] at hl
                exact hbneb (List.length_eq_zero.mp hl))
              cstate
              (by
                subst hR
                show _ + h.count ≤ _ + (h.count + 1)
                rw [clive]
                omega)
              (fun k2 hk2 hne hh2 =>
                cother k2 (tophash hk2) hne (tophash_ge_min hk2))
              (by subst hR; rfl) (by subst hR; rfl) (by subst hR; rfl)
              (by subst hR; rfl) (by subst hR; rfl) (by subst hR; rfl)
          have wkey : absLookup t h1 key = some v := by
            unfold absLookup
            rw [show h1.hash0 = h.hash0 by subst hR; rfl, hhash]
            dsimp only
            rw [wchain]
            exact clook
          exact ⟨wInv, by subst hR; rfl, by subst hR; rfl, wkey, wother⟩
        · rw [Bool.not_eq_true] at hwf
          rw [hwf] at hres
          simp only [Bool.not_false] at hres
          rw [if_pos trivial] at hres
          exact absurd (Prod.mk.inj (Option.some.inj hres)).1
            (by simp)
      | none =>
        dsimp only at hres
        have hio := incrOver_fields t h
        rw [hio.1, hio.2.1, hio.2.2.1, hio.2.2.2.1, hio.2.2.2.2.1,
          hio.2.2.2.2.2.1, hio.2.2.2.2.2.2] at hres
        simp only [mapassignDone] at hres
        by_cases hwf : h.flags.hashWriting = true
        · rw [hwf] at hres
          simp only [Bool.not_true] at hres
          rw [if_neg (show ¬(false = true) by simp)] at hres
          have hR : h1 = _ :=
            ((Prod.mk.inj (Option.some.inj hres)).2).symm
          obtain ⟨cstate, clive, clook, cother⟩ :=
            assign_append_chain t hkeq key v hash
              (h.buckets.getD (hash % bucketShift h.B) [])
              h.hash0 h.buckets.length (hash % bucketShift h.B) hscan
              hstate hhash (by rw [hblen])
          obtain ⟨wInv, wchain, wother⟩ :=
            assign_write_sound t h h1 key hash _ hInv hhash hbne hred
              (by
                intro hcon
                obtain ⟨-, hcon2⟩ := List.append_eq_nil.mp hcon
                cases hcon2)
              cstate
              (by
                subst hR
                show _ + h.count ≤ _ + (h.count + 1)
                rw [clive]
                omega)
              (fun k2 hk2 hne hh2 =>
                cother k2 (tophash hk2) hne (tophash_ge_min hk2))
              (by subst hR; rfl) (by subst hR; rfl) (by subst hR; rfl)
              (by subst hR; rfl) (by subst hR; rfl) (by subst hR; rfl)
          have wkey : absLookup t h1 key = some v := by
            unfold absLookup
            rw [show h1.hash0 = h.hash0 by subst hR; rfl, hhash]
            dsimp only
            rw [wchain]
            exact clook
          exact ⟨wInv, by subst hR; rfl, by subst hR; rfl, wkey, wother⟩
        · rw [Bool.not_eq_true] at hwf
          rw [hwf] at hres
          simp only [Bool.not_false] at hres
          rw [if_pos trivial] at hres
          exact absurd (Prod.mk.inj (Option.some.inj hres)).1
            (by simp)

set_option maxHeartbeats 1000000 in
theorem mapassignLoop_sound {K V : Type} [Inhabited K] [Inhabited V]
    (t : maptype K V) (hkeq : ∀ a b, t.keyEqual a b = true ↔ a = b)
    (key : K) (v : V) (hash : Nat) :
    ∀ (fuel : Nat) (h0 h1 : hmap K V),
    MapInv0 t h0 →
    h0.buckets ≠ [] →
    t.hasher key h0.hash0 = some hash →
    mapassignLoop t key v hash fuel h0 = some (.ok (), h1) →
    MapInv0 t h1 ∧ h1.flags.hashWriting = false ∧
    h1.hash0 = h0.hash0 ∧
    absLookup t h1 key = some v ∧
    (∀ k2, k2 ≠ key → absLookup t h1 k2 = absLookup t h0 k2) := by
  intro fuel
  induction fuel with
  | zero =>
    intro h0 h1 _ _ _ hres
    cases hres
  | succ fuel ih =>
    intro h0 h1 hInv hbne hhash hres
    rw [mapassignLoop] at hres
    dsimp only at hres
    by_cases hgr : h0.growing = true
    · rw [if_pos hgr] at hres
      obtain ⟨old0, hold0⟩ := Option.isSome_iff_exists.mp hgr
      cases hgw : growWork t h0 (hash % bucketShift h0.B) with
      | error f =>
        rw [hgw] at hres
        dsimp only at hres
        exact absurd (Prod.mk.inj (Option.some.inj hres)).1 (by simp)
      | ok h =>
        rw [hgw] at hres
        dsimp only at hres
        obtain ⟨gInv, gabs, gc, gB, gh0, gw, glen, gold⟩ :=
          growWork_sound t hkeq h0 h old0 (hash % bucketShift h0.B)
            hInv hold0 hgw
        have hbne2 : h.buckets ≠ [] := by
          intro hcon
          have hl0 : h0.buckets.length = 0 := by
            rw [← glen, hcon, List.length_nil]
          exact hbne (List.length_eq_zero.mp hl0)
        have hhash2 : t.hasher key h.hash0 = some hash := by
          rw [gh0]
          exact hhash
        have hred2 : ∀ oldh, h.oldbuckets = some oldh →
            chainEvacuated (oldh.getD (hash % oldh.length) []) = true := by
          intro oldh hsomeh
          obtain ⟨len1, ssg1, evac1⟩ := gold oldh hsomeh
          have hdvd := oldlen_dvd_shift t h0 old0 hInv hold0
          have hmm : (hash % bucketShift h0.B) % old0.length
              = hash % old0.length := Nat.mod_mod_of_dvd hash hdvd
          rw [len1, ← hmm]
          exact evac1
        rw [show bucketShift h0.B = bucketShift h.B by rw [gB]] at hres
        obtain ⟨c1, c2, c3, c4, c5⟩ :=
          assignScanStep_sound t hkeq key v hash
            (mapassignLoop t key v hash fuel) h h1 gInv hbne2 hhash2
            hred2 (fun h2 a b c d => ih h2 h1 a b c d) hres
        exact ⟨c1, c2, c3.trans gh0, c4,
          fun k2 hk2 => (c5 k2 hk2).trans (gabs k2)⟩
    · rw [if_neg hgr] at hres
      dsimp only at hres
      rw [Bool.not_eq_true] at hgr
      have hng : h0.oldbuckets = none := by
        unfold hmap.growing at hgr
        exact Option.not_isSome_iff_eq_none.mp (by rw [hgr]; simp)
      have hred : ∀ oldh, h0.oldbuckets = some oldh →
          chainEvacuated (oldh.getD (hash % oldh.length) []) = true := by
        intro oldh hc
        rw [hng] at hc
        cases hc
      exact assignScanStep_sound t hkeq key v hash
        (mapassignLoop t key v hash fuel) h0 h1 hInv hbne hhash
        hred (fun h2 a b c d => ih h2 h1 a b c d) hres


theorem chainLookup_fresh {K V : Type} [Inhabited K] [Inhabited V]
    (t : maptype K V) (key : K) (top : Nat) (htop5 : minTopHash ≤ top) :
    chainLookup t key top (freshBucket K V) = none := by
  apply chainLookup_eq_none t key top htop5 _ 0 (by omega)
    (fun l hl => absurd hl (by omega))
  right
  rw [freshBucket_getD 0 (by decide)]
  rfl

theorem MapInv0_congr {K V : Type} [Inhabited K] [Inhabited V]
    (t : maptype K V) (g h : hmap K V) (hInv : MapInv0 t h)
    (hb : g.buckets = h.buckets) (ho : g.oldbuckets = h.oldbuckets)
    (hB : g.B = h.B) (hs : g.flags.sameSizeGrow = h.flags.sameSizeGrow)
    (hc : g.count = h.count) (hh : g.hash0 = h.hash0)
    (hn : g.nevacuate = h.nevacuate) : MapInv0 t g := by
  obtain ⟨hB0, hlazy, hlen, hne, hnew, hsame, hcount, holdinv⟩ := hInv
  refine ⟨?_, ?_, ?_, ?_, ?_, ?_, ?_, ?_⟩
  · rw [hB]
    exact hB0
  · intro hcon
    rw [hb] at hcon
    rw [hc, ho, hB]
    exact hlazy hcon
  · rw [hb, hB]
    exact hlen
  · rw [hb]
    exact hne
  · rw [hb, hh]
    exact hnew
  · intro hsg
    rw [ho]
    exact hsame (by rw [← hs]; exact hsg)
  · rw [ho, hb, hc]
    exact hcount
  · intro old hsome
    rw [ho] at hsome
    obtain ⟨hss1, holdlen, holdne, hcur, hcurs, hdead, hunev⟩ :=
      holdinv old hsome
    refine ⟨?_, ?_, holdne, ?_, ?_, hdead, ?_⟩
    · intro hx
      rw [hB]
      exact hss1 (by rw [← hs]; exact hx)
    · rw [holdlen, noldbuckets_congr g h hB hs]
    · rw [hn]
      exact hcur
    · intro j hj
      rw [hn] at hj
      exact hcurs j hj
    · intro j hj hje
      obtain ⟨hcs, hfx, hfy⟩ := hunev j hj hje
      refine ⟨by rw [hh]; exact hcs, by rw [hb]; exact hfx, ?_⟩
      intro hx
      rw [hb]
      exact hfy (by rw [← hs]; exact hx)

set_option maxHeartbeats 600000 in
theorem mapassign_sound {K V : Type} [Inhabited K] [Inhabited V]
    (t : maptype K V) (hkeq : ∀ a b, t.keyEqual a b = true ↔ a = b)
    (key : K) (v : V) (fuel : Nat) (h h1 : hmap K V)
    (hInv : MapInv0 t h)
    (hres : mapassign t (some h) key v fuel = some (.ok (), some h1)) :
    MapInv0 t h1 ∧ h1.flags.hashWriting = false ∧
    absLookup t h1 key = some v ∧
    (∀ k2, k2 ≠ key → absLookup t h1 k2 = absLookup t h k2) := by
  unfold mapassign at hres
  dsimp only at hres
  by_cases hwf : h.flags.hashWriting = true
  · rw [if_pos hwf] at hres
    exact absurd (Prod.mk.inj (Option.some.inj hres)).1 (by simp)
  · rw [if_neg hwf] at hres
    cases hhash : t.hasher key h.hash0 with
    | none =>
      rw [hhash] at hres
      dsimp only at hres
      exact absurd (Prod.mk.inj (Option.some.inj hres)).1 (by simp)
    | some hash =>
      rw [hhash] at hres
      dsimp only at hres
      by_cases hemp : h.buckets.isEmpty = true
      · rw [if_pos hemp] at hres
        have hbnil : h.buckets = [] := by
          cases hbl : h.buckets with
          | nil => rfl
          | cons a l =>
            rw [hbl] at hemp
            simp at hemp
        obtain ⟨hcz, hoz, hBz⟩ := hInv.hlazy hbnil
        obtain ⟨HH, hHe, hHb, hHo, hHB, hHs, hHc, hHh, hHn⟩ :
            ∃ g : hmap K V,
              (match mapassignLoop t key v hash fuel g with
                | none => none
                | some (r, h') => some (r, some h')) =
                some (.ok (), some h1) ∧
              g.buckets = [freshBucket K V] ∧ g.oldbuckets = h.oldbuckets ∧
              g.B = h.B ∧
              g.flags.sameSizeGrow = h.flags.sameSizeGrow ∧
              g.count = h.count ∧ g.hash0 = h.hash0 ∧
              g.nevacuate = h.nevacuate :=
          ⟨_, hres, rfl, rfl, rfl, rfl, rfl, rfl, rfl⟩
        have hfr : sumLive [freshBucket K V] = 0 := by
          rw [show [freshBucket K V] = List.replicate 1 (freshBucket K V)
            from rfl, sumLive_replicate_fresh]
        have HHInv : MapInv0 t HH := by
          refine ⟨?_, ?_, ?_, ?_, ?_, ?_, ?_, ?_⟩
          · rw [hHB]
            exact hInv.hB
          · intro hcon
            rw [hHb] at hcon
            cases hcon
          · right
            rw [hHb, hHB, hBz]
            rfl
          · intro c hc
            rw [hHb] at hc
            rcases List.mem_cons.mp hc with rfl | hc2
            · intro hcon
              have := congrArg List.length hcon
              rw [freshBucket_length, List.length_nil] at this
              exact absurd this (by decide)
            · exact absurd hc2 (List.not_mem_nil c)
          · intro i hi
            rw [hHb] at hi ⊢
            rw [List.length_cons, List.length_nil] at hi
            have hi0 : i = 0 := by omega
            rw [hi0, List.getD_cons_zero]
            exact chainState_fresh t _ _ _
          · intro hsg
            rw [hHs] at hsg
            have := hInv.hsame hsg
            rw [hoz] at this
            cases this
          · rw [hHo, hoz, hHb, hHc, Option.getD_none, sumLive_nil, hfr]
            omega
          · intro old hsome
            rw [hHo, hoz] at hsome
            cases hsome
        have habs : ∀ k, absLookup t HH k = absLookup t h k := by
          intro k
          unfold absLookup
          rw [hHh]
          cases hh2 : t.hasher k h.hash0 with
          | none => rfl
          | some hk =>
            dsimp only
            rw [lookupChain_nogrow HH hk (by rw [hHo, hoz]),
              lookupChain_nogrow h hk hoz, hHb, hbnil, hHB, hBz]
            have hsh : bucketShift 0 = 1 := rfl
            rw [hsh, Nat.mod_one, List.getD_cons_zero,
              chainLookup_fresh t k _ (tophash_ge_min hk)]
            rfl
        cases hloop : mapassignLoop t key v hash fuel HH with
        | none =>
          rw [hloop] at hHe
          exact Option.noConfusion hHe
        | some rp =>
          obtain ⟨r, h'⟩ := rp
          rw [hloop] at hHe
          dsimp only at hHe
          obtain ⟨hr, hsome⟩ := Prod.mk.inj (Option.some.inj hHe)
          subst hr
          have hh1 : h' = h1 := Option.some.inj hsome
          subst hh1
          obtain ⟨c1, c2, c3, c4, c5⟩ :=
            mapassignLoop_sound t hkeq key v hash fuel HH h' HHInv
              (by
                rw [hHb]
                intro hcon
                cases hcon)
              (by rw [hHh]; exact hhash) hloop
          exact ⟨c1, c2, c4, fun k2 hk2 => (c5 k2 hk2).trans (habs k2)⟩
      · rw [if_neg hemp] at hres
        have hbne : h.buckets ≠ [] := by
          intro hcon
          rw [hcon] at hemp
          exact hemp rfl
        obtain ⟨HH, hHe, hHb, hHo, hHB, hHs, hHc, hHh, hHn⟩ :
            ∃ g : hmap K V,
              (match mapassignLoop t key v hash fuel g with
                | none => none
                | some (r, h') => some (r, some h')) =
                some (.ok (), some h1) ∧
              g.buckets = h.buckets ∧ g.oldbuckets = h.oldbuckets ∧
              g.B = h.B ∧
              g.flags.sameSizeGrow = h.flags.sameSizeGrow ∧
              g.count = h.count ∧ g.hash0 = h.hash0 ∧
              g.nevacuate = h.nevacuate :=
          ⟨_, hres, rfl, rfl, rfl, rfl, rfl, rfl, rfl⟩
        have HHInv : MapInv0 t HH :=
          MapInv0_congr t HH h hInv hHb hHo hHB hHs hHc hHh hHn
        have habs := absLookup_congr t HH h hHb hHo hHB hHs hHh
        cases hloop : mapassignLoop t key v hash fuel HH with
        | none =>
          rw [hloop] at hHe
          exact Option.noConfusion hHe
        | some rp =>
          obtain ⟨r, h'⟩ := rp
          rw [hloop] at hHe
          dsimp only at hHe
          obtain ⟨hr, hsome⟩ := Prod.mk.inj (Option.some.inj hHe)
          subst hr
          have hh1 : h' = h1 := Option.some.inj hsome
          subst hh1
          obtain ⟨c1, c2, c3, c4, c5⟩ :=
            mapassignLoop_sound t hkeq key v hash fuel HH h' HHInv
              (by rw [hHb]; exact hbne)
              (by rw [hHh]; exact hhash) hloop
          exact ⟨c1, c2, c4, fun k2 hk2 => (c5 k2 hk2).trans (habs k2)⟩

set_option maxHeartbeats 1000000 in
theorem deleteFinish_sound {K V : Type} [Inhabited K] [Inhabited V]
    (t : maptype K V) (hkeq : ∀ a b, t.keyEqual a b = true ↔ a = b)
    (key : K) (hash : Nat) (h2 h1 : hmap K V)
    (hInv2 : MapInv0 t h2) (hbne2 : h2.buckets ≠ [])
    (hw2 : h2.flags.hashWriting = true)
    (hhash2 : t.hasher key h2.hash0 = some hash)
    (hred : ∀ oldh, h2.oldbuckets = some oldh →
      chainEvacuated (oldh.getD (hash % oldh.length) []) = true)
    (hres :
      (let h' := match deleteSearch t key (tophash hash)
          (h2.buckets.getD (hash % bucketShift h2.B) []) 0 with
        | none => h2
        | some j => { h2 with
            buckets := h2.buckets.set (hash % bucketShift h2.B)
              (deleteClear
                (h2.buckets.getD (hash % bucketShift h2.B) []) j),
            count := h2.count - 1 }
       if (!h'.flags.hashWriting) = true then
         (Except.error (mapFault.goThrow "concurrent map writes"), h')
       else (Except.ok (), { h' with flags := h'.flags.clearWriting }))
      = (.ok (), h1)) :
    MapInv0 t h1 ∧ h1.flags.hashWriting = false ∧
    (∀ k2, k2 ≠ key → absLookup t h1 k2 = absLookup t h2 k2) := by
  have hblen : h2.buckets.length = bucketShift h2.B := by
    rcases hInv2.hlen with hcon | hgood
    · exact absurd hcon hbne2
    · exact hgood
  have hbkt : hash % bucketShift h2.B < h2.buckets.length := by
    rw [hblen]
    exact Nat.mod_lt _ (by
      have := List.length_pos.mpr hbne2
      omega)
  have hbmem : h2.buckets.getD (hash % bucketShift h2.B) []
      ∈ h2.buckets := by
    rw [List.getD_eq_getElem _ _ hbkt]
    exact List.getElem_mem hbkt
  have hbneb : h2.buckets.getD (hash % bucketShift h2.B) [] ≠ [] :=
    hInv2.hne _ hbmem
  have hstate := hInv2.hnew (hash % bucketShift h2.B) hbkt
  dsimp only at hres
  cases hsearch : deleteSearch t key (tophash hash)
      (h2.buckets.getD (hash % bucketShift h2.B) []) 0 with
  | none =>
    rw [hsearch] at hres
    dsimp only at hres
    rw [hw2] at hres
    simp only [Bool.not_true] at hres
    rw [if_neg (show ¬(false = true) by simp)] at hres
    have hR : h1 = _ := ((Prod.mk.inj hres).2).symm
    refine ⟨?_, by subst hR; rfl, ?_⟩
    · exact MapInv0_congr t h1 h2 hInv2 (by subst hR; rfl)
        (by subst hR; rfl) (by subst hR; rfl) (by subst hR; rfl)
        (by subst hR; rfl) (by subst hR; rfl) (by subst hR; rfl)
    · intro k2 _
      exact absLookup_congr t h1 h2 (by subst hR; rfl)
        (by subst hR; rfl) (by subst hR; rfl) (by subst hR; rfl)
        (by subst hR; rfl) k2
  | some j =>
    rw [hsearch] at hres
    dsimp only at hres
    rw [hw2] at hres
    simp only [Bool.not_true] at hres
    rw [if_neg (show ¬(false = true) by simp)] at hres
    have hR : h1 = _ := ((Prod.mk.inj hres).2).symm
    obtain ⟨j2, hj2, hjlen, hjtop, hjkey, hjpre⟩ :=
      deleteSearch_found t key (tophash hash) (tophash_ge_min hash)
        (h2.buckets.getD (hash % bucketShift h2.B) []) 0 j hsearch
    have hjj : j = j2 := by omega
    subst hjj
    have e5 : minTopHash = 5 := rfl
    have hjlive : minTopHash ≤
        ((h2.buckets.getD (hash % bucketShift h2.B) []).getD j
          ⟨emptyOne, default, default⟩).top := by
      rw [hjtop]
      exact tophash_ge_min hash
    obtain ⟨hdlen, -⟩ := deleteClear_spec
      (h2.buckets.getD (hash % bucketShift h2.B) []) j hjlen
    have hdlive := deleteClear_liveCount
      (h2.buckets.getD (hash % bucketShift h2.B) []) j hjlen hjlive
    have hlpos : 1 ≤ liveCount
        (h2.buckets.getD (hash % bucketShift h2.B) []) := by
      omega
    have hcpos : 1 ≤ h2.count := by
      have hc1 := hInv2.hcount
      have hc2 := sumLive_getD_le h2.buckets (hash % bucketShift h2.B)
      omega
    obtain ⟨wInv, wchain, wother⟩ :=
      assign_write_sound t h2 h1 key hash
        (deleteClear (h2.buckets.getD (hash % bucketShift h2.B) []) j)
        hInv2 hhash2 hbne2 hred
        (by
          intro hcon
          have hl := congrArg List.length hcon
          rw [hdlen, List.length_nil] at hl
          exact hbneb (List.length_eq_zero.mp hl))
        (chainState_deleteClear t h2.hash0 h2.buckets.length
          (hash % bucketShift h2.B) _ j hjlen hstate)
        (by
          subst hR
          show _ + h2.count ≤ _ + (h2.count - 1)
          omega)
        (fun k2 hk2 hne hh2 =>
          deleteClear_lookup_other t k2 (tophash hk2)
            (tophash_ge_min hk2) _ j hjlen hstate.2 hjlive
            (by
              intro ⟨ht, hk⟩
              exact hne (by
                rw [(hkeq _ _).mp hk, ← (hkeq _ _).mp hjkey])))
        (by subst hR; rfl) (by subst hR; rfl) (by subst hR; rfl)
        (by subst hR; rfl) (by subst hR; rfl) (by subst hR; rfl)
    exact ⟨wInv, by subst hR; rfl, wother⟩

set_option maxHeartbeats 1000000 in
theorem mapdelete_sound {K V : Type} [Inhabited K] [Inhabited V]
    (t : maptype K V) (hkeq : ∀ a b, t.keyEqual a b = true ↔ a = b)
    (key : K) (h h1 : hmap K V)
    (hInv : MapInv0 t h) (hw : h.flags.hashWriting = false)
    (hres : mapdelete t h key = (.ok (), h1)) :
    MapInv0 t h1 ∧ h1.flags.hashWriting = false ∧
    (∀ k2, k2 ≠ key → absLookup t h1 k2 = absLookup t h k2) := by
  unfold mapdelete at hres
  dsimp only at hres
  by_cases hcz : h.count = 0
  · rw [if_pos hcz] at hres
    by_cases hmp : t.hashMightPanic = true
    · rw [if_pos hmp] at hres
      cases hh0 : t.hasher key 0 with
      | none =>
        rw [hh0] at hres
        exact absurd (Prod.mk.inj hres).1 (by simp)
      | some x =>
        rw [hh0] at hres
        have := (Prod.mk.inj hres).2
        subst this
        exact ⟨hInv, hw, fun k2 _ => rfl⟩
    · rw [if_neg hmp] at hres
      have := (Prod.mk.inj hres).2
      subst this
      exact ⟨hInv, hw, fun k2 _ => rfl⟩
  · rw [if_neg hcz] at hres
    rw [if_neg (by rw [hw]; simp)] at hres
    cases hhash : t.hasher key h.hash0 with
    | none =>
      rw [hhash] at hres
      exact absurd (Prod.mk.inj hres).1 (by simp)
    | some hash =>
      rw [hhash] at hres
      dsimp only at hres
      generalize hHS : ({ h with
        flags := { h.flags with hashWriting := true } } : hmap K V)
        = HS at hres
      have hSInv : MapInv0 t HS := MapInv0_congr t HS h hInv
        (by rw [← hHS]) (by rw [← hHS]) (by rw [← hHS]) (by rw [← hHS])
        (by rw [← hHS]) (by rw [← hHS]) (by rw [← hHS])
      have hSabs : ∀ k, absLookup t HS k = absLookup t h k :=
        absLookup_congr t HS h (by rw [← hHS]) (by rw [← hHS])
          (by rw [← hHS]) (by rw [← hHS]) (by rw [← hHS])
      have hSw : HS.flags.hashWriting = true := by
        rw [← hHS]
      have hSbne : HS.buckets ≠ [] := by
        rw [show HS.buckets = h.buckets by rw [← hHS]]
        intro hcon
        exact hcz (hInv.hlazy hcon).1
      have hShash : t.hasher key HS.hash0 = some hash := by
        rw [show HS.hash0 = h.hash0 by rw [← hHS]]
        exact hhash
      have hSB : HS.B = h.B := by rw [← hHS]
      by_cases hgr : HS.growing = true
      · rw [if_pos hgr] at hres
        obtain ⟨old0, hold0⟩ := Option.isSome_iff_exists.mp hgr
        cases hgw : growWork t HS (hash % bucketShift h.B) with
        | error f =>
          rw [hgw] at hres
          dsimp only at hres
          exact absurd (Prod.mk.inj hres).1 (by simp)
        | ok h2 =>
          rw [hgw] at hres
          dsimp only at hres
          obtain ⟨gInv, gabs, gc, gB, gh0, gw, glen, gold⟩ :=
            growWork_sound t hkeq HS h2 old0 (hash % bucketShift h.B)
              hSInv hold0 hgw
          have hbne2 : h2.buckets ≠ [] := by
            intro hcon
            have hl0 : HS.buckets.length = 0 := by
              rw [← glen, hcon, List.length_nil]
            exact hSbne (List.length_eq_zero.mp hl0)
          have hred2 : ∀ oldh, h2.oldbuckets = some oldh →
              chainEvacuated (oldh.getD (hash % oldh.length) [])
                = true := by
            intro oldh hsomeh
            obtain ⟨len1, ssg1, evac1⟩ := gold oldh hsomeh
            have hdvd := oldlen_dvd_shift t HS old0 hSInv hold0
            have hmm : (hash % bucketShift h.B) % old0.length
                = hash % old0.length := by
              rw [← hSB]
              exact Nat.mod_mod_of_dvd hash hdvd
            rw [len1, ← hmm]
            exact evac1
          rw [show bucketShift h.B = bucketShift h2.B by
            rw [gB, hSB]] at hres
          obtain ⟨c1, c2, c3⟩ := deleteFinish_sound t hkeq key hash h2 h1
            gInv hbne2 (by rw [gw]; exact hSw)
            (by rw [gh0]; exact hShash) hred2 hres
          exact ⟨c1, c2, fun k2 hk2 =>
            ((c3 k2 hk2).trans (gabs k2)).trans (hSabs k2)⟩
      · rw [if_neg hgr] at hres
        dsimp only at hres
        rw [Bool.not_eq_true] at hgr
        have hng : HS.oldbuckets = none := by
          unfold hmap.growing at hgr
          exact Option.not_isSome_iff_eq_none.mp (by rw [hgr]; simp)
        have hred : ∀ oldh, HS.oldbuckets = some oldh →
            chainEvacuated (oldh.getD (hash % oldh.length) []) = true := by
          intro oldh hc
          rw [hng] at hc
          cases hc
        rw [show bucketShift h.B = bucketShift HS.B by rw [hSB]] at hres
        obtain ⟨c1, c2, c3⟩ := deleteFinish_sound t hkeq key hash HS h1
          hSInv hSbne hSw hShash hred hres
        exact ⟨c1, c2, fun k2 hk2 => (c3 k2 hk2).trans (hSabs k2)⟩


theorem mapclear_sound {K V : Type} [Inhabited K] [Inhabited V]
    (t : maptype K V) (h h1 : hmap K V)
    (hInv : MapInv0 t h) (hw : h.flags.hashWriting = false)
    (hres : mapclear t h = (.ok (), h1)) :
    MapInv0 t h1 ∧ h1.flags.hashWriting = false := by
  unfold mapclear at hres
  dsimp only at hres
  by_cases hcz : h.count = 0
  · rw [if_pos hcz] at hres
    have := (Prod.mk.inj hres).2
    subst this
    exact ⟨hInv, hw⟩
  · rw [if_neg hcz, if_neg (by rw [hw]; simp)] at hres
    rw [if_neg (show ¬((!true) = true) by simp)] at hres
    have hR : h1 = _ := ((Prod.mk.inj hres).2).symm
    subst hR
    refine ⟨⟨?_, ?_, ?_, ?_, ?_, ?_, ?_, ?_⟩, rfl⟩
    · exact hInv.hB
    · intro hcon
      have hl := congrArg List.length hcon
      unfold makeBucketArray at hl
      rw [List.length_replicate, List.length_nil] at hl
      have := bucketShift_pos h.B
      omega
    · right
      show (makeBucketArray K V h.B).length = bucketShift h.B
      unfold makeBucketArray
      exact List.length_replicate _ _
    · intro c hc
      show c ≠ []
      unfold makeBucketArray at hc
      rw [List.eq_of_mem_replicate hc]
      intro hcon
      have := congrArg List.length hcon
      rw [freshBucket_length, List.length_nil] at this
      exact absurd this (by decide)
    · intro i hi
      show chainState t h.hash0 _ i _
      unfold makeBucketArray at hi ⊢
      rw [List.length_replicate] at hi
      rw [list_getD_replicate _ _ _ _ hi]
      exact chainState_fresh t _ _ _
    · intro hsg
      simp [Flags.clearWriting] at hsg
    · show sumLive ((none : Option (List (Chain K V))).getD []) +
        sumLive (makeBucketArray K V h.B) ≤ 0
      unfold makeBucketArray
      rw [Option.getD_none, sumLive_nil, sumLive_replicate_fresh]
    · intro old hsome
      exact Option.noConfusion hsome

/-- A successful chain walk found an occupied cell. -/
theorem chainLookup_some_live {K V : Type} (t : maptype K V) (key : K)
    (top : Nat) (htop5 : minTopHash ≤ top) :
    ∀ (b : Chain K V) (p : K × V),
      chainLookup t key top b = some p → 1 ≤ liveCount b := by
  intro b
  induction b with
  | nil =>
    intro p hp
    cases hp
  | cons c rest ih =>
    intro p hp
    rw [chainLookup] at hp
    rw [liveCount_cons]
    by_cases hct : c.top = top
    · rw [if_neg (by simp [hct])] at hp
      rw [if_pos (by rw [hct]; exact htop5)]
      omega
    · rw [if_pos (by simpa using hct)] at hp
      by_cases hcr : c.top = emptyRest
      · rw [if_pos hcr] at hp
        cases hp
      · rw [if_neg hcr] at hp
        have := ih p hp
        omega

theorem liveCount_lookupChain_le {K V : Type} [Inhabited K] [Inhabited V]
    (h : hmap K V) (hash : Nat) :
    liveCount (lookupChain h hash) ≤
      sumLive (h.oldbuckets.getD []) + sumLive h.buckets := by
  unfold lookupChain
  cases hold : h.oldbuckets with
  | none =>
    dsimp only
    have := sumLive_getD_le h.buckets (hash % (bucketMask h.B + 1))
    omega
  | some old =>
    dsimp only
    rw [Option.getD_some]
    by_cases hev : chainEvacuated (old.getD
        (hash % ((if !h.isSameSizeGrow then bucketMask h.B >>> 1
          else bucketMask h.B) + 1)) []) = true
    · rw [if_neg (by rw [hev]; simp)]
      have := sumLive_getD_le h.buckets (hash % (bucketMask h.B + 1))
      omega
    · rw [Bool.not_eq_true] at hev
      rw [if_pos (by rw [hev]; rfl)]
      have := sumLive_getD_le old
        (hash % ((if !h.isSameSizeGrow then bucketMask h.B >>> 1
          else bucketMask h.B) + 1))
      omega

theorem absLookup_access {K V : Type} [Inhabited K] [Inhabited V]
    (t : maptype K V) (h : hmap K V) (key : K) (v : V)
    (hInv : MapInv t h) (habs : absLookup t h key = some v) :
    mapaccess1 t (some h) key = .ok (.elem v) ∧
    mapaccess2 t (some h) key = .ok (.elem v, true) := by
  unfold absLookup at habs
  cases hhash : t.hasher key h.hash0 with
  | none =>
    rw [hhash] at habs
    cases habs
  | some hash =>
    rw [hhash] at habs
    dsimp only at habs
    cases hcl : chainLookup t key (tophash hash) (lookupChain h hash) with
    | none =>
      rw [hcl] at habs
      cases habs
    | some p =>
      obtain ⟨pk, pv⟩ := p
      rw [hcl] at habs
      have hpv : pv = v := by
        simpa using habs
      subst hpv
      have hcz : ¬h.count = 0 := by
        intro hcon
        have hlc := chainLookup_some_live t key (tophash hash)
          (tophash_ge_min hash) (lookupChain h hash) (pk, pv) hcl
        have hle := liveCount_lookupChain_le h hash
        have hcnt := hInv.1.hcount
        omega
      constructor
      · unfold mapaccess1
        dsimp only
        rw [if_neg hcz, if_neg (by rw [hInv.2]; simp), hhash]
        dsimp only
        rw [hcl]
      · unfold mapaccess2
        dsimp only
        rw [if_neg hcz, if_neg (by rw [hInv.2]; simp), hhash]
        dsimp only
        rw [hcl]

theorem applyOp_sound {K V : Type} [Inhabited K] [Inhabited V]
    (t : maptype K V) (hkeq : ∀ a b, t.keyEqual a b = true ↔ a = b)
    (h h1 : hmap K V) (op : MapOp K V)
    (hInv : MapInv t h)
    (happ : applyOp t h op = some h1) :
    MapInv t h1 ∧
    (∀ k2, (∀ v', op ≠ .put k2 v') → op ≠ .del k2 → op ≠ .clr →
      absLookup t h1 k2 = absLookup t h k2) ∧
    (∀ k2 v2, op = .put k2 v2 → absLookup t h1 k2 = some v2) := by
  cases op with
  | put k v =>
    simp only [applyOp] at happ
    cases hma : mapassign t (some h) k v assignFuel with
    | none =>
      rw [hma] at happ
      cases happ
    | some rp =>
      obtain ⟨r, oh⟩ := rp
      rw [hma] at happ
      cases r with
      | error f =>
        cases happ
      | ok u =>
        cases u
        cases oh with
        | none => cases happ
        | some h' =>
          dsimp only at happ
          have hh1 : h' = h1 := Option.some.inj happ
          subst hh1
          obtain ⟨c1, c2, c3, c4⟩ :=
            mapassign_sound t hkeq k v assignFuel h h' hInv.1 hma
          refine ⟨⟨c1, c2⟩, ?_, ?_⟩
          · intro k2 hnp _ _
            refine c4 k2 ?_
            intro hcon
            subst hcon
            exact hnp v rfl
          · intro k2 v2 heq
            cases heq
            exact c3
  | del k =>
    simp only [applyOp] at happ
    cases hmd : mapdelete t h k with
    | mk r h' =>
      rw [hmd] at happ
      cases r with
      | error f => cases happ
      | ok u =>
        cases u
        dsimp only at happ
        have hh1 : h' = h1 := Option.some.inj happ
        subst hh1
        obtain ⟨c1, c2, c3⟩ :=
          mapdelete_sound t hkeq k h h' hInv.1 hInv.2 hmd
        refine ⟨⟨c1, c2⟩, ?_, ?_⟩
        · intro k2 _ hnd _
          refine c3 k2 ?_
          intro hcon
          subst hcon
          exact hnd rfl
        · intro k2 v2 heq
          cases heq
  | clr =>
    simp only [applyOp] at happ
    cases hmc : mapclear t h with
    | mk r h' =>
      rw [hmc] at happ
      cases r with
      | error f => cases happ
      | ok u =>
        cases u
        dsimp only at happ
        have hh1 : h' = h1 := Option.some.inj happ
        subst hh1
        obtain ⟨c1, c2⟩ := mapclear_sound t h h' hInv.1 hInv.2 hmc
        refine ⟨⟨c1, c2⟩, ?_, ?_⟩
        · intro k2 _ _ hnc
          exact absurd rfl hnc
        · intro k2 v2 heq
          cases heq
  | get k =>
    simp only [applyOp] at happ
    cases hmg : mapaccess1 t (some h) k with
    | error f =>
      rw [hmg] at happ
      cases happ
    | ok p =>
      rw [hmg] at happ
      dsimp only at happ
      have hh1 : h = h1 := Option.some.inj happ
      subst hh1
      exact ⟨hInv, fun k2 _ _ _ => rfl, fun k2 v2 heq => by cases heq⟩

theorem runOps_sound {K V : Type} [Inhabited K] [Inhabited V]
    (t : maptype K V) (hkeq : ∀ a b, t.keyEqual a b = true ↔ a = b) :
    ∀ (ops : List (MapOp K V)) (h h1 : hmap K V),
    MapInv t h →
    runOps t h ops = some h1 →
    MapInv t h1 ∧
    ∀ key, (∀ op ∈ ops, (∀ v', op ≠ .put key v') ∧ op ≠ .del key ∧
        op ≠ .clr) →
      absLookup t h1 key = absLookup t h key := by
  intro ops
  induction ops with
  | nil =>
    intro h h1 hInv hrun
    have : h = h1 := Option.some.inj hrun
    subst this
    exact ⟨hInv, fun _ _ => rfl⟩
  | cons op ops ih =>
    intro h h1 hInv hrun
    rw [runOps] at hrun
    cases happ : applyOp t h op with
    | none =>
      rw [happ] at hrun
      cases hrun
    | some h2 =>
      rw [happ] at hrun
      dsimp only at hrun
      obtain ⟨aInv, apres, -⟩ := applyOp_sound t hkeq h h2 op hInv happ
      obtain ⟨rInv, rpres⟩ := ih h2 h1 aInv hrun
      refine ⟨rInv, ?_⟩
      intro key hben
      have hop := hben op (List.mem_cons_self _ _)
      refine (rpres key ?_).trans
        (apres key hop.1 hop.2.1 hop.2.2)
      intro op2 hop2
      exact hben op2 (List.mem_cons_of_mem _ hop2)

theorem runOps_append {K V : Type} [Inhabited K] [Inhabited V]
    (t : maptype K V) :
    ∀ (l1 l2 : List (MapOp K V)) (h : hmap K V),
    runOps t h (l1 ++ l2) =
      match runOps t h l1 with
      | none => none
      | some h' => runOps t h' l2 := by
  intro l1
  induction l1 with
  | nil =>
    intro l2 h
    rfl
  | cons op ops ih =>
    intro l2 h
    rw [List.cons_append, runOps, runOps]
    cases happ : applyOp t h op with
    | none => rfl
    | some h2 =>
      dsimp only
      exact ih l2 h2

theorem makemapFindBAux_le (hint : Int) :
    ∀ fuel b, b ≤ 63 → makemapFindBAux hint b fuel ≤ 63 := by
  intro fuel
  induction fuel with
  | zero =>
    intro b hb
    exact hb
  | succ fuel ih =>
    intro b hb
    rw [makemapFindBAux]
    by_cases hov : overLoadFactor hint b = true
    · rw [if_pos hov]
      apply ih
      by_contra hc
      push_neg at hc
      have hb63 : b = 63 := by omega
      rw [hb63, overLoadFactor_63] at hov
      cases hov
    · rw [if_neg hov]
      exact hb

theorem makemapCore_inv {K V : Type} [Inhabited K] [Inhabited V]
    (t : maptype K V) (hint : Int) (seed : Nat) :
    MapInv t (makemapCore K V hint seed) := by
  unfold makemapCore makemapFindB
  dsimp only
  refine ⟨⟨?_, ?_, ?_, ?_, ?_, ?_, ?_, ?_⟩, rfl⟩
  · exact makemapFindBAux_le hint 64 0 (by omega)
  · intro hcon
    refine ⟨rfl, rfl, ?_⟩
    by_cases hB0 : makemapFindBAux hint 0 64 ≠ 0
    · rw [if_pos hB0] at hcon
      exfalso
      have hl := congrArg List.length hcon
      unfold makeBucketArray at hl
      rw [List.length_replicate, List.length_nil] at hl
      have := bucketShift_pos (makemapFindBAux hint 0 64)
      omega
    · push_neg at hB0
      exact hB0
  · by_cases hB0 : makemapFindBAux hint 0 64 ≠ 0
    · right
      rw [if_pos hB0]
      unfold makeBucketArray
      exact List.length_replicate _ _
    · left
      rw [if_neg hB0]
  · intro c hc
    by_cases hB0 : makemapFindBAux hint 0 64 ≠ 0
    · rw [if_pos hB0] at hc
      unfold makeBucketArray at hc
      rw [List.eq_of_mem_replicate hc]
      intro hcon
      have := congrArg List.length hcon
      rw [freshBucket_length, List.length_nil] at this
      exact absurd this (by decide)
    · rw [if_neg hB0] at hc
      exact absurd hc (List.not_mem_nil c)
  · intro i hi
    by_cases hB0 : makemapFindBAux hint 0 64 ≠ 0
    · rw [if_pos hB0] at hi ⊢
      unfold makeBucketArray at hi ⊢
      rw [List.length_replicate] at hi
      rw [list_getD_replicate _ _ _ _ hi]
      exact chainState_fresh t _ _ _
    · rw [if_neg hB0] at hi
      rw [List.length_nil] at hi
      omega
  · intro hsg
    cases hsg
  · show sumLive ((none : Option (List (Chain K V))).getD []) + _ ≤ 0
    rw [Option.getD_none, sumLive_nil]
    by_cases hB0 : makemapFindBAux hint 0 64 ≠ 0
    · rw [if_pos hB0]
      unfold makeBucketArray
      rw [sumLive_replicate_fresh]
    · rw [if_neg hB0, sumLive_nil]
  · intro old hsome
    exact Option.noConfusion hsome

/-- C1: insertion persistence.  Starting from `makemap`, after any
operation sequence containing a `put key v` followed by no later
`put key`, `delete key` or `clear`, a `get key` (`mapaccess1`) returns a
pointer to `v`, and get-with-presence (`mapaccess2`) additionally reports
`present = true` — across any doubling or same-size grows started or
completed anywhere in the sequence (the grow machinery is exercised
through `growWork`/`evacuate`/`hashGrow` inside `mapassign` and
`mapdelete`). -/
theorem insertion_persistence {K V : Type} [Inhabited K] [Inhabited V]
    (t : maptype K V) (hkeq : ∀ a b, t.keyEqual a b = true ↔ a = b)
    (bucketsize maxAlloc : Nat) (hint : Int) (seed : Nat)
    (pre post : List (MapOp K V)) (key : K) (v : V) (h1 : hmap K V)
    (hpost : ∀ op ∈ post, (∀ v', op ≠ .put key v') ∧ op ≠ .del key ∧
      op ≠ .clr)
    (hrun : runOps t (makemap K V bucketsize maxAlloc hint seed)
      (pre ++ .put key v :: post) = some h1) :
    mapaccess1 t (some h1) key = .ok (.elem v) ∧
    mapaccess2 t (some h1) key = .ok (.elem v, true) := by
  have hInv0 : MapInv t (makemap K V bucketsize maxAlloc hint seed) := by
    unfold makemap
    exact makemapCore_inv t _ seed
  rw [runOps_append] at hrun
  cases hpre : runOps t (makemap K V bucketsize maxAlloc hint seed)
      pre with
  | none =>
    rw [hpre] at hrun
    cases hrun
  | some hA =>
    rw [hpre] at hrun
    dsimp only at hrun
    rw [runOps] at hrun
    cases happ : applyOp t hA (.put key v) with
    | none =>
      rw [happ] at hrun
      cases hrun
    | some hB =>
      rw [happ] at hrun
      dsimp only at hrun
      obtain ⟨hAInv, -⟩ := runOps_sound t hkeq pre _ hA hInv0 hpre
      obtain ⟨hBInv, -, hBput⟩ := applyOp_sound t hkeq hA hB _ hAInv happ
      have hBk : absLookup t hB key = some v := hBput key v rfl
      obtain ⟨h1Inv, h1pres⟩ := runOps_sound t hkeq post hB h1 hBInv hrun
      have h1k : absLookup t h1 key = some v := by
        rw [h1pres key hpost]
        exact hBk
      exact absLookup_access t h1 key v h1Inv h1k

theorem insertion_persistence_witness :
    mapaccess1 tNat (some ((runOps tNat (makemap Nat Nat 48 65536 0 0)
        ([] ++ .put 3 42 :: [])).getD (makemap_small Nat Nat 0))) 3
      = .ok (.elem 42) ∧
    mapaccess2 tNat (some ((runOps tNat (makemap Nat Nat 48 65536 0 0)
        ([] ++ .put 3 42 :: [])).getD (makemap_small Nat Nat 0))) 3
      = .ok (.elem 42, true) :=
  insertion_persistence tNat (fun a b => beq_iff_eq) 48 65536 0 0
    [] [] 3 42 _
    (fun op hop => absurd hop (List.not_mem_nil op))
    (by rfl)

end GoMap
